import Mathlib

/-!
# Sigma-point Gaussian filter: unscented transform, predict and update

A shallow embedding of

* `include/fast_filtering/filtering_library/filter/gaussian/unscented_transform.hpp`
  (`fl::UnscentedTransform`),
* `include/fl/filter/gaussian/gaussian_filter_ukf.hpp` (`fl::GaussianFilter`),
* `include/fl/model/process/joint_process_model_iid.hpp` (`fl::JointProcessModel`), and
* `normalize`, `sigmoid`, `logit` and `erfinv` of `include/fl/util/math.hpp`.

Conventions of the embedding

* `double` is an exact scalar: every definition is written over an arbitrary
  field `K` (instantiated at `ℚ` to evaluate, at `ℝ` where a square root is
  needed).  Rounding, infinities and NaN are not modelled; a division by zero
  follows the field convention `x / 0 = 0`, so every theorem that relies on a
  quotient carries the hypothesis that makes its denominator non-zero.  The
  posterior that `update` computes from a singular `cov_yy`, which is not
  finite in the code, is marked by `GaussianFilter.update_posterior`.
* `std::sqrt`, `std::exp` and `std::log` are passed to the definitions as the
  arguments `sqrt`, `exp` and `log`.
* `sigmoid` and `logit` keep the effects of `double` arithmetic that decide
  their range: the overflow of `std::exp`, the rounding of `1.0 + e` to `1.0`,
  and the results of `logit` that are not finite.
* Sizes, indices and dimensions (`size_t`, `int`) are mathematical integers.
  The 32-bit arithmetic of `int` is modelled for `number_of_points`, in
  `number_of_points_int`.
* A mutating member function returns an `Outcome`: the object as the call
  leaves it together with the exception that ended the call, if any.
* The vector type `Point` of a point set and of the Gaussian it is filled from
  is one C++ type; its length is the type index `n` of `PointSet K n` and
  `Gaussian K n`.  The joint process model is given a second time on vectors
  of run-time size (`JointProcessModel.predict_state_sized`), where the number
  of rows of a vector is a value and Eigen's size assertions can fail.
-/

namespace fl

/-! ## Exceptions and outcomes -/

/-- The exceptions of `fl/exception/exception.hpp` that the transform and the
point set raise. -/
inductive Error where
  | WrongSizeException
  | ResizingFixedSizeEntityException
  | OutOfBoundsException (index size : Nat)
  deriving DecidableEq, Repr

/-- The object a mutating call leaves behind, and the exception that ended the
call (`none` when it returned normally). -/
structure Outcome (σ : Type) where
  state : σ
  thrown : Option Error

/-- A call that returned normally. -/
def Outcome.ok {σ : Type} (s : σ) : Outcome σ := ⟨s, none⟩

/-- A call ended by the exception `e`, leaving the object as `s`. -/
def Outcome.throw {σ : Type} (s : σ) (e : Error) : Outcome σ := ⟨s, some e⟩

/-- Sequencing of statements: the second statement runs only when the first
returned normally. -/
def Outcome.andThen {σ : Type} (r : Outcome σ) (f : σ → Outcome σ) : Outcome σ :=
  match r.thrown with
  | none => f r.state
  | some _ => r

/-- The statements `body i` for the indices `i` of a list, in order, stopping
at the first exception. -/
def forEach {σ : Type} (body : Nat → σ → Outcome σ) : List Nat → σ → Outcome σ
  | [], s => Outcome.ok s
  | i :: is, s => (body i s).andThen (forEach body is)

/-- The loop `for (size_t i = start; i < limit; ++i) body(i)`. -/
def forLoop {σ : Type} (start limit : Nat) (body : Nat → σ → Outcome σ) (s : σ) :
    Outcome σ :=
  forEach body (List.range' start (limit - start)) s

/-! ## Scalars of the unscented transform -/

/-- The value of `Eigen::Dynamic`. -/
def Dynamic : Int := -1

/-- The parameters `alpha_`, `beta_`, `kappa_` of `UnscentedTransform`. -/
structure UnscentedTransform (K : Type) where
  alpha_ : K
  beta_ : K
  kappa_ : K

/-- The constructor `UnscentedTransform(alpha = 1., beta = 2., kappa = 0.)`
with its default arguments. -/
def UnscentedTransform.default (K : Type) [Field K] : UnscentedTransform K :=
  ⟨1, 2, 0⟩

/-- The function `number_of_points(int dimension)` on unbounded integers: the
number that `forward` compares the size of a point set with.  The width of
`int` is the subject of `number_of_points_int`. -/
def number_of_points (dimension : Int) : Int :=
  if dimension ≠ Dynamic then 2 * dimension + 1 else 0

/-- The value of an expression of type `int` whose exact value is `v`: `int`
has 32 bits in two's complement, and the arithmetic wraps. -/
def wrap_int (v : Int) : Int := (v + 2 ^ 31) % 2 ^ 32 - 2 ^ 31

/-- The conversion of an `int` to `size_t`, an unsigned type of 64 bits. -/
def to_size_t (v : Int) : Int := v % 2 ^ 64

/-- The function `number_of_points(int dimension)` as the machine computes it:
the product `2 * dimension` and the sum with `1` are taken in `int`, and the
`return` converts the value to `size_t`. -/
def number_of_points_int (dimension : Int) : Int :=
  if dimension ≠ Dynamic then to_size_t (wrap_int (wrap_int (2 * dimension) + 1))
  else to_size_t 0

section Scalars

variable {K : Type} [Field K]

/-- The function `lambda_scalar(dim)`. -/
def UnscentedTransform.lambda_scalar (ut : UnscentedTransform K) (dim : K) : K :=
  ut.alpha_ * ut.alpha_ * (dim + ut.kappa_) - dim

/-- The function `weight_mean_0(dim)`. -/
def UnscentedTransform.weight_mean_0 (ut : UnscentedTransform K) (dim : K) : K :=
  ut.lambda_scalar dim / (dim + ut.lambda_scalar dim)

/-- The function `weight_cov_0(dim)`. -/
def UnscentedTransform.weight_cov_0 (ut : UnscentedTransform K) (dim : K) : K :=
  ut.weight_mean_0 dim + (1 - ut.alpha_ * ut.alpha_ + ut.beta_)

/-- The function `weight_mean_i(dim)`. -/
def UnscentedTransform.weight_mean_i (ut : UnscentedTransform K) (dim : K) : K :=
  1 / (2 * (dim + ut.lambda_scalar dim))

/-- The function `weight_cov_i(dim)`. -/
def UnscentedTransform.weight_cov_i (ut : UnscentedTransform K) (dim : K) : K :=
  ut.weight_mean_i dim

/-- The function `gamma_factor(dim)`. -/
def UnscentedTransform.gamma_factor (sqrt : K → K) (ut : UnscentedTransform K)
    (dim : K) : K :=
  sqrt (dim + ut.lambda_scalar dim)

end Scalars

/-! ## Point sets and Gaussians -/

/-- The pair `Weight{w_mean, w_cov}` of a point. -/
structure Weight (K : Type) where
  w_mean : K
  w_cov : K

/-- One entry of a point set: a vector and its weight pair. -/
structure WeightedPoint (K : Type) (n : Nat) where
  point : Fin n → K
  weight : Weight K

/-- Modelled from the spec: the container `PointSet<Point, NumberOfPoints>` of
`point_set.hpp`, which is not among the sources: an ordered sequence of
weighted points of dimension `n`.  `NumberOfPoints` is the template argument
and `IsFixed` the value of `IsFixed<NumberOfPoints>()` (`traits.hpp` is not
among the sources either).  The spec does not say what a reallocation stores,
so `fresh c` stands for the entry that fills storage allocated for `c`
points. -/
structure PointSet (K : Type) (n : Nat) where
  NumberOfPoints : Int
  IsFixed : Bool
  entries : List (WeightedPoint K n)
  fresh : Nat → WeightedPoint K n

/-- Modelled from the spec: the Gaussian of `gaussian.hpp`, which is not among
the sources: mean, covariance and the cached square root of the covariance. -/
structure Gaussian (K : Type) (n : Nat) where
  Mean : Fin n → K
  Covariance : Matrix (Fin n) (Fin n) K
  SquareRoot : Matrix (Fin n) (Fin n) K

section Containers

variable {K : Type} [Field K] {n : Nat}

/-- The accessor `Dimension()` of a Gaussian. -/
def Gaussian.Dimension (_g : Gaussian K n) : Nat := n

/-- Modelled from the spec: the standard normal Gaussian `Gaussian<Noise>(dim)`,
zero mean and unit covariance. -/
def Gaussian.standard (K : Type) [Field K] (n : Nat) : Gaussian K n :=
  ⟨0, 1, 1⟩

/-- Modelled from the spec: the setter `mean(vector)` of a Gaussian. -/
def Gaussian.set_mean (m : Fin n → K) (g : Gaussian K n) : Gaussian K n :=
  { g with Mean := m }

/-- Modelled from the spec: the setter `covariance(matrix)` of a Gaussian; the
cached square root is refreshed with `factor`, the factorisation the Gaussian
class uses. -/
def Gaussian.set_covariance (factor : Matrix (Fin n) (Fin n) K → Matrix (Fin n) (Fin n) K)
    (c : Matrix (Fin n) (Fin n) K) (g : Gaussian K n) : Gaussian K n :=
  { g with Covariance := c, SquareRoot := factor c }

/-- The column `m.col(j)` of a matrix.  Eigen asserts `j < cols`; the loops of
`forward` only ask for columns in range. -/
def col {a b : Nat} (m : Matrix (Fin a) (Fin b) K) (j : Nat) : Fin a → K :=
  fun r => if h : j < b then m r ⟨j, h⟩ else 0

/-- Modelled from the spec: `count_points()`, the number of points. -/
def PointSet.count_points (ps : PointSet K n) : Nat := ps.entries.length

/-- Modelled from the spec: the constructor `PointSet(dimension, points_count)`. -/
def PointSet.create (NumberOfPoints : Int) (IsFixed : Bool)
    (fresh : Nat → WeightedPoint K n) (points_count : Nat) : PointSet K n :=
  ⟨NumberOfPoints, IsFixed, List.replicate points_count (fresh points_count), fresh⟩

/-- Modelled from the spec: `resize(count)`.  Resizing a fixed-size set to a
different count is an error; a dynamic set is reallocated. -/
def PointSet.resize (points_count : Nat) (ps : PointSet K n) : Outcome (PointSet K n) :=
  if points_count = ps.count_points then Outcome.ok ps
  else if ps.IsFixed = true then Outcome.throw ps Error.ResizingFixedSizeEntityException
  else Outcome.ok { ps with entries := List.replicate points_count (ps.fresh points_count) }

/-- Modelled from the spec: `point(i, vector, weight)` sets entry `i` and fails
with the out-of-bounds error if `i ≥ count`. -/
def PointSet.point (i : Nat) (p : Fin n → K) (w : Weight K) (ps : PointSet K n) :
    Outcome (PointSet K n) :=
  if i < ps.count_points then Outcome.ok { ps with entries := ps.entries.set i ⟨p, w⟩ }
  else Outcome.throw ps (Error.OutOfBoundsException i ps.count_points)

/-- Modelled from the spec: the read access `point(i)`, with the out-of-bounds
error if `i ≥ count`. -/
def PointSet.point_get (ps : PointSet K n) (i : Nat) : Except Error (Fin n → K) :=
  match ps.entries[i]? with
  | some e => Except.ok e.point
  | none => Except.error (Error.OutOfBoundsException i ps.count_points)

/-- Modelled from the spec: `point(i, vector)` stores the vector of entry `i`
and keeps its weight pair; out-of-bounds error if `i ≥ count`. -/
def PointSet.point_vec (i : Nat) (p : Fin n → K) (ps : PointSet K n) :
    Outcome (PointSet K n) :=
  match ps.entries[i]? with
  | some e => Outcome.ok { ps with entries := ps.entries.set i ⟨p, e.weight⟩ }
  | none => Outcome.throw ps (Error.OutOfBoundsException i ps.count_points)

/-- Modelled from the spec: the default constructor `PointSet()`: a fixed-size
set has its declared number of points, a dynamic one has none. -/
def PointSet.create_default (NumberOfPoints : Int) (IsFixed : Bool)
    (fresh : Nat → WeightedPoint K n) : PointSet K n :=
  PointSet.create NumberOfPoints IsFixed fresh (if IsFixed then NumberOfPoints.toNat else 0)

/-- Modelled from the spec: the entry read at index `i`, if there is one. -/
def PointSet.entry (ps : PointSet K n) (i : Nat) : Option (WeightedPoint K n) :=
  ps.entries[i]?

/-- Modelled from the spec: `mean()`, the weighted mean `Σ_i w_mean[i] · point[i]`. -/
def PointSet.mean (ps : PointSet K n) : Fin n → K :=
  (ps.entries.map fun e => e.weight.w_mean • e.point).sum

/-- Modelled from the spec: `centered_points()`, the columns `point[i] − mean()`. -/
def PointSet.centered_points (ps : PointSet K n) : List (Fin n → K) :=
  ps.entries.map fun e => e.point - ps.mean

/-- Modelled from the spec: `covariance_weights_vector()`, the values `w_cov[i]`. -/
def PointSet.covariance_weights_vector (ps : PointSet K n) : List K :=
  ps.entries.map fun e => e.weight.w_cov

/-- The Eigen product `X * W.asDiagonal() * Y.transpose()` of matrices given by
their columns and a vector of weights: the sum of `W[i] · X[:,i] · Y[:,i]ᵗ`.
Eigen asserts that the three sizes agree. -/
def mul_diag_transpose {a b : Nat} :
    List (Fin a → K) → List K → List (Fin b → K) → Matrix (Fin a) (Fin b) K
  | x :: X, w :: W, y :: Y =>
    Matrix.of (fun r c => x r * w * y c) + mul_diag_transpose X W Y
  | _, _, _ => 0

end Containers

/-! ## The unscented transform -/

section Transform

variable {K : Type} [Field K] {n : Nat}

/-- The member `forward(gaussian, global_dimension, dimension_offset, point_set)`. -/
def UnscentedTransform.forward (sqrt : K → K) (ut : UnscentedTransform K)
    (gaussian : Gaussian K n) (global_dimension dimension_offset : Nat)
    (point_set : PointSet K n) : Outcome (PointSet K n) :=
  let dim : K := (global_dimension : K)
  let point_count : Int := number_of_points (global_dimension : Int)
  if point_set.IsFixed = true ∧ point_set.NumberOfPoints ≠ point_count then
    Outcome.throw point_set Error.WrongSizeException
  else
    (point_set.resize point_count.toNat).andThen fun point_set =>
    let covariance_sqrt : Matrix (Fin n) (Fin n) K :=
      fun r c => gaussian.SquareRoot r c * ut.gamma_factor sqrt dim
    let mean := gaussian.Mean
    (point_set.point 0 mean ⟨ut.weight_mean_0 dim, ut.weight_cov_0 dim⟩).andThen
    fun point_set =>
    let weight_i : Weight K := ⟨ut.weight_mean_i dim, ut.weight_cov_i dim⟩
    let start_1 := 1
    let limit_1 := start_1 + dimension_offset
    let limit_2 := limit_1 + gaussian.Dimension
    let limit_3 := global_dimension
    (forLoop start_1 limit_1 (fun i ps =>
      (ps.point i mean weight_i).andThen
        (PointSet.point (global_dimension + i) mean weight_i)) point_set).andThen
    fun point_set =>
    (forLoop limit_1 limit_2 (fun i ps =>
      let point_shift := col covariance_sqrt (i - dimension_offset - 1)
      (ps.point i (mean + point_shift) weight_i).andThen
        (PointSet.point (global_dimension + i) (mean - point_shift) weight_i))
      point_set).andThen
    fun point_set =>
    forLoop limit_2 (limit_3 + 1) (fun i ps =>
      (ps.point i mean weight_i).andThen
        (PointSet.point (global_dimension + i) mean weight_i)) point_set

/-- The member `forward(gaussian, point_set)`. -/
def UnscentedTransform.forward₂ (sqrt : K → K) (ut : UnscentedTransform K)
    (gaussian : Gaussian K n) (point_set : PointSet K n) : Outcome (PointSet K n) :=
  ut.forward sqrt gaussian gaussian.Dimension 0 point_set

/-- The point layout of the transform in closed form, following the spec
("Point layout (size `2D+1`, indices `0..2D`)"): the entry at index `i` for the
global dimension `D` and the offset `o`.  It is compared with `forward` in
`forward_eq_layout`. -/
def layout (sqrt : K → K) (ut : UnscentedTransform K) (gaussian : Gaussian K n)
    (D o i : Nat) : WeightedPoint K n :=
  let shift : Matrix (Fin n) (Fin n) K :=
    fun r c => gaussian.SquareRoot r c * ut.gamma_factor sqrt (D : K)
  let weight_i : Weight K := ⟨ut.weight_mean_i (D : K), ut.weight_cov_i (D : K)⟩
  if i = 0 then ⟨gaussian.Mean, ⟨ut.weight_mean_0 (D : K), ut.weight_cov_0 (D : K)⟩⟩
  else if o + 1 ≤ i ∧ i < o + 1 + n then
    ⟨gaussian.Mean + col shift (i - o - 1), weight_i⟩
  else if D + (o + 1) ≤ i ∧ i < D + (o + 1) + n then
    ⟨gaussian.Mean - col shift (i - D - o - 1), weight_i⟩
  else ⟨gaussian.Mean, weight_i⟩

end Transform

/-! ## The Gaussian filter -/

/-- The process model interface: `state_dimension() = ds`,
`noise_dimension() = dq`, `input_dimension() = du` and `predict_state`. -/
structure ProcessModel (K : Type) (ds dq du : Nat) where
  predict_state : K → (Fin ds → K) → (Fin dq → K) → (Fin du → K) → (Fin ds → K)

/-- The observation model interface: `noise_dimension() = dr`,
`observation_dimension() = dy` and `predict_observation`. -/
structure ObservationModel (K : Type) (ds dr dy : Nat) where
  predict_observation : (Fin ds → K) → (Fin dr → K) → K → (Fin dy → K)

/-- The members of `GaussianFilter`.  The scratch matrices `X`, `Y` are kept by
their columns, `W` by its entries. -/
structure GaussianFilter (K : Type) (ds dq du dr dy : Nat) where
  threshold : K
  inv_sigma : K
  process_model_ : ProcessModel K ds dq du
  obsrv_model_ : ObservationModel K ds dr dy
  point_set_transform_ : UnscentedTransform K
  global_dimension_ : Nat
  X_r : PointSet K ds
  X_y : PointSet K dy
  X_Q : PointSet K dq
  X_R : PointSet K dr
  prediction : Fin dy → K
  innovation : Fin dy → K
  X : List (Fin ds → K)
  Y : List (Fin dy → K)
  W : List K

section Filter

variable {K : Type} [Field K] {ds dq du dr dy : Nat}

/-- The accessor `state_dimension()`. -/
def ProcessModel.state_dimension (_m : ProcessModel K ds dq du) : Nat := ds

/-- The accessor `noise_dimension()` of the process model. -/
def ProcessModel.noise_dimension (_m : ProcessModel K ds dq du) : Nat := dq

/-- The accessor `noise_dimension()` of the observation model. -/
def ObservationModel.noise_dimension (_m : ObservationModel K ds dr dy) : Nat := dr

/-- The accessor `observation_dimension()`. -/
def ObservationModel.observation_dimension (_m : ObservationModel K ds dr dy) : Nat := dy

/-- The constructor `GaussianFilter(process_model, obsrv_model,
point_set_transform)`.  `NumberOfPoints` and `IsFixed` are the trait
`Traits<GaussianFilter>::NumberOfPoints` shared by the four point sets
(`JoinSizes` is not among the sources), the `fresh_*` are the allocation
contents of the four sets, and `threshold`, `inv_sigma` are the public members
the caller sets.  When the constructor throws there is no object: `state` then
holds the members as built so far. -/
def GaussianFilter.create (sqrt : K → K) (process_model : ProcessModel K ds dq du)
    (obsrv_model : ObservationModel K ds dr dy) (point_set_transform : UnscentedTransform K)
    (NumberOfPoints : Int) (IsFixed : Bool)
    (fresh_r : Nat → WeightedPoint K ds) (fresh_y : Nat → WeightedPoint K dy)
    (fresh_Q : Nat → WeightedPoint K dq) (fresh_R : Nat → WeightedPoint K dr)
    (threshold inv_sigma : K) : Outcome (GaussianFilter K ds dq du dr dy) :=
  let global_dimension_ := process_model.state_dimension + process_model.noise_dimension
    + obsrv_model.noise_dimension
  let f : GaussianFilter K ds dq du dr dy :=
    { threshold := threshold
      inv_sigma := inv_sigma
      process_model_ := process_model
      obsrv_model_ := obsrv_model
      point_set_transform_ := point_set_transform
      global_dimension_ := global_dimension_
      X_r := PointSet.create_default NumberOfPoints IsFixed fresh_r
      X_y := PointSet.create_default NumberOfPoints IsFixed fresh_y
      X_Q := PointSet.create NumberOfPoints IsFixed fresh_Q
        (number_of_points (global_dimension_ : Int)).toNat
      X_R := PointSet.create NumberOfPoints IsFixed fresh_R
        (number_of_points (global_dimension_ : Int)).toNat
      prediction := 0
      innovation := 0
      X := []
      Y := []
      W := [] }
  let rQ := f.point_set_transform_.forward sqrt (Gaussian.standard K dq)
    f.global_dimension_ f.process_model_.state_dimension f.X_Q
  (Outcome.mk { f with X_Q := rQ.state } rQ.thrown).andThen fun f =>
  let rR := f.point_set_transform_.forward sqrt (Gaussian.standard K dr)
    f.global_dimension_
    (f.process_model_.state_dimension + f.process_model_.noise_dimension) f.X_R
  (Outcome.mk { f with X_R := rR.state } rR.thrown).andThen fun f =>
  let point_count := (number_of_points (f.global_dimension_ : Int)).toNat
  let ry := f.X_y.resize point_count
  (Outcome.mk { f with X_y := ry.state } ry.thrown).andThen fun f =>
  let rr := f.X_r.resize point_count
  Outcome.mk { f with X_r := rr.state } rr.thrown

/-- The body of the loop of `predict`:
`X_r.point(i, predict_state(delta_time, X_r.point(i), X_Q.point(i), input))`. -/
def GaussianFilter.predict_point (delta_time : K) (input : Fin du → K) (i : Nat)
    (f : GaussianFilter K ds dq du dr dy) : Outcome (GaussianFilter K ds dq du dr dy) :=
  match f.X_r.point_get i, f.X_Q.point_get i with
  | Except.ok x, Except.ok q =>
    let r := f.X_r.point_vec i (f.process_model_.predict_state delta_time x q input)
    Outcome.mk { f with X_r := r.state } r.thrown
  | Except.error e, _ => Outcome.throw f e
  | Except.ok _, Except.error e => Outcome.throw f e

/-- The member `predict(delta_time, input, prior_dist, predicted_dist)`.  The
state of the outcome is the filter together with `predicted_dist`; `factor` is
the factorisation with which the Gaussian refreshes its square root. -/
def GaussianFilter.predict (sqrt : K → K)
    (factor : Matrix (Fin ds) (Fin ds) K → Matrix (Fin ds) (Fin ds) K)
    (delta_time : K) (input : Fin du → K) (prior_dist predicted_dist : Gaussian K ds)
    (f : GaussianFilter K ds dq du dr dy) :
    Outcome (GaussianFilter K ds dq du dr dy × Gaussian K ds) :=
  let r := f.point_set_transform_.forward sqrt prior_dist f.global_dimension_ 0 f.X_r
  let f : GaussianFilter K ds dq du dr dy := { f with X_r := r.state }
  match r.thrown with
  | some e => Outcome.throw (f, predicted_dist) e
  | none =>
    let point_count := f.X_r.count_points
    let l := forLoop 0 point_count (GaussianFilter.predict_point delta_time input) f
    match l.thrown with
    | some e => Outcome.throw (l.state, predicted_dist) e
    | none =>
      let f : GaussianFilter K ds dq du dr dy := l.state
      let f : GaussianFilter K ds dq du dr dy := { f with X := f.X_r.centered_points }
      let f : GaussianFilter K ds dq du dr dy := { f with W := f.X_r.covariance_weights_vector }
      let predicted_dist := predicted_dist.set_mean f.X_r.mean
      let predicted_dist :=
        predicted_dist.set_covariance factor (mul_diag_transpose f.X f.W f.X)
      Outcome.ok (f, predicted_dist)

/-- What the constructor establishes and every call keeps: the global
dimension, the two noise point sets, and point sets for the state and the
observation that `forward` accepts. -/
def GaussianFilter.invariant (sqrt : K → K) (f : GaussianFilter K ds dq du dr dy) : Prop :=
  f.global_dimension_ = ds + dq + dr ∧
  f.X_Q.entries = (List.range (2 * (ds + dq + dr) + 1)).map
    (layout sqrt f.point_set_transform_ (Gaussian.standard K dq) (ds + dq + dr) ds) ∧
  f.X_R.entries = (List.range (2 * (ds + dq + dr) + 1)).map
    (layout sqrt f.point_set_transform_ (Gaussian.standard K dr) (ds + dq + dr) (ds + dq)) ∧
  (f.X_r.IsFixed = true → f.X_r.NumberOfPoints = 2 * ((ds + dq + dr : Nat) : Int) + 1 ∧
    f.X_r.count_points = 2 * (ds + dq + dr) + 1) ∧
  f.X_y.count_points = 2 * (ds + dq + dr) + 1

end Filter

/-! ## The update step -/

section Update

variable {K : Type} [LinearOrderedField K] {ds dq du dr dy : Nat}

/-- The Eigen member `inverse()` of a square matrix, as the adjugate over the
determinant.  For a singular matrix Eigen returns non-finite entries; here the
field convention `0⁻¹ = 0` applies, so every theorem that uses the inverse as
an inverse carries the hypothesis that the matrix is invertible, and
`GaussianFilter.update_posterior` marks the call of `update` that inverts a
singular matrix. -/
def inverse {n : Nat} (m : Matrix (Fin n) (Fin n) K) : Matrix (Fin n) (Fin n) K :=
  m.det⁻¹ • m.adjugate

/-- The statement `cov_yy(i, i) += inv_sigma`. -/
def add_to_diagonal {n : Nat} (cov_yy : Matrix (Fin n) (Fin n) K) (i : Fin n) (v : K) :
    Matrix (Fin n) (Fin n) K :=
  fun a b => if a = i ∧ b = i then cov_yy a b + v else cov_yy a b

/-- The stability guard of `update`: the loop
`for i < y.rows(): if (abs(innovation(i)) > threshold) cov_yy(i, i) += inv_sigma`. -/
def stability_guard (threshold inv_sigma : K) (innovation : Fin dy → K)
    (cov_yy : Matrix (Fin dy) (Fin dy) K) : Matrix (Fin dy) (Fin dy) K :=
  (List.finRange dy).foldl
    (fun c i => if |innovation i| > threshold then add_to_diagonal c i inv_sigma else c)
    cov_yy

/-- The body of the loop of `update`:
`X_y.point(i, predict_observation(X_r.point(i), X_R.point(i), 0))`. -/
def GaussianFilter.update_point (i : Nat) (f : GaussianFilter K ds dq du dr dy) :
    Outcome (GaussianFilter K ds dq du dr dy) :=
  match f.X_r.point_get i, f.X_R.point_get i with
  | Except.ok x, Except.ok r =>
    let res := f.X_y.point_vec i (f.obsrv_model_.predict_observation x r 0)
    Outcome.mk { f with X_y := res.state } res.thrown
  | Except.error e, _ => Outcome.throw f e
  | Except.ok _, Except.error e => Outcome.throw f e

/-- The member `update(y, predicted_dist, posterior_dist)`.  The two beliefs are
passed by reference and may be one object (`predict_and_update` passes the same
one twice), so the beliefs live in a store `Nat → Gaussian` and
`predicted_dist`, `posterior_dist` name objects of it: `predicted_dist` is read
where the source reads it and `posterior_dist` written where the source writes
it.  `factor` is the factorisation with which the Gaussian refreshes its square
root. -/
def GaussianFilter.update (sqrt : K → K)
    (factor : Matrix (Fin ds) (Fin ds) K → Matrix (Fin ds) (Fin ds) K)
    (y : Fin dy → K) (predicted_dist posterior_dist : Nat)
    (s : GaussianFilter K ds dq du dr dy × (Nat → Gaussian K ds)) :
    Outcome (GaussianFilter K ds dq du dr dy × (Nat → Gaussian K ds)) :=
  let f := s.1
  let beliefs := s.2
  let r := f.point_set_transform_.forward sqrt (beliefs predicted_dist) f.global_dimension_ 0
    f.X_r
  let f : GaussianFilter K ds dq du dr dy := { f with X_r := r.state }
  match r.thrown with
  | some e => Outcome.throw (f, beliefs) e
  | none =>
    let point_count := f.X_r.count_points
    let l := forLoop 0 point_count GaussianFilter.update_point f
    match l.thrown with
    | some e => Outcome.throw (l.state, beliefs) e
    | none =>
      let f : GaussianFilter K ds dq du dr dy := l.state
      let f : GaussianFilter K ds dq du dr dy := { f with W := f.X_r.covariance_weights_vector }
      let f : GaussianFilter K ds dq du dr dy := { f with X := f.X_r.centered_points }
      let f : GaussianFilter K ds dq du dr dy := { f with Y := f.X_y.centered_points }
      let f : GaussianFilter K ds dq du dr dy := { f with prediction := f.X_y.mean }
      let f : GaussianFilter K ds dq du dr dy := { f with innovation := y - f.prediction }
      let cov_xx := mul_diag_transpose f.X f.W f.X
      let cov_yy := mul_diag_transpose f.Y f.W f.Y
      let cov_xy := mul_diag_transpose f.X f.W f.Y
      let cov_yy := stability_guard f.threshold f.inv_sigma f.innovation cov_yy
      let gain := cov_xy * inverse cov_yy
      let beliefs := Function.update beliefs posterior_dist
        ((beliefs posterior_dist).set_mean (f.X_r.mean + gain.mulVec f.innovation))
      let beliefs := Function.update beliefs posterior_dist
        ((beliefs posterior_dist).set_covariance factor
          (cov_xx - gain * cov_yy * gain.transpose))
      Outcome.ok (f, beliefs)

/-- The call `predict(delta_time, input, prior_dist, predicted_dist)` on beliefs
of the store: `predict` reads `prior_dist` in its first statement and writes
`predicted_dist` in its last two. -/
def GaussianFilter.predict_in (sqrt : K → K)
    (factor : Matrix (Fin ds) (Fin ds) K → Matrix (Fin ds) (Fin ds) K)
    (delta_time : K) (input : Fin du → K) (prior_dist predicted_dist : Nat)
    (s : GaussianFilter K ds dq du dr dy × (Nat → Gaussian K ds)) :
    Outcome (GaussianFilter K ds dq du dr dy × (Nat → Gaussian K ds)) :=
  let p := s.1.predict sqrt factor delta_time input (s.2 prior_dist) (s.2 predicted_dist)
  Outcome.mk (p.state.1, Function.update s.2 predicted_dist p.state.2) p.thrown

/-- The member `predict_and_update(delta_time, input, observation, prior_dist,
posterior_dist)`: `predict` into `posterior_dist`, then `update` with
`posterior_dist` as both its input and its output. -/
def GaussianFilter.predict_and_update (sqrt : K → K)
    (factor : Matrix (Fin ds) (Fin ds) K → Matrix (Fin ds) (Fin ds) K)
    (delta_time : K) (input : Fin du → K) (observation : Fin dy → K)
    (prior_dist posterior_dist : Nat)
    (s : GaussianFilter K ds dq du dr dy × (Nat → Gaussian K ds)) :
    Outcome (GaussianFilter K ds dq du dr dy × (Nat → Gaussian K ds)) :=
  (GaussianFilter.predict_in sqrt factor delta_time input prior_dist posterior_dist s).andThen
    (GaussianFilter.update sqrt factor observation posterior_dist posterior_dist)

/-- The matrix `cov_yy` that a call of `update` inverts, read off the members
the call leaves in the filter: `Y·diag(W)·Yᵗ` after the stability guard. -/
def GaussianFilter.guarded_cov_yy (f : GaussianFilter K ds dq du dr dy) :
    Matrix (Fin dy) (Fin dy) K :=
  stability_guard f.threshold f.inv_sigma f.innovation (mul_diag_transpose f.Y f.W f.Y)

/-- The belief `posterior_dist` after a call of `update`, with the case that
the exact scalar does not represent.  Eigen's `cov_yy.inverse()` divides by the
determinant: for a singular `cov_yy` its entries are not finite, and neither
are the gain `cov_xy * cov_yy.inverse()` and the covariance
`cov_xx - K * cov_yy * K.transpose()` that `update` writes.  `none` stands for
such a belief, `some` for the belief of numbers that `update` computes with an
invertible `cov_yy`.  When the call throws, `posterior_dist` is as it was. -/
def GaussianFilter.update_posterior (sqrt : K → K)
    (factor : Matrix (Fin ds) (Fin ds) K → Matrix (Fin ds) (Fin ds) K)
    (y : Fin dy → K) (predicted_dist posterior_dist : Nat)
    (s : GaussianFilter K ds dq du dr dy × (Nat → Gaussian K ds)) :
    Option (Gaussian K ds) :=
  let r := GaussianFilter.update sqrt factor y predicted_dist posterior_dist s
  if r.thrown = none ∧ r.state.1.guarded_cov_yy.det = 0 then none
  else some (r.state.2 posterior_dist)

end Update

/-! ## The worked example of the spec -/

section Example

variable (K : Type) [Field K]

/-- The Gaussian of the worked example: mean `[0,0]`, covariance `I₂`, square
root `I₂`. -/
def example_gaussian : Gaussian K 2 := ⟨![0, 0], 1, 1⟩

/-- An empty dynamic point set of dimension `n`. -/
def dynamic_point_set (n : Nat) : PointSet K n :=
  PointSet.create Dynamic false (fun _ => ⟨0, ⟨0, 0⟩⟩) 0

/-- A fixed-size point set of dimension `n` declared with `N` points. -/
def fixed_point_set (n N : Nat) : PointSet K n :=
  PointSet.create (N : Int) true (fun _ => ⟨0, ⟨0, 0⟩⟩) N

/-- The additive stub `ProcessModelStub` of `tests/fukf_stub_models.hpp`:
`predict(prior, noise) = prior + noise`, with the noise of the dimension of the
state and no input. -/
def ProcessModelStub (n : Nat) : ProcessModel K n n 0 :=
  ⟨fun _ prior noise _ => prior + noise⟩

/-- The stub `ObservationModelStub` of `tests/fukf_stub_models.hpp`: a
one-dimensional measurement that is its noise. -/
def ObservationModelStub (n : Nat) : ObservationModel K n 1 1 :=
  ⟨fun _ noise _ => noise⟩

/-- A process model whose `predict_state` returns its state argument. -/
def ProcessModelIdentity (n : Nat) : ProcessModel K n n 0 :=
  ⟨fun _ state _ _ => state⟩

/-- The constructor call on a process model and the stub observation model
with the default transform, dynamic point sets, and
`threshold = inv_sigma = 0`. -/
def stub_filter_outcome (sqrt : K → K) (n : Nat) (process_model : ProcessModel K n n 0) :
    Outcome (GaussianFilter K n n 0 1 1) :=
  GaussianFilter.create sqrt process_model (ObservationModelStub K n)
    (UnscentedTransform.default K) Dynamic false (fun _ => ⟨0, ⟨0, 0⟩⟩)
    (fun _ => ⟨0, ⟨0, 0⟩⟩) (fun _ => ⟨0, ⟨0, 0⟩⟩) (fun _ => ⟨0, ⟨0, 0⟩⟩) 0 0

/-- A one-dimensional prior with mean `3`, square root `2` and covariance `4`. -/
def example_prior : Gaussian K 1 := ⟨![3], !![4], !![2]⟩

/-- The constructor call of `stub_filter_outcome` with the values `threshold`
and `inv_sigma` of the outlier guard set by the caller. -/
def guarded_filter_outcome (sqrt : K → K) (n : Nat) (threshold inv_sigma : K) :
    Outcome (GaussianFilter K n n 0 1 1) :=
  GaussianFilter.create sqrt (ProcessModelStub K n) (ObservationModelStub K n)
    (UnscentedTransform.default K) Dynamic false (fun _ => ⟨0, ⟨0, 0⟩⟩)
    (fun _ => ⟨0, ⟨0, 0⟩⟩) (fun _ => ⟨0, ⟨0, 0⟩⟩) (fun _ => ⟨0, ⟨0, 0⟩⟩) threshold inv_sigma

/-- A process model without noise whose `predict_state` returns its state
argument. -/
def ProcessModelNoiseless (n : Nat) : ProcessModel K n 0 0 :=
  ⟨fun _ state _ _ => state⟩

/-- An observation model without noise that observes the square of a
one-dimensional state. -/
def ObservationModelSquare : ObservationModel K 1 0 1 :=
  ⟨fun state _ _ => fun _ => state 0 * state 0⟩

/-- An allocation that gives each of the `c` points the zero vector and the
uniform weight pair `(1/c, 1/c)`. -/
def uniform_fresh (n : Nat) : Nat → WeightedPoint K n :=
  fun c => ⟨0, ⟨1 / (c : K), 1 / (c : K)⟩⟩

/-- The constructor call on the noiseless process model and the square
observation model, with the default transform, dynamic point sets allocated
with uniform weights, and `threshold = inv_sigma = 0`. -/
def square_filter_outcome (sqrt : K → K) : Outcome (GaussianFilter K 1 0 0 0 1) :=
  GaussianFilter.create sqrt (ProcessModelNoiseless K 1) (ObservationModelSquare K)
    (UnscentedTransform.default K) Dynamic false (uniform_fresh K 1) (uniform_fresh K 1)
    (uniform_fresh K 0) (uniform_fresh K 0) 0 0

end Example

section ExampleUpdate

variable (K : Type) [LinearOrderedField K]

/-- The call `update(y, predicted, predicted)` with `y = [1]` on the filter of
`guarded_filter_outcome` for a one-dimensional state, from the standard normal
belief. -/
def guarded_update_outcome (sqrt : K → K) (threshold inv_sigma : K) :
    Outcome (GaussianFilter K 1 1 0 1 1 × (Nat → Gaussian K 1)) :=
  GaussianFilter.update sqrt id ![1] 0 0
    ((guarded_filter_outcome K sqrt 1 threshold inv_sigma).state,
      fun _ => Gaussian.standard K 1)

/-- An observation model whose measurement is the zero vector, whatever the
state and the noise. -/
def ObservationModelZero (n : Nat) : ObservationModel K n 1 1 :=
  ⟨fun _ _ _ => 0⟩

/-- The constructor call on the additive stub process model and
`ObservationModelZero` for a one-dimensional state, with the default
transform, dynamic point sets, `threshold = 0` and `inv_sigma = 1`. -/
def zero_filter_outcome (sqrt : K → K) : Outcome (GaussianFilter K 1 1 0 1 1) :=
  GaussianFilter.create sqrt (ProcessModelStub K 1) (ObservationModelZero K 1)
    (UnscentedTransform.default K) Dynamic false (fun _ => ⟨0, ⟨0, 0⟩⟩)
    (fun _ => ⟨0, ⟨0, 0⟩⟩) (fun _ => ⟨0, ⟨0, 0⟩⟩) (fun _ => ⟨0, ⟨0, 0⟩⟩) 0 1

/-- The call `update(y, predicted, predicted)` with `y = [0]` on the filter of
`zero_filter_outcome`, from the standard normal belief. -/
def zero_update_outcome (sqrt : K → K) :
    Outcome (GaussianFilter K 1 1 0 1 1 × (Nat → Gaussian K 1)) :=
  GaussianFilter.update sqrt id ![0] 0 0
    ((zero_filter_outcome K sqrt).state, fun _ => Gaussian.standard K 1)

end ExampleUpdate

/-! ## The function `normalize` of `fl/util/math.hpp` -/

section Math

variable {T : Type} [Zero T] [Add T] [Mul T] [Div T]

/-- The function template `normalize(input, sum)` for an element type `T`: the
first loop adds the elements up in `old_sum`, `factor` is `sum / old_sum`, and
the second loop stores `factor * input[i]` in an output vector allocated with
`input.size()` zeros.  The operators are those of `T`: for an integral `T` the
quotient `sum / old_sum` is the quotient of integers (on operands that are not
negative `/` of `Int` is the C++ one), for `double` the type is an exact
field. -/
def normalize (input : List T) (sum : T) : List T :=
  let old_sum : T :=
    (List.range input.length).foldl (fun old_sum i => old_sum + input.getD i 0) 0
  let factor : T := sum / old_sum
  (List.range input.length).foldl
    (fun output i => output.set i (factor * input.getD i 0))
    (List.replicate input.length 0)

end Math

/-! ## The joint process model of `fl/model/process/joint_process_model_iid.hpp` -/

section JointModel

variable {K : Type} [Field K] {ds dq du : Nat}

/-- The accessor `input_dimension()` of a process model. -/
def ProcessModel.input_dimension (_m : ProcessModel K ds dq du) : Nat := du

/-- The Eigen block `v.middleRows(start, len)` read from a vector.  Eigen
asserts that the block lies inside the vector; the loop of `predict_state` only
asks for such blocks. -/
def middleRows {n : Nat} (v : Fin n → K) (start len : Nat) : Fin len → K :=
  fun r => if h : start + r.val < n then v ⟨start + r.val, h⟩ else 0

/-- The assignment `x.middleRows(start, len) = block`. -/
def set_middleRows {n len : Nat} (x : Fin n → K) (start : Nat) (block : Fin len → K) :
    Fin n → K :=
  fun j =>
    if h : start ≤ j.val ∧ j.val < start + len then block ⟨j.val - start, by omega⟩ else x j

/-- The members `local_process_model_` and `count_` of
`JointProcessModel<MultipleOf<LocalProcessModel, Count>>`. -/
structure JointProcessModel (K : Type) (ds dq du : Nat) where
  local_process_model_ : ProcessModel K ds dq du
  count_ : Nat

/-- The constructor `JointProcessModel(local_process_model, count)` with its
assertion `count > 0`: there is no object when the assertion fails. -/
def JointProcessModel.create (local_process_model : ProcessModel K ds dq du) (count : Int) :
    Option (JointProcessModel K ds dq du) :=
  if 0 < count then some ⟨local_process_model, count.toNat⟩ else none

/-- The member `state_dimension()` of the joint model. -/
def JointProcessModel.state_dimension (J : JointProcessModel K ds dq du) : Nat :=
  J.local_process_model_.state_dimension * J.count_

/-- The member `noise_dimension()` of the joint model. -/
def JointProcessModel.noise_dimension (J : JointProcessModel K ds dq du) : Nat :=
  J.local_process_model_.noise_dimension * J.count_

/-- The member `input_dimension()` of the joint model. -/
def JointProcessModel.input_dimension (J : JointProcessModel K ds dq du) : Nat :=
  J.local_process_model_.input_dimension * J.count_

/-- The member `predict_state(delta_time, state, noise, input)` of the joint
model: `x` starts as the zero vector of `state_dimension()` rows and the loop
over `i < count_` assigns block `i` of `x` from the local model. -/
def JointProcessModel.predict_state (J : JointProcessModel K ds dq du) (delta_time : K)
    (state : Fin J.state_dimension → K) (noise : Fin J.noise_dimension → K)
    (input : Fin J.input_dimension → K) : Fin J.state_dimension → K :=
  let x : Fin J.state_dimension → K := 0
  let state_dim := J.local_process_model_.state_dimension
  let noise_dim := J.local_process_model_.noise_dimension
  let input_dim := J.local_process_model_.input_dimension
  (List.range J.count_).foldl
    (fun x i => set_middleRows x (i * state_dim)
      (J.local_process_model_.predict_state delta_time
        (middleRows state (i * state_dim) state_dim)
        (middleRows noise (i * noise_dim) noise_dim)
        (middleRows input (i * input_dim) input_dim)))
    x

/-- The Eigen expression `State::Zero(rows, 1)` as a run-time value, the list
of its coefficients, for a vector type `State` with
`RowsAtCompileTime = StateDim`.  A dynamic type gives the zero vector of `rows`
rows.  A type of fixed size has `StateDim` rows, and Eigen asserts
`rows == StateDim`: when the assertion fails there is no vector. -/
def zero_vector (StateDim : Int) (rows : Nat) : Option (List K) :=
  if StateDim = Dynamic ∨ StateDim = (rows : Int) then some (List.replicate rows 0) else none

/-- The Eigen block `v.middleRows(start, len)` read from a vector of run-time
size.  Eigen asserts that the block lies inside the vector. -/
def middleRows_sized (v : List K) (start len : Nat) : Option (Fin len → K) :=
  if start + len ≤ v.length then some (fun r => v.getD (start + r.val) 0) else none

/-- The assignment `x.middleRows(start, len) = block` on a vector of run-time
size.  Eigen asserts that the block lies inside the vector; the assignment
changes the rows of the block and no other row. -/
def set_middleRows_sized {len : Nat} (x : List K) (start : Nat) (block : Fin len → K) :
    Option (List K) :=
  if start + len ≤ x.length then
    some (List.ofFn fun j : Fin x.length =>
      if h : start ≤ j.val ∧ j.val < start + len then block ⟨j.val - start, by omega⟩
      else x.getD j.val 0)
  else none

/-- The member `predict_state(delta_time, state, noise, input)` of the joint
model on vectors of run-time size.  `StateDim` is `Traits<This>::StateDim`, the
number of rows that the template arguments fix for the type `State`
(`ExpandSizes<LocalState::SizeAtCompileTime, Count>::Size`; `fl/util/meta.hpp`
is not among the sources, so the value is an argument): `Eigen::Dynamic` or a
fixed size.  `x` is `State::Zero(state_dimension(), 1)`, the loop over
`i < count_` reads block `i` of the three arguments and assigns block `i` of
`x`, and a failed Eigen assertion ends the call without a result. -/
def JointProcessModel.predict_state_sized (J : JointProcessModel K ds dq du) (StateDim : Int)
    (delta_time : K) (state noise input : List K) : Option (List K) :=
  (zero_vector StateDim J.state_dimension).bind fun x =>
  let state_dim := J.local_process_model_.state_dimension
  let noise_dim := J.local_process_model_.noise_dimension
  let input_dim := J.local_process_model_.input_dimension
  (List.range J.count_).foldlM
    (fun x i =>
      (middleRows_sized state (i * state_dim) state_dim).bind fun s =>
      (middleRows_sized noise (i * noise_dim) noise_dim).bind fun n =>
      (middleRows_sized input (i * input_dim) input_dim).bind fun u =>
      set_middleRows_sized x (i * state_dim)
        (J.local_process_model_.predict_state delta_time s n u))
    x

end JointModel

/-! ## The out-of-bounds exception -/

/-- Modelled from the spec: the exception `OutOfBoundsException` of
`fl/exception/exception.hpp`, which is not among the sources, with the three
ways `test/exception/exception_test.cpp` constructs it: without argument, with
the offending index, and with the index and the size of the valid range. -/
inductive OutOfBoundsException where
  | default
  | index (index : Nat)
  | index_size (index size : Nat)

/-- Modelled from the spec: the diagnostic text of the exception, which
"carries the offending index and, where known, the valid range", in the wording
the tests of `exception_test.cpp` look for; numbers are printed in decimal. -/
def OutOfBoundsException.message : OutOfBoundsException → String
  | .default => "Index out of bounds"
  | .index i => "Index[" ++ toString i ++ "] out of bounds"
  | .index_size i n => "Index[" ++ toString i ++ "] out of bounds [0, " ++ toString n ++ ")"

/-- Modelled from the spec: the member `what()`: the diagnostic text between
whatever the base class `Exception` writes before and after it. -/
def OutOfBoundsException.what (before after : String) (e : OutOfBoundsException) : String :=
  before ++ e.message ++ after

/-- The test `std::string(haystack).find(needle) != std::string::npos`. -/
def found (needle haystack : String) : Prop :=
  List.IsInfix needle.data haystack.data

/-! ## The read accessors of the filter -/

/-- The object a `std::shared_ptr` member of the filter points to: a process
model, an observation model or a point-set transform. -/
inductive Collaborator (K : Type) (ds dq du dr dy : Nat) where
  | process_model (m : ProcessModel K ds dq du)
  | observation_model (m : ObservationModel K ds dr dy)
  | point_set_transform (t : UnscentedTransform K)

/-- The conversion of a returned pointer to the return type
`const std::shared_ptr<ProcessModel>&`: `std::shared_ptr` converts only a
pointer to a process model.  `none`: the `return` statement is ill-formed and
the call yields no value. -/
def Collaborator.to_process_model {K : Type} {ds dq du dr dy : Nat} :
    Collaborator K ds dq du dr dy → Option (ProcessModel K ds dq du)
  | .process_model m => some m
  | .observation_model _ => none
  | .point_set_transform _ => none

/-- The conversion of a returned pointer to the return type
`const std::shared_ptr<ObservationModel>&`. -/
def Collaborator.to_observation_model {K : Type} {ds dq du dr dy : Nat} :
    Collaborator K ds dq du dr dy → Option (ObservationModel K ds dr dy)
  | .process_model _ => none
  | .observation_model m => some m
  | .point_set_transform _ => none

/-- The accessor `const std::shared_ptr<ProcessModel>& process_model()`, which
returns `process_model_`. -/
def GaussianFilter.process_model {K : Type} {ds dq du dr dy : Nat}
    (f : GaussianFilter K ds dq du dr dy) : Option (ProcessModel K ds dq du) :=
  (Collaborator.process_model f.process_model_ :
    Collaborator K ds dq du dr dy).to_process_model

/-- The accessor `const std::shared_ptr<ObservationModel>& observation_model()`,
which returns `obsrv_model_`. -/
def GaussianFilter.observation_model {K : Type} {ds dq du dr dy : Nat}
    (f : GaussianFilter K ds dq du dr dy) : Option (ObservationModel K ds dr dy) :=
  (Collaborator.observation_model f.obsrv_model_ :
    Collaborator K ds dq du dr dy).to_observation_model

/-- The accessor `const std::shared_ptr<ProcessModel>& point_set_transform()`,
which returns `point_set_transform_`: the return type the source declares is
the pointer to a process model. -/
def GaussianFilter.point_set_transform {K : Type} {ds dq du dr dy : Nat}
    (f : GaussianFilter K ds dq du dr dy) : Option (ProcessModel K ds dq du) :=
  (Collaborator.point_set_transform f.point_set_transform_ :
    Collaborator K ds dq du dr dy).to_process_model

/-! ## The calls of `point` that `forward` makes -/

/-- One call `point_set.point(index, point, weight)` of `forward`, together
with the column of the square root that `point` was computed from, if any. -/
structure PointWrite (K : Type) (n : Nat) where
  index : Nat
  column : Option Nat
  point : Fin n → K
  weight : Weight K

section ForwardTrace

variable {K : Type} [Field K] {n : Nat}

/-- The calls of `point` in the body of `forward` after the resize, in the
order of the source: index `0`, then for each round `i` of the three loops the
index `i` and the index `global_dimension + i`.  It is compared with `forward`
in `forward_eq_run_writes`. -/
def forward_writes (sqrt : K → K) (ut : UnscentedTransform K) (gaussian : Gaussian K n)
    (global_dimension dimension_offset : Nat) : List (PointWrite K n) :=
  let dim : K := (global_dimension : K)
  let covariance_sqrt : Matrix (Fin n) (Fin n) K :=
    fun r c => gaussian.SquareRoot r c * ut.gamma_factor sqrt dim
  let mean := gaussian.Mean
  let weight_i : Weight K := ⟨ut.weight_mean_i dim, ut.weight_cov_i dim⟩
  let start_1 := 1
  let limit_1 := start_1 + dimension_offset
  let limit_2 := limit_1 + gaussian.Dimension
  let limit_3 := global_dimension
  [⟨0, none, mean, ⟨ut.weight_mean_0 dim, ut.weight_cov_0 dim⟩⟩]
    ++ (List.range' start_1 (limit_1 - start_1)).flatMap (fun i =>
      [⟨i, none, mean, weight_i⟩, ⟨global_dimension + i, none, mean, weight_i⟩])
    ++ (List.range' limit_1 (limit_2 - limit_1)).flatMap (fun i =>
      let point_shift := col covariance_sqrt (i - dimension_offset - 1)
      [⟨i, some (i - dimension_offset - 1), mean + point_shift, weight_i⟩,
        ⟨global_dimension + i, some (i - dimension_offset - 1), mean - point_shift, weight_i⟩])
    ++ (List.range' limit_2 (limit_3 + 1 - limit_2)).flatMap (fun i =>
      [⟨i, none, mean, weight_i⟩, ⟨global_dimension + i, none, mean, weight_i⟩])

/-- The calls of a list made in order on a point set, stopping at the first
exception. -/
def run_writes : List (PointWrite K n) → PointSet K n → Outcome (PointSet K n)
  | [], ps => Outcome.ok ps
  | w :: ws, ps => (ps.point w.index w.point w.weight).andThen (run_writes ws)

end ForwardTrace

/-! ## Call histories of a filter -/

/-- A call of a member of the filter with its arguments; the beliefs it reads
and writes are named by their place in the store. -/
inductive Call (K : Type) (du dy : Nat) where
  | predict (delta_time : K) (input : Fin du → K) (prior_dist predicted_dist : Nat)
  | update (y : Fin dy → K) (predicted_dist posterior_dist : Nat)
  | predict_and_update (delta_time : K) (input : Fin du → K) (observation : Fin dy → K)
      (prior_dist posterior_dist : Nat)

section History

variable {K : Type} [LinearOrderedField K] {ds dq du dr dy : Nat}

/-- One call made on a filter and a store of beliefs. -/
def GaussianFilter.call (sqrt : K → K)
    (factor : Matrix (Fin ds) (Fin ds) K → Matrix (Fin ds) (Fin ds) K) :
    Call K du dy → GaussianFilter K ds dq du dr dy × (Nat → Gaussian K ds) →
      Outcome (GaussianFilter K ds dq du dr dy × (Nat → Gaussian K ds))
  | .predict delta_time input prior_dist predicted_dist =>
    GaussianFilter.predict_in sqrt factor delta_time input prior_dist predicted_dist
  | .update y predicted_dist posterior_dist =>
    GaussianFilter.update sqrt factor y predicted_dist posterior_dist
  | .predict_and_update delta_time input observation prior_dist posterior_dist =>
    GaussianFilter.predict_and_update sqrt factor delta_time input observation prior_dist
      posterior_dist

/-- A history: the calls of a list made in order on one filter, stopping at the
first exception. -/
def GaussianFilter.calls (sqrt : K → K)
    (factor : Matrix (Fin ds) (Fin ds) K → Matrix (Fin ds) (Fin ds) K) :
    List (Call K du dy) → GaussianFilter K ds dq du dr dy × (Nat → Gaussian K ds) →
      Outcome (GaussianFilter K ds dq du dr dy × (Nat → Gaussian K ds))
  | [], s => Outcome.ok s
  | c :: cs, s =>
    (GaussianFilter.call sqrt factor c s).andThen (GaussianFilter.calls sqrt factor cs)

/-- Two states of one filter: both satisfy the invariant of the constructor and
they have the same models, transform parameters, `threshold`, `inv_sigma` and
the same weights in `X_y`.  Nothing is asked of the points of `X_r` and `X_y`
or of `X`, `Y`, `W`, `prediction`, `innovation`. -/
def GaussianFilter.same_filter (sqrt : K → K) (f F : GaussianFilter K ds dq du dr dy) : Prop :=
  f.invariant sqrt ∧ F.invariant sqrt ∧
  F.process_model_ = f.process_model_ ∧ F.obsrv_model_ = f.obsrv_model_ ∧
  F.point_set_transform_ = f.point_set_transform_ ∧
  F.threshold = f.threshold ∧ F.inv_sigma = f.inv_sigma ∧
  (F.X_y.entries.map fun e => e.weight) = f.X_y.entries.map fun e => e.weight

end History

/-! ## The special functions of `fl/util/math.hpp` -/

section Special

variable {K : Type} [LinearOrderedField K]

/-- The specialisation `erfinv<float>(x)`; `log` is `std::log` and `sqrt` is
`std::sqrt`.  The literals are the decimal values written in the source. -/
def erfinv_float (log sqrt : K → K) (x : K) : K :=
  let w : K := -log ((1.0 - x) * (1.0 + x))
  let p : K :=
    if w < 5.000000 then
      let w : K := w - 2.500000
      let p : K := 2.81022636e-08
      let p : K := 3.43273939e-07 + p * w
      let p : K := -3.5233877e-06 + p * w
      let p : K := -4.39150654e-06 + p * w
      let p : K := 0.00021858087 + p * w
      let p : K := -0.00125372503 + p * w
      let p : K := -0.00417768164 + p * w
      let p : K := 0.246640727 + p * w
      let p : K := 1.50140941 + p * w
      p
    else
      let w : K := sqrt w - 3.000000
      let p : K := -0.000200214257
      let p : K := 0.000100950558 + p * w
      let p : K := 0.00134934322 + p * w
      let p : K := -0.00367342844 + p * w
      let p : K := 0.00573950773 + p * w
      let p : K := -0.0076224613 + p * w
      let p : K := 0.00943887047 + p * w
      let p : K := 1.00167406 + p * w
      let p : K := 2.83297682 + p * w
      p
  p * x

/-- The specialisation `erfinv<double>(x)`; `log` is `std::log` and `sqrt` is
`std::sqrt`.  The literals are the decimal values written in the source. -/
def erfinv_double (log sqrt : K → K) (x : K) : K :=
  let w : K := -log ((1.0 - x) * (1.0 + x))
  let p : K :=
    if w < 6.250000 then
      let w : K := w - 3.125000
      let p : K := -3.6444120640178196996e-21
      let p : K := -1.685059138182016589e-19 + p * w
      let p : K := 1.2858480715256400167e-18 + p * w
      let p : K := 1.115787767802518096e-17 + p * w
      let p : K := -1.333171662854620906e-16 + p * w
      let p : K := 2.0972767875968561637e-17 + p * w
      let p : K := 6.6376381343583238325e-15 + p * w
      let p : K := -4.0545662729752068639e-14 + p * w
      let p : K := -8.1519341976054721522e-14 + p * w
      let p : K := 2.6335093153082322977e-12 + p * w
      let p : K := -1.2975133253453532498e-11 + p * w
      let p : K := -5.4154120542946279317e-11 + p * w
      let p : K := 1.051212273321532285e-09 + p * w
      let p : K := -4.1126339803469836976e-09 + p * w
      let p : K := -2.9070369957882005086e-08 + p * w
      let p : K := 4.2347877827932403518e-07 + p * w
      let p : K := -1.3654692000834678645e-06 + p * w
      let p : K := -1.3882523362786468719e-05 + p * w
      let p : K := 0.0001867342080340571352 + p * w
      let p : K := -0.00074070253416626697512 + p * w
      let p : K := -0.0060336708714301490533 + p * w
      let p : K := 0.24015818242558961693 + p * w
      let p : K := 1.6536545626831027356 + p * w
      p
    else if w < 16.000000 then
      let w : K := sqrt w - 3.250000
      let p : K := 2.2137376921775787049e-09
      let p : K := 9.0756561938885390979e-08 + p * w
      let p : K := -2.7517406297064545428e-07 + p * w
      let p : K := 1.8239629214389227755e-08 + p * w
      let p : K := 1.5027403968909827627e-06 + p * w
      let p : K := -4.013867526981545969e-06 + p * w
      let p : K := 2.9234449089955446044e-06 + p * w
      let p : K := 1.2475304481671778723e-05 + p * w
      let p : K := -4.7318229009055733981e-05 + p * w
      let p : K := 6.8284851459573175448e-05 + p * w
      let p : K := 2.4031110387097893999e-05 + p * w
      let p : K := -0.0003550375203628474796 + p * w
      let p : K := 0.00095328937973738049703 + p * w
      let p : K := -0.0016882755560235047313 + p * w
      let p : K := 0.0024914420961078508066 + p * w
      let p : K := -0.0037512085075692412107 + p * w
      let p : K := 0.005370914553590063617 + p * w
      let p : K := 1.0052589676941592334 + p * w
      let p : K := 3.0838856104922207635 + p * w
      p
    else
      let w : K := sqrt w - 5.000000
      let p : K := -2.7109920616438573243e-11
      let p : K := -2.5556418169965252055e-10 + p * w
      let p : K := 1.5076572693500548083e-09 + p * w
      let p : K := -3.7894654401267369937e-09 + p * w
      let p : K := 7.6157012080783393804e-09 + p * w
      let p : K := -1.4960026627149240478e-08 + p * w
      let p : K := 2.9147953450901080826e-08 + p * w
      let p : K := -6.7711997758452339498e-08 + p * w
      let p : K := 2.2900482228026654717e-07 + p * w
      let p : K := -9.9298272942317002539e-07 + p * w
      let p : K := 4.5260625972231537039e-06 + p * w
      let p : K := -1.9681778105531670567e-05 + p * w
      let p : K := 7.5995277030017761139e-05 + p * w
      let p : K := -0.00021503011930044477347 + p * w
      let p : K := -0.00013871931833623122026 + p * w
      let p : K := 1.0103004648645343977 + p * w
      let p : K := 4.8499064014085844221 + p * w
      p
  p * x

end Special

/-! # Theorems -/

section Weights

variable {K : Type} [LinearOrderedField K]

/-- `dim + lambda_scalar(dim)` is `alpha² · (dim + kappa)`. -/
theorem dim_add_lambda (ut : UnscentedTransform K) (dim : K) :
    dim + ut.lambda_scalar dim = ut.alpha_ * ut.alpha_ * (dim + ut.kappa_) := by
  unfold UnscentedTransform.lambda_scalar
  ring

/-- C1 as stated fails: with `alpha = 1`, `kappa = -1` and `D = 1` the
denominator `D + lambda` is zero and the mean weights do not sum to one. -/
theorem weight_normalization_counterexample :
    (0 : ℚ) < (⟨1, 2, -1⟩ : UnscentedTransform ℚ).alpha_ ∧ 1 ≤ (1 : ℕ) ∧
      (⟨1, 2, -1⟩ : UnscentedTransform ℚ).weight_mean_0 ((1 : ℕ) : ℚ)
        + 2 * ((1 : ℕ) : ℚ) * (⟨1, 2, -1⟩ : UnscentedTransform ℚ).weight_mean_i ((1 : ℕ) : ℚ)
        ≠ 1 := by
  refine ⟨by norm_num, le_refl 1, ?_⟩
  norm_num [UnscentedTransform.weight_mean_0, UnscentedTransform.weight_mean_i,
    UnscentedTransform.lambda_scalar]

/-- C1 (amended): for `alpha > 0`, `D ≥ 1` and `kappa ≠ -D` the mean weights
of the `2D+1` points sum to one: `weight_mean_0(D) + 2·D·weight_mean_i(D) = 1`. -/
theorem weight_normalization (ut : UnscentedTransform K) (D : ℕ)
    (hα : 0 < ut.alpha_) (_hD : 1 ≤ D) (hκ : (D : K) + ut.kappa_ ≠ 0) :
    ut.weight_mean_0 (D : K) + 2 * (D : K) * ut.weight_mean_i (D : K) = 1 := by
  have hden : (D : K) + ut.lambda_scalar (D : K) ≠ 0 := by
    rw [dim_add_lambda]
    exact mul_ne_zero (mul_ne_zero hα.ne' hα.ne') hκ
  unfold UnscentedTransform.weight_mean_0 UnscentedTransform.weight_mean_i
  field_simp
  ring

/-- Witness of `weight_normalization`: the default parameters and `D = 2`. -/
theorem weight_normalization_witness :
    (UnscentedTransform.default ℚ).weight_mean_0 ((2 : ℕ) : ℚ)
      + 2 * ((2 : ℕ) : ℚ) * (UnscentedTransform.default ℚ).weight_mean_i ((2 : ℕ) : ℚ) = 1 :=
  weight_normalization (UnscentedTransform.default ℚ) 2
    (by norm_num [UnscentedTransform.default]) (by norm_num)
    (by norm_num [UnscentedTransform.default])

end Weights

/-- Within the range in which `2·dimension + 1` fits an `int`, and at
`Eigen::Dynamic`, the machine arithmetic of `number_of_points` gives the value
on unbounded integers. -/
theorem number_of_points_int_eq (D : Int) (h : -1 ≤ D) (h30 : D < 2 ^ 30) :
    number_of_points_int D = number_of_points D := by
  unfold number_of_points_int number_of_points to_size_t wrap_int Dynamic
  by_cases hD : D = -1
  · simp [hD]
  · rw [if_pos hD, if_pos hD]
    omega

/-- C6 as stated fails: the dimension `2^30 = 1073741824` is not negative, and
`number_of_points` does not return `2·D + 1` for it.  The sum does not fit an
`int`, and the value returned is `2^64 - 2147483647`. -/
theorem number_of_points_counterexample :
    (0 : Int) ≤ 1073741824 ∧
      number_of_points_int 1073741824 ≠ 2 * 1073741824 + 1 ∧
      number_of_points_int 1073741824 = 18446744071562067969 := by
  decide

/-- C6, amended: `number_of_points(D)` is `2·D + 1` for every `D` with
`0 ≤ D < 2^30`, the dimensions for which `2·D + 1` fits an `int`, and it is the
sentinel `0` exactly when `D` is `Eigen::Dynamic`. -/
theorem number_of_points_in_range (D : Int) :
    (0 ≤ D → D < 2 ^ 30 → number_of_points_int D = 2 * D + 1) ∧
      (number_of_points_int D = 0 ↔ D = Dynamic) := by
  unfold number_of_points_int to_size_t wrap_int Dynamic
  constructor
  · intro h h30
    rw [if_pos (by omega)]
    omega
  · by_cases h : D = -1
    · simp [h]
    · simp only [ne_eq, h, not_false_eq_true, if_true, iff_false]
      omega

/-- Witness of `number_of_points_in_range`: five points for dimension two. -/
theorem number_of_points_in_range_witness : number_of_points_int 2 = 2 * 2 + 1 :=
  (number_of_points_in_range 2).1 (by decide) (by decide)

section Loops

variable {K : Type} {n : Nat}

@[simp] theorem andThen_ok {σ : Type} (s : σ) (f : σ → Outcome σ) :
    (Outcome.ok s).andThen f = f s := rfl

@[simp] theorem andThen_throw {σ : Type} (s : σ) (e : Error) (f : σ → Outcome σ) :
    (Outcome.throw s e).andThen f = Outcome.throw s e := rfl

/-- A write inside the bounds stores the entry and returns normally. -/
theorem point_of_lt (ps : PointSet K n) (i : Nat) (p : Fin n → K) (w : Weight K)
    (h : i < ps.entries.length) :
    ps.point i p w = Outcome.ok { ps with entries := ps.entries.set i ⟨p, w⟩ } := by
  unfold PointSet.point PointSet.count_points
  rw [if_pos h]

/-- A write outside the bounds leaves the set as it is and throws. -/
theorem point_of_ge (ps : PointSet K n) (i : Nat) (p : Fin n → K) (w : Weight K)
    (h : ps.entries.length ≤ i) :
    ps.point i p w = Outcome.throw ps (Error.OutOfBoundsException i ps.entries.length) := by
  unfold PointSet.point PointSet.count_points
  rw [if_neg (by omega)]

/-- A loop that writes `f i` at `i` and `g i` at the mirror index `G + i`, for
`i` in `[a, a + m)`, all inside the bounds: it returns normally and every
index holds what the loop wrote there, or what it held before. -/
theorem forEach_pair_writes (G : Nat) (f g : Nat → Fin n → K) (w : Weight K) :
    ∀ (m a : Nat) (ps : PointSet K n), m ≤ G → G + a + m ≤ ps.entries.length →
      ∃ E : List (WeightedPoint K n),
        forEach (fun i ps => (PointSet.point i (f i) w ps).andThen
            (PointSet.point (G + i) (g i) w)) (List.range' a m) ps
          = Outcome.ok { ps with entries := E } ∧
        E.length = ps.entries.length ∧
        ∀ j, E[j]? =
          if a ≤ j ∧ j < a + m then some ⟨f j, w⟩
          else if G + a ≤ j ∧ j < G + a + m then some ⟨g (j - G), w⟩
          else ps.entries[j]? := by
  intro m
  induction m with
  | zero =>
    intro a ps _ _
    refine ⟨ps.entries, rfl, rfl, fun j => ?_⟩
    rw [if_neg (by omega), if_neg (by omega)]
  | succ m ih =>
    intro a ps hm hlen
    have h1 : a < ps.entries.length := by omega
    obtain ⟨E, hE, hElen, hEget⟩ := ih (a + 1)
      { ps with entries := (ps.entries.set a ⟨f a, w⟩).set (G + a) ⟨g a, w⟩ }
      (by omega) (by simp only [List.length_set]; omega)
    refine ⟨E, ?_, by simpa using hElen, fun j => ?_⟩
    · rw [List.range'_succ, forEach, point_of_lt ps a _ _ h1, andThen_ok,
        point_of_lt _ (G + a) _ _ (by simp only [List.length_set]; omega), andThen_ok]
      exact hE
    · rw [hEget j]
      simp only [List.getElem?_set, List.length_set]
      by_cases hj1 : a ≤ j ∧ j < a + (m + 1)
      · rw [if_pos hj1]
        by_cases hja : j = a
        · subst hja
          rw [if_neg (by omega), if_neg (by omega), if_neg (by omega), if_pos rfl, if_pos h1]
        · rw [if_pos (by omega)]
      · rw [if_neg hj1]
        by_cases hj2 : G + a ≤ j ∧ j < G + a + (m + 1)
        · rw [if_pos hj2, if_neg (by omega)]
          by_cases hja : j = G + a
          · subst hja
            rw [if_neg (by omega), if_pos rfl, if_pos (by omega)]
            simp
          · rw [if_pos (by omega)]
        · rw [if_neg hj2, if_neg (by omega), if_neg (by omega), if_neg (by omega),
            if_neg (by omega)]

end Loops

section Forward

variable {K : Type} [Field K] {n : Nat}

/-- The number of points `forward` asks for: `global_dimension` is a `size_t`,
never the marker `Eigen::Dynamic`. -/
theorem number_of_points_natCast (D : Nat) :
    number_of_points (D : Int) = 2 * (D : Int) + 1 := by
  unfold number_of_points Dynamic
  rw [if_pos (by omega)]

/-- On a point set that already has `2D+1` points and passes the size check,
`forward` returns normally and leaves exactly the layout of the spec. -/
theorem forward_of_count (sqrt : K → K) (ut : UnscentedTransform K) (g : Gaussian K n)
    (D o : Nat) (ps : PointSet K n)
    (hfix : ps.IsFixed = true → ps.NumberOfPoints = 2 * (D : Int) + 1)
    (hcount : ps.entries.length = 2 * D + 1) (hod : o + n ≤ D) :
    ut.forward sqrt g D o ps
      = Outcome.ok { ps with entries := (List.range (2 * D + 1)).map (layout sqrt ut g D o) } := by
  unfold UnscentedTransform.forward
  simp only [number_of_points_natCast]
  rw [if_neg (by rintro ⟨h1, h2⟩; exact h2 (hfix h1))]
  have hres : PointSet.resize (2 * (D : Int) + 1).toNat ps = Outcome.ok ps := by
    unfold PointSet.resize PointSet.count_points
    rw [if_pos (by omega)]
  rw [hres, andThen_ok, point_of_lt ps 0 _ _ (by omega), andThen_ok]
  simp only [forLoop, Gaussian.Dimension]
  obtain ⟨E1, h1, l1, g1⟩ := forEach_pair_writes D (fun _ => g.Mean) (fun _ => g.Mean)
    ⟨ut.weight_mean_i (D : K), ut.weight_cov_i (D : K)⟩ (1 + o - 1) 1
    { ps with entries := (ps.entries.set 0
        ⟨g.Mean, ⟨ut.weight_mean_0 (D : K), ut.weight_cov_0 (D : K)⟩⟩) }
    (by omega) (by simp only [List.length_set]; omega)
  rw [h1, andThen_ok]
  obtain ⟨E2, h2, l2, g2⟩ := forEach_pair_writes D
    (fun i => g.Mean + col (fun r c => g.SquareRoot r c * ut.gamma_factor sqrt (D : K))
      (i - o - 1))
    (fun i => g.Mean - col (fun r c => g.SquareRoot r c * ut.gamma_factor sqrt (D : K))
      (i - o - 1))
    ⟨ut.weight_mean_i (D : K), ut.weight_cov_i (D : K)⟩ (1 + o + n - (1 + o)) (1 + o)
    { ps with entries := E1 }
    (by omega) (by simp only [List.length_set] at l1; simp only [l1]; omega)
  rw [h2, andThen_ok]
  obtain ⟨E3, h3, l3, g3⟩ := forEach_pair_writes D (fun _ => g.Mean) (fun _ => g.Mean)
    ⟨ut.weight_mean_i (D : K), ut.weight_cov_i (D : K)⟩ (D + 1 - (1 + o + n)) (1 + o + n)
    { ps with entries := E2 }
    (by omega) (by simp only [List.length_set] at l1 l2; simp only [l2, l1]; omega)
  rw [h3]
  have hE : E3 = (List.range (2 * D + 1)).map (layout sqrt ut g D o) := by
    apply List.ext_getElem?
    intro j
    rw [g3 j, g2 j, g1 j]
    simp only [List.getElem?_set, List.getElem?_map]
    by_cases hj : j < 2 * D + 1
    · rw [List.getElem?_range hj, Option.map_some']
      unfold layout
      by_cases h0 : j = 0
      · subst h0
        rw [if_neg (by omega), if_neg (by omega), if_neg (by omega), if_neg (by omega),
          if_neg (by omega), if_neg (by omega), if_pos rfl, if_pos (by omega), if_pos rfl]
      · simp only [h0, if_false]
        by_cases ha : o + 1 ≤ j ∧ j < o + 1 + n
        · rw [if_pos ha, if_neg (by omega), if_neg (by omega), if_pos (by omega)]
        · rw [if_neg ha]
          by_cases hb : D + (o + 1) ≤ j ∧ j < D + (o + 1) + n
          · rw [if_pos hb, if_neg (by omega), if_neg (by omega), if_neg (by omega),
              if_pos (by omega)]
          · rw [if_neg hb]
            by_cases hc : 1 + o + n ≤ j ∧ j < 1 + o + n + (D + 1 - (1 + o + n))
            · rw [if_pos hc]
            · rw [if_neg hc]
              by_cases hd : D + (1 + o + n) ≤ j ∧ j < D + (1 + o + n) + (D + 1 - (1 + o + n))
              · rw [if_pos hd]
              · rw [if_neg hd, if_neg (by omega), if_neg (by omega)]
                by_cases he : 1 ≤ j ∧ j < 1 + (1 + o - 1)
                · rw [if_pos he]
                · rw [if_neg he, if_pos (by omega)]
    · have hnone : (List.range (2 * D + 1))[j]? = none :=
        List.getElem?_eq_none (by simp only [List.length_range]; omega)
      rw [hnone, Option.map_none']
      rw [if_neg (by omega), if_neg (by omega), if_neg (by omega), if_neg (by omega),
        if_neg (by omega), if_neg (by omega), if_neg (by omega)]
      exact List.getElem?_eq_none (by omega)
  rw [hE]

end Forward

section Invariants

variable {σ : Type}

/-- A property of the state that every statement keeps is kept by a sequence. -/
theorem andThen_state (P : σ → Prop) (r : Outcome σ) (f : σ → Outcome σ)
    (hr : P r.state) (hf : ∀ s, P s → P (f s).state) : P (r.andThen f).state := by
  unfold Outcome.andThen
  cases h : r.thrown with
  | none => exact hf _ hr
  | some e => exact hr

/-- A property of the state that the body keeps is kept by the loop. -/
theorem forEach_state (P : σ → Prop) (body : Nat → σ → Outcome σ)
    (hb : ∀ i s, P s → P (body i s).state) :
    ∀ (l : List Nat) (s : σ), P s → P (forEach body l s).state := by
  intro l
  induction l with
  | nil => intro s hs; exact hs
  | cons i is ih =>
    intro s hs
    exact andThen_state P _ _ (hb i s hs) (fun s' hs' => ih s' hs')

/-- A property of the outcome that every statement has is had by a sequence. -/
theorem andThen_outcome (R : Outcome σ → Prop) (r : Outcome σ) (f : σ → Outcome σ)
    (hr : R r) (hf : ∀ s, R (f s)) : R (r.andThen f) := by
  unfold Outcome.andThen
  cases h : r.thrown with
  | none => exact hf _
  | some e => exact hr

/-- A property of the outcome that the body and a normal return have is had by
the loop. -/
theorem forEach_outcome (R : Outcome σ → Prop) (body : Nat → σ → Outcome σ)
    (hok : ∀ s, R (Outcome.ok s)) (hb : ∀ i s, R (body i s)) :
    ∀ (l : List Nat) (s : σ), R (forEach body l s) := by
  intro l
  induction l with
  | nil => intro s; exact hok s
  | cons i is ih =>
    intro s
    exact andThen_outcome R _ _ (hb i s) (fun s' => ih s')

/-- A property of the state that the body keeps is kept by a `for` loop. -/
theorem forLoop_state (P : σ → Prop) (body : Nat → σ → Outcome σ)
    (hb : ∀ i s, P s → P (body i s).state) (start limit : Nat) (s : σ) (hs : P s) :
    P (forLoop start limit body s).state :=
  forEach_state P body hb _ s hs

/-- A property of the outcome that the body and a normal return have is had by
a `for` loop. -/
theorem forLoop_outcome (R : Outcome σ → Prop) (body : Nat → σ → Outcome σ)
    (hok : ∀ s, R (Outcome.ok s)) (hb : ∀ i s, R (body i s)) (start limit : Nat) (s : σ) :
    R (forLoop start limit body s) :=
  forEach_outcome R body hok hb _ s

/-- An exception that the body never throws is not thrown by a `for` loop. -/
theorem forLoop_not_thrown (e : Error) (body : Nat → σ → Outcome σ)
    (hb : ∀ i s, (body i s).thrown ≠ some e) (start limit : Nat) (s : σ) :
    (forLoop start limit body s).thrown ≠ some e :=
  forLoop_outcome (fun r : Outcome σ => r.thrown ≠ some e) body
    (fun _ => by simp [Outcome.ok]) hb start limit s

end Invariants

section Writes

variable {K : Type} {n : Nat}

/-- A write never changes the number of points. -/
theorem point_length (c : Nat) (i : Nat) (p : Fin n → K) (w : Weight K) (ps : PointSet K n)
    (h : ps.entries.length = c) : (ps.point i p w).state.entries.length = c := by
  unfold PointSet.point
  split
  · simpa [Outcome.ok] using h
  · exact h

/-- A write never throws the size-mismatch error. -/
theorem point_not_wrong_size (i : Nat) (p : Fin n → K) (w : Weight K) (ps : PointSet K n) :
    (ps.point i p w).thrown ≠ some Error.WrongSizeException := by
  unfold PointSet.point
  split <;> simp [Outcome.ok, Outcome.throw]

/-- The two writes of a loop body never change the number of points. -/
theorem pair_length (c : Nat) (i j : Nat) (p q : Fin n → K) (w v : Weight K)
    (ps : PointSet K n) (h : ps.entries.length = c) :
    ((ps.point i p w).andThen (PointSet.point j q v)).state.entries.length = c :=
  andThen_state (fun s : PointSet K n => s.entries.length = c) _ _
    (point_length c i p w ps h) (fun s hs => point_length c j q v s hs)

/-- The two writes of a loop body never throw the size-mismatch error. -/
theorem pair_not_wrong_size (i j : Nat) (p q : Fin n → K) (w v : Weight K)
    (ps : PointSet K n) :
    ((ps.point i p w).andThen (PointSet.point j q v)).thrown
      ≠ some Error.WrongSizeException :=
  andThen_outcome (fun r : Outcome (PointSet K n) => r.thrown ≠ some Error.WrongSizeException)
    _ _ (point_not_wrong_size i p w ps) (fun s => point_not_wrong_size j q v s)

end Writes

section ForwardGeneral

variable {K : Type} [Field K] {n : Nat}

/-- A dynamic point set of another size is reallocated first: `forward` then
runs as it does on the reallocated set. -/
theorem forward_resize_eq (sqrt : K → K) (ut : UnscentedTransform K) (g : Gaussian K n)
    (D o : Nat) (ps : PointSet K n) (hdyn : ps.IsFixed = false)
    (hcount : ps.entries.length ≠ 2 * D + 1) :
    ut.forward sqrt g D o ps
      = ut.forward sqrt g D o
          { ps with entries := List.replicate (2 * D + 1) (ps.fresh (2 * D + 1)) } := by
  unfold UnscentedTransform.forward
  simp only [number_of_points_natCast]
  rw [if_neg (by simp [hdyn]), if_neg (by simp [hdyn])]
  have e : (2 * (D : Int) + 1).toNat = 2 * D + 1 := by omega
  have h1 : PointSet.resize (2 * (D : Int) + 1).toNat ps
      = Outcome.ok { ps with entries := List.replicate (2 * D + 1) (ps.fresh (2 * D + 1)) } := by
    unfold PointSet.resize PointSet.count_points
    rw [e, if_neg (by omega), if_neg (by simp [hdyn])]
  have h2 : PointSet.resize (2 * (D : Int) + 1).toNat
      { ps with entries := List.replicate (2 * D + 1) (ps.fresh (2 * D + 1)) }
      = Outcome.ok { ps with entries := List.replicate (2 * D + 1) (ps.fresh (2 * D + 1)) } := by
    unfold PointSet.resize PointSet.count_points
    rw [e, if_pos (by simp)]
  rw [h1, h2]

/-- The layout theorem: on a point set that is dynamic, or fixed with the
declared and actual count `2D+1`, and for a block that fits (`o + n ≤ D`),
`forward` returns normally and leaves exactly the layout of the spec. -/
theorem forward_eq_layout (sqrt : K → K) (ut : UnscentedTransform K) (g : Gaussian K n)
    (D o : Nat) (ps : PointSet K n)
    (hsize : ps.IsFixed = true →
      ps.NumberOfPoints = 2 * (D : Int) + 1 ∧ ps.count_points = 2 * D + 1)
    (hod : o + n ≤ D) :
    ut.forward sqrt g D o ps
      = Outcome.ok { ps with entries := (List.range (2 * D + 1)).map (layout sqrt ut g D o) } := by
  by_cases hcount : ps.entries.length = 2 * D + 1
  · exact forward_of_count sqrt ut g D o ps (fun h => (hsize h).1) hcount hod
  · have hdyn : ps.IsFixed = false := by
      cases hf : ps.IsFixed with
      | false => rfl
      | true => exact absurd (hsize hf).2 hcount
    rw [forward_resize_eq sqrt ut g D o ps hdyn hcount]
    exact forward_of_count sqrt ut g D o _ (fun h => by simp [hdyn] at h)
      (by simp) hod

/-- Once the size check and the resize are passed, the set has `2D+1` points
whatever happens next. -/
theorem forward_length (sqrt : K → K) (ut : UnscentedTransform K) (g : Gaussian K n)
    (D o : Nat) (ps : PointSet K n) (hdyn : ps.IsFixed = false) :
    (ut.forward sqrt g D o ps).state.entries.length = 2 * D + 1 := by
  have key : ∀ ps : PointSet K n, ps.IsFixed = false → ps.entries.length = 2 * D + 1 →
      (ut.forward sqrt g D o ps).state.entries.length = 2 * D + 1 := by
    intro ps hdyn hcount
    unfold UnscentedTransform.forward
    simp only [number_of_points_natCast]
    rw [if_neg (by simp [hdyn])]
    have hres : PointSet.resize (2 * (D : Int) + 1).toNat ps = Outcome.ok ps := by
      unfold PointSet.resize PointSet.count_points
      rw [if_pos (by omega)]
    rw [hres, andThen_ok]
    refine andThen_state (fun s : PointSet K n => s.entries.length = 2 * D + 1) _ _
      (point_length _ _ _ _ _ hcount) (fun s1 hs1 => ?_)
    refine andThen_state (fun s : PointSet K n => s.entries.length = 2 * D + 1) _ _
      (forLoop_state (fun s : PointSet K n => s.entries.length = 2 * D + 1) _
        (fun i s hs => pair_length _ _ _ _ _ _ _ s hs) _ _ _ hs1) (fun s2 hs2 => ?_)
    refine andThen_state (fun s : PointSet K n => s.entries.length = 2 * D + 1) _ _
      (forLoop_state (fun s : PointSet K n => s.entries.length = 2 * D + 1) _
        (fun i s hs => pair_length _ _ _ _ _ _ _ s hs) _ _ _ hs2) (fun s3 hs3 => ?_)
    exact forLoop_state (fun s : PointSet K n => s.entries.length = 2 * D + 1) _
      (fun i s hs => pair_length _ _ _ _ _ _ _ s hs) _ _ _ hs3
  by_cases hcount : ps.entries.length = 2 * D + 1
  · exact key ps hdyn hcount
  · rw [forward_resize_eq sqrt ut g D o ps hdyn hcount]
    exact key _ hdyn (by simp)

end ForwardGeneral

section ForwardClaims

variable {K : Type} [Field K] {n : Nat}

/-- After a successful `forward` the entry at every index below `2D+1` is the
one of the layout. -/
theorem forward_entry (sqrt : K → K) (ut : UnscentedTransform K) (g : Gaussian K n)
    (D o : Nat) (ps : PointSet K n)
    (hsize : ps.IsFixed = true →
      ps.NumberOfPoints = 2 * (D : Int) + 1 ∧ ps.count_points = 2 * D + 1)
    (hod : o + n ≤ D) (i : Nat) (hi : i < 2 * D + 1) :
    (ut.forward sqrt g D o ps).state.entry i = some (layout sqrt ut g D o i) := by
  rw [forward_eq_layout sqrt ut g D o ps hsize hod]
  simp only [Outcome.ok, PointSet.entry, List.getElem?_map, List.getElem?_range hi,
    Option.map_some']

/-- The shifted column of the layout, read at a column in range. -/
theorem col_shift (g : Gaussian K n) (c : K) (k : Fin n) :
    col (fun r j => g.SquareRoot r j * c) k.val = c • fun r => g.SquareRoot r k := by
  funext r
  simp only [col, k.isLt, dite_true, Fin.eta, Pi.smul_apply, smul_eq_mul]
  ring

/-- C2: for a block that fits (`o + n ≤ D`) `forward` returns normally, and for
every column `k` of the square root the point at index `o+1+k` is
`mu + gamma·S[:,k]` and the point at the mirror index `D+o+1+k` is
`mu − gamma·S[:,k]`, with `gamma = sqrt(D + lambda)` taken at the global
dimension `D`. -/
theorem forward_sigma_points (sqrt : K → K) (ut : UnscentedTransform K)
    (g : Gaussian K n) (D o : Nat) (ps : PointSet K n)
    (hsize : ps.IsFixed = true →
      ps.NumberOfPoints = 2 * (D : Int) + 1 ∧ ps.count_points = 2 * D + 1)
    (hod : o + n ≤ D) (k : Fin n) :
    (ut.forward sqrt g D o ps).thrown = none ∧
    ((ut.forward sqrt g D o ps).state.entry (o + 1 + k.val)).map WeightedPoint.point
      = some (g.Mean + sqrt ((D : K) + ut.lambda_scalar (D : K)) • fun r => g.SquareRoot r k) ∧
    ((ut.forward sqrt g D o ps).state.entry (D + o + 1 + k.val)).map WeightedPoint.point
      = some (g.Mean - sqrt ((D : K) + ut.lambda_scalar (D : K)) • fun r => g.SquareRoot r k) := by
  have hk := k.isLt
  refine ⟨by rw [forward_eq_layout sqrt ut g D o ps hsize hod]; rfl, ?_, ?_⟩
  · rw [forward_entry sqrt ut g D o ps hsize hod _ (by omega), Option.map_some']
    unfold layout
    rw [if_neg (by omega), if_pos (by omega)]
    have e : o + 1 + k.val - o - 1 = k.val := by omega
    simp only [e, col_shift, UnscentedTransform.gamma_factor]
  · rw [forward_entry sqrt ut g D o ps hsize hod _ (by omega), Option.map_some']
    unfold layout
    rw [if_neg (by omega), if_neg (by omega), if_pos (by omega)]
    have e : D + o + 1 + k.val - D - o - 1 = k.val := by omega
    simp only [e, col_shift, UnscentedTransform.gamma_factor]

/-- C3: for a block that fits (`o + n ≤ D`) `forward` returns normally, and
every padding index `i` in `[1, o]` or in `[o+n+1, D]`, and its mirror index
`D + i`, holds exactly the mean `mu`. -/
theorem forward_padding (sqrt : K → K) (ut : UnscentedTransform K)
    (g : Gaussian K n) (D o : Nat) (ps : PointSet K n)
    (hsize : ps.IsFixed = true →
      ps.NumberOfPoints = 2 * (D : Int) + 1 ∧ ps.count_points = 2 * D + 1)
    (hod : o + n ≤ D) (i : Nat)
    (hi : (1 ≤ i ∧ i ≤ o) ∨ (o + n + 1 ≤ i ∧ i ≤ D)) :
    (ut.forward sqrt g D o ps).thrown = none ∧
    ((ut.forward sqrt g D o ps).state.entry i).map WeightedPoint.point = some g.Mean ∧
    ((ut.forward sqrt g D o ps).state.entry (D + i)).map WeightedPoint.point
      = some g.Mean := by
  refine ⟨by rw [forward_eq_layout sqrt ut g D o ps hsize hod]; rfl, ?_, ?_⟩
  · rw [forward_entry sqrt ut g D o ps hsize hod _ (by omega), Option.map_some']
    unfold layout
    rw [if_neg (by omega), if_neg (by omega), if_neg (by omega)]
  · rw [forward_entry sqrt ut g D o ps hsize hod _ (by omega), Option.map_some']
    unfold layout
    rw [if_neg (by omega), if_neg (by omega), if_neg (by omega)]

/-- The weights a successful `forward` leaves: the pair of index `0`, then the
common pair of the other indices. -/
theorem forward_weights (sqrt : K → K) (ut : UnscentedTransform K) (g : Gaussian K n)
    (D o : Nat) (ps : PointSet K n)
    (hsize : ps.IsFixed = true →
      ps.NumberOfPoints = 2 * (D : Int) + 1 ∧ ps.count_points = 2 * D + 1)
    (hod : o + n ≤ D) :
    (ut.forward sqrt g D o ps).state.entries.map WeightedPoint.weight
      = (List.range (2 * D + 1)).map fun i =>
          if i = 0 then (⟨ut.weight_mean_0 (D : K), ut.weight_cov_0 (D : K)⟩ : Weight K)
          else ⟨ut.weight_mean_i (D : K), ut.weight_cov_i (D : K)⟩ := by
  rw [forward_eq_layout sqrt ut g D o ps hsize hod]
  simp only [Outcome.ok, List.map_map]
  apply List.map_congr_left
  intro i _
  simp only [Function.comp, layout]
  split_ifs <;> rfl

/-- C4: after `forward`, index `0` holds the mean with the weight pair
`(lambda/(D+lambda), lambda/(D+lambda) + 1 − alpha² + beta)`, every index
`1..2D` carries `(w, w)` with `w = 1/(2(D+lambda))`, where
`lambda = alpha²(D+kappa) − D`; and the weight sequence is the same for any two
Gaussians, local dimensions, offsets and point sets with the same `D` and the
same transform parameters. -/
theorem forward_weight_sequence (sqrt : K → K) (ut : UnscentedTransform K) {m : Nat}
    (g : Gaussian K n) (g' : Gaussian K m) (D o o' : Nat)
    (ps : PointSet K n) (ps' : PointSet K m)
    (hsize : ps.IsFixed = true →
      ps.NumberOfPoints = 2 * (D : Int) + 1 ∧ ps.count_points = 2 * D + 1)
    (hsize' : ps'.IsFixed = true →
      ps'.NumberOfPoints = 2 * (D : Int) + 1 ∧ ps'.count_points = 2 * D + 1)
    (hod : o + n ≤ D) (hod' : o' + m ≤ D) :
    ut.lambda_scalar (D : K) = ut.alpha_ ^ 2 * ((D : K) + ut.kappa_) - (D : K) ∧
    (ut.forward sqrt g D o ps).thrown = none ∧
    (ut.forward sqrt g D o ps).state.entry 0
      = some ⟨g.Mean, ⟨ut.lambda_scalar (D : K) / ((D : K) + ut.lambda_scalar (D : K)),
          ut.lambda_scalar (D : K) / ((D : K) + ut.lambda_scalar (D : K))
            + 1 - ut.alpha_ ^ 2 + ut.beta_⟩⟩ ∧
    (∀ i, 1 ≤ i → i ≤ 2 * D →
      ((ut.forward sqrt g D o ps).state.entry i).map WeightedPoint.weight
        = some ⟨1 / (2 * ((D : K) + ut.lambda_scalar (D : K))),
            1 / (2 * ((D : K) + ut.lambda_scalar (D : K)))⟩) ∧
    (ut.forward sqrt g D o ps).state.entries.map WeightedPoint.weight
      = (ut.forward sqrt g' D o' ps').state.entries.map WeightedPoint.weight := by
  refine ⟨by unfold UnscentedTransform.lambda_scalar; ring,
    by rw [forward_eq_layout sqrt ut g D o ps hsize hod]; rfl, ?_, ?_, ?_⟩
  · rw [forward_entry sqrt ut g D o ps hsize hod 0 (by omega)]
    unfold layout
    rw [if_pos rfl]
    simp only [UnscentedTransform.weight_cov_0, UnscentedTransform.weight_mean_0]
    congr 3
    ring
  · intro i h1 h2
    rw [forward_entry sqrt ut g D o ps hsize hod i (by omega), Option.map_some']
    unfold layout
    simp only [UnscentedTransform.weight_cov_i, UnscentedTransform.weight_mean_i]
    rw [if_neg (by omega)]
    split_ifs <;> rfl
  · rw [forward_weights sqrt ut g D o ps hsize hod,
      forward_weights sqrt ut g' D o' ps' hsize' hod']

/-- C5: a dynamic point set has `2·D + 1` points after
`forward(gaussian, D, o, point_set)`, whatever its count was before and
whether or not the call returned normally; after `forward(gaussian, point_set)`
it has `2·gaussian.Dimension() + 1` points, and that call returns normally. -/
theorem forward_count_dynamic (sqrt : K → K) (ut : UnscentedTransform K)
    (g : Gaussian K n) (D o : Nat) (ps : PointSet K n) (hdyn : ps.IsFixed = false) :
    (ut.forward sqrt g D o ps).state.count_points = 2 * D + 1 ∧
    (ut.forward₂ sqrt g ps).state.count_points = 2 * g.Dimension + 1 ∧
    (ut.forward₂ sqrt g ps).thrown = none := by
  refine ⟨forward_length sqrt ut g D o ps hdyn,
    forward_length sqrt ut g g.Dimension 0 ps hdyn, ?_⟩
  unfold UnscentedTransform.forward₂
  rw [forward_eq_layout sqrt ut g g.Dimension 0 ps (fun h => by simp [hdyn] at h)
    (by simp [Gaussian.Dimension])]
  rfl

/-- When the size check of `forward` passes, no later statement throws the
size-mismatch error: `resize` and the writes throw other exceptions only. -/
theorem forward_pass_not_wrong_size (sqrt : K → K) (ut : UnscentedTransform K)
    (g : Gaussian K n) (D o : Nat) (ps : PointSet K n)
    (hpass : ¬ (ps.IsFixed = true ∧ ps.NumberOfPoints ≠ 2 * (D : Int) + 1)) :
    (ut.forward sqrt g D o ps).thrown ≠ some Error.WrongSizeException := by
  unfold UnscentedTransform.forward
  simp only [number_of_points_natCast]
  rw [if_neg hpass]
  refine andThen_outcome
    (fun r : Outcome (PointSet K n) => r.thrown ≠ some Error.WrongSizeException) _ _ ?_
    (fun s1 => ?_)
  · unfold PointSet.resize
    split_ifs <;> simp [Outcome.ok, Outcome.throw]
  refine andThen_outcome
    (fun r : Outcome (PointSet K n) => r.thrown ≠ some Error.WrongSizeException) _ _
    (point_not_wrong_size _ _ _ _) (fun s2 => ?_)
  refine andThen_outcome
    (fun r : Outcome (PointSet K n) => r.thrown ≠ some Error.WrongSizeException) _ _
    (forLoop_not_thrown _ _ (fun i s => pair_not_wrong_size _ _ _ _ _ _ s) _ _ _)
    (fun s3 => ?_)
  refine andThen_outcome
    (fun r : Outcome (PointSet K n) => r.thrown ≠ some Error.WrongSizeException) _ _
    (forLoop_not_thrown _ _ (fun i s => pair_not_wrong_size _ _ _ _ _ _ s) _ _ _)
    (fun s4 => ?_)
  exact forLoop_not_thrown _ _ (fun i s => pair_not_wrong_size _ _ _ _ _ _ s) _ _ _

/-- C10: on a fixed-size point set declared with `N` points, `forward` throws
`WrongSizeException` if and only if `N ≠ 2·D + 1`. -/
theorem forward_wrong_size_iff (sqrt : K → K) (ut : UnscentedTransform K)
    (g : Gaussian K n) (D o : Nat) (ps : PointSet K n) (hfixed : ps.IsFixed = true) :
    (ut.forward sqrt g D o ps).thrown = some Error.WrongSizeException
      ↔ ps.NumberOfPoints ≠ 2 * (D : Int) + 1 := by
  constructor
  · intro hthrown hN
    exact forward_pass_not_wrong_size sqrt ut g D o ps
      (by rintro ⟨_, h2⟩; exact h2 hN) hthrown
  · intro hN
    unfold UnscentedTransform.forward
    simp only [number_of_points_natCast]
    rw [if_pos ⟨hfixed, hN⟩]
    rfl

end ForwardClaims

section WorkedExample

variable {K : Type} [Field K]

/-- C7: with `alpha = 1`, `beta = 2`, `kappa = 0` and `D = 2` the transform has
`lambda = 0`, `gamma = sqrt(2)`, `w_mean_0 = 0`, `w_cov_0 = 2` and
`w_mean_i = w_cov_i = 1/4`, and `forward` on the Gaussian with mean `[0,0]` and
square root `I₂` returns normally with exactly the five points `[0,0]`,
`[sqrt 2, 0]`, `[0, sqrt 2]`, `[−sqrt 2, 0]`, `[0, −sqrt 2]` in this order, the
first with weight `(0, 2)` and the others with weight `(1/4, 1/4)`. -/
theorem worked_example (sqrt : K → K) (ps : PointSet K 2)
    (hsize : ps.IsFixed = true →
      ps.NumberOfPoints = 2 * ((2 : Nat) : Int) + 1 ∧ ps.count_points = 2 * 2 + 1) :
    (UnscentedTransform.default K).lambda_scalar ((2 : Nat) : K) = 0 ∧
    (UnscentedTransform.default K).gamma_factor sqrt ((2 : Nat) : K) = sqrt 2 ∧
    (UnscentedTransform.default K).weight_mean_0 ((2 : Nat) : K) = 0 ∧
    (UnscentedTransform.default K).weight_cov_0 ((2 : Nat) : K) = 2 ∧
    (UnscentedTransform.default K).weight_mean_i ((2 : Nat) : K) = 1 / 4 ∧
    (UnscentedTransform.default K).weight_cov_i ((2 : Nat) : K) = 1 / 4 ∧
    (UnscentedTransform.default K).forward sqrt (example_gaussian K) 2 0 ps
      = Outcome.ok { ps with entries :=
          [⟨![0, 0], ⟨0, 2⟩⟩, ⟨![sqrt 2, 0], ⟨1 / 4, 1 / 4⟩⟩, ⟨![0, sqrt 2], ⟨1 / 4, 1 / 4⟩⟩,
            ⟨![-sqrt 2, 0], ⟨1 / 4, 1 / 4⟩⟩, ⟨![0, -sqrt 2], ⟨1 / 4, 1 / 4⟩⟩] } := by
  have hl : (UnscentedTransform.default K).lambda_scalar ((2 : Nat) : K) = 0 := by
    simp [UnscentedTransform.lambda_scalar, UnscentedTransform.default]
  have hg : (UnscentedTransform.default K).gamma_factor sqrt ((2 : Nat) : K) = sqrt 2 := by
    rw [UnscentedTransform.gamma_factor, hl, add_zero, Nat.cast_ofNat]
  have h0 : (UnscentedTransform.default K).weight_mean_0 ((2 : Nat) : K) = 0 := by
    rw [UnscentedTransform.weight_mean_0, hl, zero_div]
  have hc : (UnscentedTransform.default K).weight_cov_0 ((2 : Nat) : K) = 2 := by
    rw [UnscentedTransform.weight_cov_0, h0]
    simp [UnscentedTransform.default]
  have hi : (UnscentedTransform.default K).weight_mean_i ((2 : Nat) : K) = 1 / 4 := by
    rw [UnscentedTransform.weight_mean_i, hl, add_zero, Nat.cast_ofNat]
    congr 1
    norm_num
  have hci : (UnscentedTransform.default K).weight_cov_i ((2 : Nat) : K) = 1 / 4 := hi
  refine ⟨hl, hg, h0, hc, hi, hci, ?_⟩
  rw [forward_eq_layout sqrt _ _ 2 0 ps hsize (by norm_num)]
  have hr : List.range (2 * 2 + 1) = [0, 1, 2, 3, 4] := by decide
  rw [hr]
  simp only [List.map, layout, hg, h0, hc, hi, hci]
  have hv1 : (example_gaussian K).Mean
      + col (fun r c => (example_gaussian K).SquareRoot r c * sqrt 2) 0 = ![sqrt 2, 0] := by
    funext r
    fin_cases r <;> simp [example_gaussian, col, Matrix.one_apply, Fin.ext_iff]
  have hv2 : (example_gaussian K).Mean
      + col (fun r c => (example_gaussian K).SquareRoot r c * sqrt 2) 1 = ![0, sqrt 2] := by
    funext r
    fin_cases r <;> simp [example_gaussian, col, Matrix.one_apply, Fin.ext_iff]
  have hv3 : (example_gaussian K).Mean
      - col (fun r c => (example_gaussian K).SquareRoot r c * sqrt 2) 0 = ![-sqrt 2, 0] := by
    funext r
    fin_cases r <;> simp [example_gaussian, col, Matrix.one_apply, Fin.ext_iff]
  have hv4 : (example_gaussian K).Mean
      - col (fun r c => (example_gaussian K).SquareRoot r c * sqrt 2) 1 = ![0, -sqrt 2] := by
    funext r
    fin_cases r <;> simp [example_gaussian, col, Matrix.one_apply, Fin.ext_iff]
  have hm : (example_gaussian K).Mean = ![0, 0] := rfl
  norm_num
  rw [hv1, hv2, hv3, hv4, hm]

end WorkedExample

section Witnesses

/-- Witness of `forward_sigma_points`: the worked example, first column. -/
theorem forward_sigma_points_witness :
    0 + 2 ≤ 2 ∧
    ((UnscentedTransform.default ℝ).forward Real.sqrt (example_gaussian ℝ) 2 0
      (dynamic_point_set ℝ 2)).thrown = none ∧
    (((UnscentedTransform.default ℝ).forward Real.sqrt (example_gaussian ℝ) 2 0
      (dynamic_point_set ℝ 2)).state.entry (0 + 1 + (0 : Fin 2).val)).map WeightedPoint.point
      = some ((example_gaussian ℝ).Mean
          + Real.sqrt (((2 : Nat) : ℝ) + (UnscentedTransform.default ℝ).lambda_scalar ((2 : Nat) : ℝ))
            • fun r => (example_gaussian ℝ).SquareRoot r 0) ∧
    (((UnscentedTransform.default ℝ).forward Real.sqrt (example_gaussian ℝ) 2 0
      (dynamic_point_set ℝ 2)).state.entry (2 + 0 + 1 + (0 : Fin 2).val)).map WeightedPoint.point
      = some ((example_gaussian ℝ).Mean
          - Real.sqrt (((2 : Nat) : ℝ) + (UnscentedTransform.default ℝ).lambda_scalar ((2 : Nat) : ℝ))
            • fun r => (example_gaussian ℝ).SquareRoot r 0) :=
  ⟨by norm_num, forward_sigma_points Real.sqrt (UnscentedTransform.default ℝ)
    (example_gaussian ℝ) 2 0 (dynamic_point_set ℝ 2)
    (by simp [dynamic_point_set, PointSet.create]) (by norm_num) 0⟩

/-- Witness of `forward_padding`: a one-dimensional standard normal at offset
one of a global dimension three; index `1` and index `3` are padding. -/
theorem forward_padding_witness :
    ((UnscentedTransform.default ℚ).forward id (Gaussian.standard ℚ 1) 3 1
      (dynamic_point_set ℚ 1)).thrown = none ∧
    (((UnscentedTransform.default ℚ).forward id (Gaussian.standard ℚ 1) 3 1
      (dynamic_point_set ℚ 1)).state.entry 1).map WeightedPoint.point
      = some (Gaussian.standard ℚ 1).Mean ∧
    (((UnscentedTransform.default ℚ).forward id (Gaussian.standard ℚ 1) 3 1
      (dynamic_point_set ℚ 1)).state.entry (3 + 1)).map WeightedPoint.point
      = some (Gaussian.standard ℚ 1).Mean :=
  forward_padding id (UnscentedTransform.default ℚ) (Gaussian.standard ℚ 1) 3 1
    (dynamic_point_set ℚ 1) (by simp [dynamic_point_set, PointSet.create]) (by norm_num) 1
    (Or.inl ⟨le_refl 1, le_refl 1⟩)

/-- Witness of `forward_weight_sequence`: the state block and the noise block
of a global dimension three carry the same weights. -/
theorem forward_weight_sequence_witness :
    ((UnscentedTransform.default ℚ).forward id (example_gaussian ℚ) 3 0
      (dynamic_point_set ℚ 2)).state.entries.map WeightedPoint.weight
      = ((UnscentedTransform.default ℚ).forward id (Gaussian.standard ℚ 1) 3 2
          (fixed_point_set ℚ 1 7)).state.entries.map WeightedPoint.weight :=
  (forward_weight_sequence id (UnscentedTransform.default ℚ) (example_gaussian ℚ)
    (Gaussian.standard ℚ 1) 3 0 2 (dynamic_point_set ℚ 2) (fixed_point_set ℚ 1 7)
    (by simp [dynamic_point_set, PointSet.create])
    (by simp [fixed_point_set, PointSet.create, PointSet.count_points])
    (by norm_num) (by norm_num)).2.2.2.2

/-- Witness of `forward_count_dynamic`: an empty dynamic set gets five points. -/
theorem forward_count_dynamic_witness :
    ((UnscentedTransform.default ℚ).forward id (example_gaussian ℚ) 2 0
      (dynamic_point_set ℚ 2)).state.count_points = 2 * 2 + 1 :=
  (forward_count_dynamic id (UnscentedTransform.default ℚ) (example_gaussian ℚ) 2 0
    (dynamic_point_set ℚ 2) rfl).1

/-- Witness of `forward_wrong_size_iff`: a fixed set of three points cannot
take the five points of dimension two. -/
theorem forward_wrong_size_iff_witness :
    ((UnscentedTransform.default ℚ).forward id (example_gaussian ℚ) 2 0
      (fixed_point_set ℚ 2 3)).thrown = some Error.WrongSizeException :=
  (forward_wrong_size_iff id (UnscentedTransform.default ℚ) (example_gaussian ℚ) 2 0
    (fixed_point_set ℚ 2 3) rfl).2 (by simp [fixed_point_set, PointSet.create])

/-- Witness of `worked_example`: the five points over the reals. -/
theorem worked_example_witness :
    (UnscentedTransform.default ℝ).forward Real.sqrt (example_gaussian ℝ) 2 0
        (dynamic_point_set ℝ 2)
      = Outcome.ok { dynamic_point_set ℝ 2 with entries :=
          [⟨![0, 0], ⟨0, 2⟩⟩, ⟨![Real.sqrt 2, 0], ⟨1 / 4, 1 / 4⟩⟩,
            ⟨![0, Real.sqrt 2], ⟨1 / 4, 1 / 4⟩⟩, ⟨![-Real.sqrt 2, 0], ⟨1 / 4, 1 / 4⟩⟩,
            ⟨![0, -Real.sqrt 2], ⟨1 / 4, 1 / 4⟩⟩] } :=
  (worked_example Real.sqrt (dynamic_point_set ℝ 2)
    (by simp [dynamic_point_set, PointSet.create])).2.2.2.2.2.2

end Witnesses

section PredictLoop

variable {K : Type} {ds dq du dr dy : Nat}

/-- The loop of `predict` over the indices `[a, a + m)`, all inside both point
sets: it returns normally, only `X_r` changes, and every index of the range
holds the propagated point with the weight it had. -/
theorem forEach_predict_point (delta_time : K) (input : Fin du → K) :
    ∀ (m a : Nat) (f : GaussianFilter K ds dq du dr dy),
      a + m ≤ f.X_r.entries.length → f.X_r.entries.length ≤ f.X_Q.entries.length →
      ∃ E : List (WeightedPoint K ds),
        forEach (GaussianFilter.predict_point delta_time input) (List.range' a m) f
          = Outcome.ok { f with X_r := { f.X_r with entries := E } } ∧
        E.length = f.X_r.entries.length ∧
        ∀ j, E[j]? =
          if a ≤ j ∧ j < a + m then
            (f.X_r.entries[j]?).bind fun e => (f.X_Q.entries[j]?).map fun q =>
              ⟨f.process_model_.predict_state delta_time e.point q.point input, e.weight⟩
          else f.X_r.entries[j]? := by
  intro m
  induction m with
  | zero =>
    intro a f _ _
    refine ⟨f.X_r.entries, rfl, rfl, fun j => ?_⟩
    rw [if_neg (by omega)]
  | succ m ih =>
    intro a f hlen hQ
    have h1 : a < f.X_r.entries.length := by omega
    have h2 : a < f.X_Q.entries.length := by omega
    have e1 : f.X_r.entries[a]? = some (f.X_r.entries[a]) := List.getElem?_eq_getElem h1
    have e2 : f.X_Q.entries[a]? = some (f.X_Q.entries[a]) := List.getElem?_eq_getElem h2
    obtain ⟨E, hE, hElen, hEget⟩ := ih (a + 1)
      { f with X_r := { f.X_r with entries := (f.X_r.entries.set a
          ⟨f.process_model_.predict_state delta_time (f.X_r.entries[a]).point
            (f.X_Q.entries[a]).point input, (f.X_r.entries[a]).weight⟩) } }
      (by simp only [List.length_set]; omega) (by simp only [List.length_set]; omega)
    refine ⟨E, ?_, by simpa using hElen, fun j => ?_⟩
    · rw [List.range'_succ, forEach]
      have hstep : GaussianFilter.predict_point delta_time input a f
          = Outcome.ok { f with X_r := { f.X_r with entries := (f.X_r.entries.set a
              ⟨f.process_model_.predict_state delta_time (f.X_r.entries[a]).point
                (f.X_Q.entries[a]).point input, (f.X_r.entries[a]).weight⟩) } } := by
        simp only [GaussianFilter.predict_point, PointSet.point_get, PointSet.point_vec, e1, e2]
        rfl
      rw [hstep, andThen_ok]
      exact hE
    · rw [hEget j]
      simp only [List.getElem?_set]
      by_cases hj : a ≤ j ∧ j < a + (m + 1)
      · rw [if_pos hj]
        by_cases hja : j = a
        · subst hja
          rw [if_neg (by omega), if_pos rfl, if_pos h1, e1, e2]
          rfl
        · rw [if_pos (by omega), if_neg (by omega)]
      · rw [if_neg hj, if_neg (by omega), if_neg (by omega)]

/-- The loop of `predict` on point sets given index by index. -/
theorem forLoop_predict_point (delta_time : K) (input : Fin du → K) (c : Nat)
    (R : Nat → WeightedPoint K ds) (Q : Nat → WeightedPoint K dq)
    (f : GaussianFilter K ds dq du dr dy)
    (hR : f.X_r.entries = (List.range c).map R) (hQ : f.X_Q.entries = (List.range c).map Q) :
    forLoop 0 c (GaussianFilter.predict_point delta_time input) f
      = Outcome.ok { f with X_r := { f.X_r with entries := ((List.range c).map fun i =>
          ⟨f.process_model_.predict_state delta_time (R i).point (Q i).point input,
            (R i).weight⟩) } } := by
  obtain ⟨E, hE, hElen, hEget⟩ := forEach_predict_point delta_time input (c - 0) 0 f
    (by simp [hR]) (by simp [hR, hQ])
  unfold forLoop
  rw [hE]
  have : E = (List.range c).map fun i =>
      ⟨f.process_model_.predict_state delta_time (R i).point (Q i).point input,
        (R i).weight⟩ := by
    apply List.ext_getElem?
    intro j
    rw [hEget j, hR, hQ]
    simp only [List.getElem?_map]
    by_cases hj : j < c
    · rw [if_pos (by omega), List.getElem?_range hj]
      rfl
    · have hnone : (List.range c)[j]? = none :=
        List.getElem?_eq_none (by simp only [List.length_range]; omega)
      rw [if_neg (by omega), hnone]
      rfl
  rw [this]

end PredictLoop

section Sums

variable {K : Type} [Field K]

/-- The sum of a list given index by index is the sum over the range. -/
theorem sum_map_range {M : Type} [AddCommMonoid M] (f : Nat → M) (c : Nat) :
    ((List.range c).map f).sum = ∑ i ∈ Finset.range c, f i := by
  induction c with
  | zero => simp
  | succ c ih =>
    rw [List.range_succ, List.map_append, List.sum_append, ih, Finset.sum_range_succ]
    simp

/-- The product `X · diag(W) · Yᵗ` of three lists read off one list. -/
theorem mul_diag_transpose_map {α : Type} {a b : Nat} (l : List α)
    (fx : α → Fin a → K) (fw : α → K) (fy : α → Fin b → K) :
    mul_diag_transpose (l.map fx) (l.map fw) (l.map fy)
      = Matrix.of fun r c => (l.map fun e => fx e r * fw e * fy e c).sum := by
  induction l with
  | nil =>
    ext r c
    simp [mul_diag_transpose]
  | cons e l ih =>
    ext r c
    simp only [List.map_cons, mul_diag_transpose, ih, Matrix.add_apply, Matrix.of_apply,
      List.sum_cons]

end Sums

section PredictMoments

variable {K : Type} [Field K] {ds dq du dr dy : Nat}

/-- The moments `predict` writes, as sums over the `2D+1` propagated points:
on a filter that satisfies the invariant `predict` returns normally, the mean
is the sum of `w_mean[i] · z_i` and the covariance the sum of
`w_cov[i] · (z_i − mean)(z_i − mean)ᵗ`, where `z_i` is `predict_state` at the
`i`-th point of the prior and the `i`-th noise point. -/
theorem predict_moments (sqrt : K → K)
    (factor : Matrix (Fin ds) (Fin ds) K → Matrix (Fin ds) (Fin ds) K)
    (delta_time : K) (input : Fin du → K) (prior_dist predicted_dist : Gaussian K ds)
    (f : GaussianFilter K ds dq du dr dy) (hinv : f.invariant sqrt)
    (z : Nat → Fin ds → K) (wt : Nat → Weight K)
    (hz : ∀ i, z i = f.process_model_.predict_state delta_time
      (layout sqrt f.point_set_transform_ prior_dist (ds + dq + dr) 0 i).point
      (layout sqrt f.point_set_transform_ (Gaussian.standard K dq) (ds + dq + dr) ds i).point
      input)
    (hwt : ∀ i, wt i = (layout sqrt f.point_set_transform_ prior_dist (ds + dq + dr) 0 i).weight) :
    (f.predict sqrt factor delta_time input prior_dist predicted_dist).thrown = none ∧
    (f.predict sqrt factor delta_time input prior_dist predicted_dist).state.2.Mean
      = ∑ i ∈ Finset.range (2 * (ds + dq + dr) + 1), (wt i).w_mean • z i ∧
    (f.predict sqrt factor delta_time input prior_dist predicted_dist).state.2.Covariance
      = Matrix.of fun a b => ∑ i ∈ Finset.range (2 * (ds + dq + dr) + 1),
          (z i a - (∑ j ∈ Finset.range (2 * (ds + dq + dr) + 1), (wt j).w_mean • z j) a)
            * (wt i).w_cov
            * (z i b - (∑ j ∈ Finset.range (2 * (ds + dq + dr) + 1), (wt j).w_mean • z j) b) := by
  rcases f with ⟨thr, isg, pm, om, ut, gd, Xr, Xy, XQ, XR, prd, inn, X, Y, W⟩
  simp only [GaussianFilter.invariant] at hinv
  simp only at hz hwt
  obtain ⟨hD, hQ, _, hr, _⟩ := hinv
  subst hD
  have hfw := forward_eq_layout sqrt ut prior_dist (ds + dq + dr) 0 Xr hr (by omega)
  have hloop := forLoop_predict_point delta_time input (2 * (ds + dq + dr) + 1)
    (layout sqrt ut prior_dist (ds + dq + dr) 0)
    (layout sqrt ut (Gaussian.standard K dq) (ds + dq + dr) ds)
    (⟨thr, isg, pm, om, ut, ds + dq + dr,
      { Xr with entries := ((List.range (2 * (ds + dq + dr) + 1)).map
        (layout sqrt ut prior_dist (ds + dq + dr) 0)) }, Xy, XQ, XR, prd, inn, X, Y, W⟩ :
      GaussianFilter K ds dq du dr dy)
    rfl hQ
  have hpred : GaussianFilter.predict sqrt factor delta_time input prior_dist predicted_dist
      (⟨thr, isg, pm, om, ut, ds + dq + dr, Xr, Xy, XQ, XR, prd, inn, X, Y, W⟩ :
        GaussianFilter K ds dq du dr dy)
      = Outcome.ok
        ((⟨thr, isg, pm, om, ut, ds + dq + dr,
            { Xr with entries := ((List.range (2 * (ds + dq + dr) + 1)).map
              fun i => (⟨z i, wt i⟩ : WeightedPoint K ds)) }, Xy, XQ, XR, prd, inn,
            ((List.range (2 * (ds + dq + dr) + 1)).map fun i => z i
              - ((List.range (2 * (ds + dq + dr) + 1)).map fun j => (wt j).w_mean • z j).sum),
            Y,
            ((List.range (2 * (ds + dq + dr) + 1)).map fun i => (wt i).w_cov)⟩ :
            GaussianFilter K ds dq du dr dy),
         (predicted_dist.set_mean
            ((List.range (2 * (ds + dq + dr) + 1)).map fun j => (wt j).w_mean • z j).sum
          ).set_covariance factor (mul_diag_transpose
            ((List.range (2 * (ds + dq + dr) + 1)).map fun i => z i
              - ((List.range (2 * (ds + dq + dr) + 1)).map fun j => (wt j).w_mean • z j).sum)
            ((List.range (2 * (ds + dq + dr) + 1)).map fun i => (wt i).w_cov)
            ((List.range (2 * (ds + dq + dr) + 1)).map fun i => z i
              - ((List.range (2 * (ds + dq + dr) + 1)).map fun j => (wt j).w_mean • z j).sum))) := by
    unfold GaussianFilter.predict
    simp only [hfw, Outcome.ok, PointSet.count_points, List.length_map, List.length_range]
    simp only [Outcome.ok] at hloop
    simp only [hloop, PointSet.centered_points, PointSet.mean,
      PointSet.covariance_weights_vector, List.map_map, Function.comp, ← hz, ← hwt]
    rfl
  rw [hpred]
  refine ⟨rfl, ?_, ?_⟩
  · simp only [Outcome.ok, Gaussian.set_covariance, Gaussian.set_mean, sum_map_range]
  · simp only [Outcome.ok, Gaussian.set_covariance, Gaussian.set_mean, mul_diag_transpose_map,
      sum_map_range, Pi.sub_apply]

end PredictMoments

section LayoutFacts

variable {K : Type} [Field K] {n : Nat}

/-- The mean weights sum to one as soon as the denominator `D + lambda` is not
zero. -/
theorem weight_mean_sum (ut : UnscentedTransform K) (D : ℕ) (h2 : (2 : K) ≠ 0)
    (hden : (D : K) + ut.lambda_scalar (D : K) ≠ 0) :
    ut.weight_mean_0 (D : K) + 2 * (D : K) * ut.weight_mean_i (D : K) = 1 := by
  unfold UnscentedTransform.weight_mean_0 UnscentedTransform.weight_mean_i
  field_simp
  ring

/-- Index `0` of the layout is the mean. -/
theorem layout_point_zero (sqrt : K → K) (ut : UnscentedTransform K) (g : Gaussian K n)
    (D o : Nat) : (layout sqrt ut g D o 0).point = g.Mean := by
  unfold layout
  rw [if_pos rfl]

/-- The weights of the layout. -/
theorem layout_weight (sqrt : K → K) (ut : UnscentedTransform K) (g : Gaussian K n)
    (D o i : Nat) :
    (layout sqrt ut g D o i).weight
      = if i = 0 then ⟨ut.weight_mean_0 (D : K), ut.weight_cov_0 (D : K)⟩
        else ⟨ut.weight_mean_i (D : K), ut.weight_cov_i (D : K)⟩ := by
  simp only [layout]
  split_ifs <;> rfl

/-- An index of the block holds the mean shifted by a column of the scaled
square root. -/
theorem layout_point_active (sqrt : K → K) (ut : UnscentedTransform K) (g : Gaussian K n)
    (D o : Nat) (k : Fin n) :
    (layout sqrt ut g D o (o + 1 + k.val)).point
      = g.Mean + ut.gamma_factor sqrt (D : K) • fun r => g.SquareRoot r k := by
  unfold layout
  rw [if_neg (by omega), if_pos (by omega)]
  have e : o + 1 + k.val - o - 1 = k.val := by omega
  simp only [e, col_shift]

/-- An index `1..D` outside the block holds the mean. -/
theorem layout_point_pad (sqrt : K → K) (ut : UnscentedTransform K) (g : Gaussian K n)
    (D o i : Nat) (h1 : 1 ≤ i) (hD : i ≤ D) (hi : ¬ (o + 1 ≤ i ∧ i < o + 1 + n)) :
    (layout sqrt ut g D o i).point = g.Mean := by
  unfold layout
  rw [if_neg (by omega), if_neg hi, if_neg (by omega)]

/-- The mirror index `D + i` holds the point of index `i` reflected at the
mean. -/
theorem layout_point_mirror (sqrt : K → K) (ut : UnscentedTransform K) (g : Gaussian K n)
    (D o i : Nat) (hod : o + n ≤ D) (h1 : 1 ≤ i) (hD : i ≤ D) :
    (layout sqrt ut g D o (D + i)).point
      = g.Mean - ((layout sqrt ut g D o i).point - g.Mean) := by
  by_cases hi : o + 1 ≤ i ∧ i < o + 1 + n
  · have e1 : (layout sqrt ut g D o (D + i)).point
        = g.Mean - col (fun r c => g.SquareRoot r c * ut.gamma_factor sqrt (D : K))
            (i - o - 1) := by
      unfold layout
      rw [if_neg (by omega), if_neg (by omega), if_pos (by omega)]
      have e : D + i - D - o - 1 = i - o - 1 := by omega
      simp only [e]
    have e2 : (layout sqrt ut g D o i).point
        = g.Mean + col (fun r c => g.SquareRoot r c * ut.gamma_factor sqrt (D : K))
            (i - o - 1) := by
      unfold layout
      rw [if_neg (by omega), if_pos hi]
    rw [e1, e2, add_sub_cancel_left]
  · have e1 : (layout sqrt ut g D o (D + i)).point = g.Mean := by
      unfold layout
      rw [if_neg (by omega), if_neg (by omega), if_neg (by omega)]
    rw [e1, layout_point_pad sqrt ut g D o i h1 hD hi, sub_self, sub_zero]

end LayoutFacts

section Symmetric

variable {K : Type} [Field K] {a : Nat}

/-- The moments of a set of `2D+1` weighted points that is symmetric about
`m0`: the weighted mean is `m0`, and the weighted scatter about `m0` is twice
the common weight times the scatter of the first `D` directions. -/
theorem symmetric_moments (D : Nat) (z : Nat → Fin a → K) (wm wc : Nat → K) (w0 w : K)
    (m0 : Fin a → K) (hw0 : wm 0 = w0) (hwm : ∀ i, wm (i + 1) = w)
    (hwc : ∀ i, wc (i + 1) = w) (hz0 : z 0 = m0)
    (hzm : ∀ i, i < D → z (D + (i + 1)) = m0 - (z (i + 1) - m0))
    (hsum : w0 + 2 * (D : K) * w = 1) :
    ∑ i ∈ Finset.range (2 * D + 1), wm i • z i = m0 ∧
    ∀ r c, ∑ i ∈ Finset.range (2 * D + 1), (z i r - m0 r) * wc i * (z i c - m0 c)
      = 2 * w * ∑ i ∈ Finset.range D, (z (i + 1) r - m0 r) * (z (i + 1) c - m0 c) := by
  have hsplit : ∀ {M : Type} [AddCommMonoid M] (f : Nat → M),
      ∑ i ∈ Finset.range (2 * D + 1), f i
        = (∑ i ∈ Finset.range D, (f (i + 1) + f (D + (i + 1)))) + f 0 := by
    intro M _ f
    rw [Finset.sum_range_succ', two_mul, Finset.sum_range_add, Finset.sum_add_distrib]
    rfl
  constructor
  · rw [hsplit, hw0, hz0]
    have hterm : ∀ i ∈ Finset.range D,
        wm (i + 1) • z (i + 1) + wm (D + (i + 1)) • z (D + (i + 1)) = (2 * w) • m0 := by
      intro i hi
      rw [hzm i (Finset.mem_range.mp hi), hwm i, show D + (i + 1) = (D + i) + 1 from rfl,
        hwm (D + i)]
      funext r
      simp only [Pi.add_apply, Pi.smul_apply, Pi.sub_apply, smul_eq_mul]
      ring
    rw [Finset.sum_congr rfl hterm, Finset.sum_const, Finset.card_range]
    funext r
    simp only [Pi.add_apply, Pi.smul_apply, smul_eq_mul, nsmul_eq_mul, Pi.mul_apply,
      Pi.natCast_apply]
    linear_combination (m0 r) * hsum
  · intro r c
    rw [hsplit, hz0, sub_self, zero_mul, zero_mul, add_zero, Finset.mul_sum]
    apply Finset.sum_congr rfl
    intro i hi
    rw [hzm i (Finset.mem_range.mp hi), hwc i, show D + (i + 1) = (D + i) + 1 from rfl,
      hwc (D + i)]
    simp only [Pi.sub_apply]
    ring

end Symmetric

section Affine

variable {K : Type} [Field K] {ds dq du dr dy : Nat}

open Matrix in
/-- The unscented prediction of an affine process model
`predict_state(dt, x, q, u) = A·x + B·q + c`, whenever `D + lambda` is not
zero and `sqrt` squares back to it: `predict` returns normally with the mean
`A·mu + c` and the covariance `A·S·Sᵗ·Aᵗ + B·Bᵗ`. -/
theorem predict_affine (sqrt : K → K)
    (factor : Matrix (Fin ds) (Fin ds) K → Matrix (Fin ds) (Fin ds) K)
    (delta_time : K) (input : Fin du → K) (prior_dist predicted_dist : Gaussian K ds)
    (f : GaussianFilter K ds dq du dr dy) (hinv : f.invariant sqrt)
    (A : Matrix (Fin ds) (Fin ds) K) (B : Matrix (Fin ds) (Fin dq) K) (c : Fin ds → K)
    (hpm : ∀ dt x q u, f.process_model_.predict_state dt x q u = A *ᵥ x + B *ᵥ q + c)
    (h2 : (2 : K) ≠ 0)
    (hden : ((ds + dq + dr : Nat) : K)
      + f.point_set_transform_.lambda_scalar ((ds + dq + dr : Nat) : K) ≠ 0)
    (hsq : f.point_set_transform_.gamma_factor sqrt ((ds + dq + dr : Nat) : K)
        * f.point_set_transform_.gamma_factor sqrt ((ds + dq + dr : Nat) : K)
      = ((ds + dq + dr : Nat) : K)
        + f.point_set_transform_.lambda_scalar ((ds + dq + dr : Nat) : K)) :
    (f.predict sqrt factor delta_time input prior_dist predicted_dist).thrown = none ∧
    (f.predict sqrt factor delta_time input prior_dist predicted_dist).state.2.Mean
      = A *ᵥ prior_dist.Mean + c ∧
    (f.predict sqrt factor delta_time input prior_dist predicted_dist).state.2.Covariance
      = A * (prior_dist.SquareRoot * prior_dist.SquareRootᵀ) * Aᵀ + B * Bᵀ := by
  obtain ⟨h1, hmean, hcov⟩ := predict_moments sqrt factor delta_time input prior_dist
    predicted_dist f hinv
    (fun i => A *ᵥ (layout sqrt f.point_set_transform_ prior_dist (ds + dq + dr) 0 i).point
      + B *ᵥ (layout sqrt f.point_set_transform_ (Gaussian.standard K dq)
          (ds + dq + dr) ds i).point + c)
    (fun i => (layout sqrt f.point_set_transform_ prior_dist (ds + dq + dr) 0 i).weight)
    (fun i => (hpm _ _ _ _).symm) (fun i => rfl)
  generalize f.point_set_transform_ = ut at *
  have hstd : (Gaussian.standard K dq).Mean = 0 := rfl
  have hsym := symmetric_moments (ds + dq + dr)
    (fun i => A *ᵥ (layout sqrt ut prior_dist (ds + dq + dr) 0 i).point
      + B *ᵥ (layout sqrt ut (Gaussian.standard K dq) (ds + dq + dr) ds i).point + c)
    (fun i => (layout sqrt ut prior_dist (ds + dq + dr) 0 i).weight.w_mean)
    (fun i => (layout sqrt ut prior_dist (ds + dq + dr) 0 i).weight.w_cov)
    (ut.weight_mean_0 ((ds + dq + dr : Nat) : K)) (ut.weight_mean_i ((ds + dq + dr : Nat) : K))
    (A *ᵥ prior_dist.Mean + c)
    (by beta_reduce; rw [layout_weight, if_pos rfl])
    (fun i => by beta_reduce; rw [layout_weight, if_neg (by omega)])
    (fun i => by beta_reduce; rw [layout_weight, if_neg (by omega)]; rfl)
    (by simp only [layout_point_zero, hstd, Matrix.mulVec_zero, add_zero])
    (fun i hi => by
      simp only [layout_point_mirror sqrt ut prior_dist (ds + dq + dr) 0 (i + 1)
          (by omega) (by omega) (by omega),
        layout_point_mirror sqrt ut (Gaussian.standard K dq) (ds + dq + dr) ds (i + 1)
          (by omega) (by omega) (by omega),
        hstd, Matrix.mulVec_sub, Matrix.mulVec_zero]
      abel)
    (weight_mean_sum ut (ds + dq + dr) h2 hden)
  refine ⟨h1, hmean.trans hsym.1, ?_⟩
  rw [hcov]
  ext r c'
  rw [Matrix.of_apply, hsym.1, hsym.2 r c']
  beta_reduce
  have hb1 : ∀ (i : Fin ds) (t : Fin ds),
      (A *ᵥ (layout sqrt ut prior_dist (ds + dq + dr) 0 (i.val + 1)).point
        + B *ᵥ (layout sqrt ut (Gaussian.standard K dq) (ds + dq + dr) ds (i.val + 1)).point
        + c) t - (A *ᵥ prior_dist.Mean + c) t
      = ut.gamma_factor sqrt ((ds + dq + dr : Nat) : K) * (A * prior_dist.SquareRoot) t i := by
    intro i t
    have hi := i.isLt
    have e : i.val + 1 = 0 + 1 + i.val := by omega
    rw [e, layout_point_active, ← e,
      layout_point_pad sqrt ut (Gaussian.standard K dq) (ds + dq + dr) ds (i.val + 1)
        (by omega) (by omega) (by omega), hstd]
    simp only [Matrix.mulVec_add, Matrix.mulVec_zero, Matrix.mulVec_smul, Pi.add_apply,
      Pi.smul_apply, smul_eq_mul, add_zero, Matrix.mul_apply, Matrix.mulVec, Matrix.dotProduct]
    ring
  have hb2 : ∀ (i : Fin dq) (t : Fin ds),
      (A *ᵥ (layout sqrt ut prior_dist (ds + dq + dr) 0 (ds + i.val + 1)).point
        + B *ᵥ (layout sqrt ut (Gaussian.standard K dq) (ds + dq + dr) ds
            (ds + i.val + 1)).point
        + c) t - (A *ᵥ prior_dist.Mean + c) t
      = ut.gamma_factor sqrt ((ds + dq + dr : Nat) : K) * B t i := by
    intro i t
    have hi := i.isLt
    have e : ds + i.val + 1 = ds + 1 + i.val := by omega
    rw [layout_point_pad sqrt ut prior_dist (ds + dq + dr) 0 (ds + i.val + 1)
        (by omega) (by omega) (by omega), e, layout_point_active, hstd]
    simp only [Matrix.mulVec_add, Matrix.mulVec_zero, Matrix.mulVec_smul, Pi.add_apply,
      Pi.smul_apply, smul_eq_mul, zero_add, Matrix.mulVec, Matrix.dotProduct,
      Gaussian.standard, Matrix.one_apply, mul_ite, mul_one, mul_zero, Finset.sum_ite_eq',
      Finset.mem_univ, if_true]
    ring
  have hb3 : ∀ (i : Nat) (t : Fin ds), i < dr →
      (A *ᵥ (layout sqrt ut prior_dist (ds + dq + dr) 0 (ds + dq + i + 1)).point
        + B *ᵥ (layout sqrt ut (Gaussian.standard K dq) (ds + dq + dr) ds
            (ds + dq + i + 1)).point
        + c) t - (A *ᵥ prior_dist.Mean + c) t = 0 := by
    intro i t hi
    rw [layout_point_pad sqrt ut prior_dist (ds + dq + dr) 0 (ds + dq + i + 1)
        (by omega) (by omega) (by omega),
      layout_point_pad sqrt ut (Gaussian.standard K dq) (ds + dq + dr) ds (ds + dq + i + 1)
        (by omega) (by omega) (by omega), hstd]
    simp only [Matrix.mulVec_zero, add_zero, sub_self]
  rw [Finset.sum_range_add, Finset.sum_range_add, Finset.sum_range, Finset.sum_range]
  have hs3 : ∑ x ∈ Finset.range dr,
      ((A *ᵥ (layout sqrt ut prior_dist (ds + dq + dr) 0 (ds + dq + x + 1)).point
        + B *ᵥ (layout sqrt ut (Gaussian.standard K dq) (ds + dq + dr) ds
            (ds + dq + x + 1)).point
        + c) r - (A *ᵥ prior_dist.Mean + c) r)
      * ((A *ᵥ (layout sqrt ut prior_dist (ds + dq + dr) 0 (ds + dq + x + 1)).point
        + B *ᵥ (layout sqrt ut (Gaussian.standard K dq) (ds + dq + dr) ds
            (ds + dq + x + 1)).point
        + c) c' - (A *ᵥ prior_dist.Mean + c) c') = 0 := by
    apply Finset.sum_eq_zero
    intro x hx
    rw [hb3 x r (Finset.mem_range.mp hx), zero_mul]
  rw [hs3, add_zero]
  simp only [hb1, hb2]
  have hw : 2 * ut.weight_mean_i ((ds + dq + dr : Nat) : K)
      * (ut.gamma_factor sqrt ((ds + dq + dr : Nat) : K)
        * ut.gamma_factor sqrt ((ds + dq + dr : Nat) : K)) = 1 := by
    rw [hsq]
    unfold UnscentedTransform.weight_mean_i
    generalize ((ds + dq + dr : Nat) : K) + ut.lambda_scalar ((ds + dq + dr : Nat) : K) = x
      at hden
    field_simp
  have hA : (A * (prior_dist.SquareRoot * prior_dist.SquareRootᵀ) * Aᵀ) r c'
      = ∑ i : Fin ds, (A * prior_dist.SquareRoot) r i * (A * prior_dist.SquareRoot) c' i := by
    rw [← Matrix.mul_assoc, Matrix.mul_assoc (A * prior_dist.SquareRoot),
      ← Matrix.transpose_mul, Matrix.mul_apply]
    rfl
  have hB : (B * Bᵀ) r c' = ∑ i : Fin dq, B r i * B c' i := by
    rw [Matrix.mul_apply]
    rfl
  rw [Matrix.add_apply, hA, hB]
  have hfac : ∀ (x y : K),
      ut.gamma_factor sqrt ((ds + dq + dr : Nat) : K) * x
        * (ut.gamma_factor sqrt ((ds + dq + dr : Nat) : K) * y)
      = (ut.gamma_factor sqrt ((ds + dq + dr : Nat) : K)
        * ut.gamma_factor sqrt ((ds + dq + dr : Nat) : K)) * (x * y) := by
    intro x y
    ring
  simp only [hfac, ← Finset.mul_sum]
  linear_combination
    (∑ i : Fin ds, (A * prior_dist.SquareRoot) r i * (A * prior_dist.SquareRoot) c' i
      + ∑ i : Fin dq, B r i * B c' i) * hw

end Affine

section FilterClaims

variable {K : Type} [Field K] {ds dq du dr dy : Nat}

/-- The constructor establishes the invariant: when the trait of the point
sets is dynamic or equals `2D+1`, it returns normally and the filter it builds
satisfies `invariant`. -/
theorem create_invariant (sqrt : K → K) (process_model : ProcessModel K ds dq du)
    (obsrv_model : ObservationModel K ds dr dy) (ut : UnscentedTransform K)
    (NumberOfPoints : Int) (IsFixed : Bool)
    (fresh_r : Nat → WeightedPoint K ds) (fresh_y : Nat → WeightedPoint K dy)
    (fresh_Q : Nat → WeightedPoint K dq) (fresh_R : Nat → WeightedPoint K dr)
    (threshold inv_sigma : K)
    (hN : IsFixed = true → NumberOfPoints = 2 * ((ds + dq + dr : Nat) : Int) + 1) :
    (GaussianFilter.create sqrt process_model obsrv_model ut NumberOfPoints IsFixed
      fresh_r fresh_y fresh_Q fresh_R threshold inv_sigma).thrown = none ∧
    (GaussianFilter.create sqrt process_model obsrv_model ut NumberOfPoints IsFixed
      fresh_r fresh_y fresh_Q fresh_R threshold inv_sigma).state.invariant sqrt ∧
    (GaussianFilter.create sqrt process_model obsrv_model ut NumberOfPoints IsFixed
      fresh_r fresh_y fresh_Q fresh_R threshold inv_sigma).state.process_model_
        = process_model ∧
    (GaussianFilter.create sqrt process_model obsrv_model ut NumberOfPoints IsFixed
      fresh_r fresh_y fresh_Q fresh_R threshold inv_sigma).state.point_set_transform_ = ut := by
  have e : (2 * ((ds + dq + dr : Nat) : Int) + 1).toNat = 2 * (ds + dq + dr) + 1 := by omega
  have hQ := forward_eq_layout sqrt ut (Gaussian.standard K dq) (ds + dq + dr) ds
    (PointSet.create NumberOfPoints IsFixed fresh_Q (2 * (ds + dq + dr) + 1))
    (fun h => ⟨hN h, by simp [PointSet.create, PointSet.count_points]⟩) (by omega)
  have hR := forward_eq_layout sqrt ut (Gaussian.standard K dr) (ds + dq + dr) (ds + dq)
    (PointSet.create NumberOfPoints IsFixed fresh_R (2 * (ds + dq + dr) + 1))
    (fun h => ⟨hN h, by simp [PointSet.create, PointSet.count_points]⟩) (by omega)
  have hres : ∀ {m : Nat} (fresh : Nat → WeightedPoint K m),
      ((PointSet.create_default NumberOfPoints IsFixed fresh).resize
          (2 * (ds + dq + dr) + 1)).thrown = none ∧
      ((PointSet.create_default NumberOfPoints IsFixed fresh).resize
          (2 * (ds + dq + dr) + 1)).state.count_points = 2 * (ds + dq + dr) + 1 ∧
      ((PointSet.create_default NumberOfPoints IsFixed fresh).resize
          (2 * (ds + dq + dr) + 1)).state.IsFixed = IsFixed ∧
      ((PointSet.create_default NumberOfPoints IsFixed fresh).resize
          (2 * (ds + dq + dr) + 1)).state.NumberOfPoints = NumberOfPoints := by
    intro m fresh
    cases hf : IsFixed with
    | true =>
      have hN' := hN hf
      have e' : (2 * ((ds : Int) + (dq : Int) + (dr : Int)) + 1).toNat
          = 2 * (ds + dq + dr) + 1 := by omega
      simp [PointSet.resize, PointSet.create_default, PointSet.create, PointSet.count_points,
        hN', e', Outcome.ok]
    | false =>
      simp [PointSet.resize, PointSet.create_default, PointSet.create, PointSet.count_points,
        Outcome.ok]
  obtain ⟨hy1, hy2, _, _⟩ := hres fresh_y
  obtain ⟨hr1, hr2, hr3, hr4⟩ := hres fresh_r
  simp only [GaussianFilter.create, ProcessModel.state_dimension, ProcessModel.noise_dimension,
    ObservationModel.noise_dimension, number_of_points_natCast, e, hQ, hR, Outcome.ok,
    Outcome.andThen, hy1, hr1, GaussianFilter.invariant]
  exact ⟨trivial, ⟨trivial, trivial, trivial, fun h => ⟨by rw [hr4]; exact hN (hr3 ▸ h), hr2⟩,
    hy2⟩, trivial, trivial⟩

end FilterClaims

section Exactness

variable {ds dq du dr dy : Nat}

open Matrix in
/-- C9: the unscented prediction is exact for linear maps.  For a filter that
satisfies the invariant of the constructor, a process model
`predict_state(dt, x, q, u) = A·x + B·q + c`, a prior with covariance
`P = S·Sᵗ` and transform parameters with `alpha²·(D + kappa) > 0`, `predict`
returns normally with `predicted.mean = A·mu + c` and
`predicted.covariance = A·P·Aᵗ + B·Bᵗ`. -/
theorem predict_linear_exact
    (factor : Matrix (Fin ds) (Fin ds) ℝ → Matrix (Fin ds) (Fin ds) ℝ)
    (delta_time : ℝ) (input : Fin du → ℝ) (prior_dist predicted_dist : Gaussian ℝ ds)
    (f : GaussianFilter ℝ ds dq du dr dy) (hinv : f.invariant Real.sqrt)
    (A : Matrix (Fin ds) (Fin ds) ℝ) (B : Matrix (Fin ds) (Fin dq) ℝ) (c : Fin ds → ℝ)
    (hpm : ∀ dt x q u, f.process_model_.predict_state dt x q u = A *ᵥ x + B *ᵥ q + c)
    (hP : prior_dist.Covariance = prior_dist.SquareRoot * prior_dist.SquareRootᵀ)
    (hpos : 0 < f.point_set_transform_.alpha_ ^ 2
      * (((ds + dq + dr : Nat) : ℝ) + f.point_set_transform_.kappa_)) :
    (f.predict Real.sqrt factor delta_time input prior_dist predicted_dist).thrown = none ∧
    (f.predict Real.sqrt factor delta_time input prior_dist predicted_dist).state.2.Mean
      = A *ᵥ prior_dist.Mean + c ∧
    (f.predict Real.sqrt factor delta_time input prior_dist predicted_dist).state.2.Covariance
      = A * prior_dist.Covariance * Aᵀ + B * Bᵀ := by
  have hden : 0 < ((ds + dq + dr : Nat) : ℝ)
      + f.point_set_transform_.lambda_scalar ((ds + dq + dr : Nat) : ℝ) := by
    rw [dim_add_lambda, ← pow_two]
    exact hpos
  rw [hP]
  exact predict_affine Real.sqrt factor delta_time input prior_dist predicted_dist f hinv
    A B c hpm two_ne_zero hden.ne' (Real.mul_self_sqrt hden.le)

open Matrix in
/-- C8: exact reconstruction under identity dynamics.  For a filter that
satisfies the invariant of the constructor, with the default transform
parameters and a process model whose `predict_state` returns its state
argument, and a prior with covariance `P = S·Sᵗ`, `predict` returns normally
with `predicted.mean = mu` and `predicted.covariance = P`, for all state and
noise dimensions. -/
theorem predict_identity_exact
    (factor : Matrix (Fin ds) (Fin ds) ℝ → Matrix (Fin ds) (Fin ds) ℝ)
    (delta_time : ℝ) (input : Fin du → ℝ) (prior_dist predicted_dist : Gaussian ℝ ds)
    (f : GaussianFilter ℝ ds dq du dr dy) (hinv : f.invariant Real.sqrt)
    (hut : f.point_set_transform_ = UnscentedTransform.default ℝ)
    (hpm : ∀ dt x q u, f.process_model_.predict_state dt x q u = x)
    (hP : prior_dist.Covariance = prior_dist.SquareRoot * prior_dist.SquareRootᵀ) :
    (f.predict Real.sqrt factor delta_time input prior_dist predicted_dist).thrown = none ∧
    (f.predict Real.sqrt factor delta_time input prior_dist predicted_dist).state.2.Mean
      = prior_dist.Mean ∧
    (f.predict Real.sqrt factor delta_time input prior_dist predicted_dist).state.2.Covariance
      = prior_dist.Covariance := by
  by_cases hD : ds + dq + dr = 0
  · have hds : ds = 0 := by omega
    subst hds
    refine ⟨(predict_moments Real.sqrt factor delta_time input prior_dist predicted_dist f
      hinv _ _ (fun _ => rfl) (fun _ => rfl)).1, ?_, ?_⟩
    · funext r
      exact r.elim0
    · ext r
      exact r.elim0
  · have hlam : f.point_set_transform_.lambda_scalar ((ds + dq + dr : Nat) : ℝ) = 0 := by
      rw [hut]
      simp [UnscentedTransform.lambda_scalar, UnscentedTransform.default]
    have hpos : (0 : ℝ) < ((ds + dq + dr : Nat) : ℝ) := by
      exact_mod_cast Nat.pos_of_ne_zero hD
    have hden : 0 < ((ds + dq + dr : Nat) : ℝ)
        + f.point_set_transform_.lambda_scalar ((ds + dq + dr : Nat) : ℝ) := by
      rw [hlam, add_zero]
      exact hpos
    have h := predict_affine Real.sqrt factor delta_time input prior_dist predicted_dist f hinv
      1 0 0 (fun dt x q u => by rw [hpm]; simp) two_ne_zero hden.ne'
      (Real.mul_self_sqrt hden.le)
    rw [hP]
    simpa using h

end Exactness

section FilterWitnesses

/-- The covariance of the example prior is the square of its square root. -/
theorem example_prior_sqrt :
    (example_prior ℝ).Covariance
      = (example_prior ℝ).SquareRoot * (example_prior ℝ).SquareRoot.transpose := by
  ext i j
  fin_cases i
  fin_cases j
  norm_num [example_prior, Matrix.mul_apply]

open Matrix in
/-- Witness of `predict_linear_exact`: the additive stub model `prior + noise`
(`A = 1`, `B = 1`, `c = 0`) in the filter the constructor builds, on the prior
with mean `3` and covariance `4`. -/
theorem predict_linear_exact_witness :
    (GaussianFilter.predict Real.sqrt (fun m => m) 0 0 (example_prior ℝ) (example_prior ℝ)
      (stub_filter_outcome ℝ Real.sqrt 1 (ProcessModelStub ℝ 1)).state).thrown = none ∧
    (GaussianFilter.predict Real.sqrt (fun m => m) 0 0 (example_prior ℝ) (example_prior ℝ)
      (stub_filter_outcome ℝ Real.sqrt 1 (ProcessModelStub ℝ 1)).state).state.2.Mean
      = (1 : Matrix (Fin 1) (Fin 1) ℝ) *ᵥ (example_prior ℝ).Mean + 0 ∧
    (GaussianFilter.predict Real.sqrt (fun m => m) 0 0 (example_prior ℝ) (example_prior ℝ)
      (stub_filter_outcome ℝ Real.sqrt 1 (ProcessModelStub ℝ 1)).state).state.2.Covariance
      = (1 : Matrix (Fin 1) (Fin 1) ℝ) * (example_prior ℝ).Covariance
          * (1 : Matrix (Fin 1) (Fin 1) ℝ)ᵀ
        + (1 : Matrix (Fin 1) (Fin 1) ℝ) * (1 : Matrix (Fin 1) (Fin 1) ℝ)ᵀ :=
  predict_linear_exact (fun m => m) 0 0 (example_prior ℝ) (example_prior ℝ)
    (stub_filter_outcome ℝ Real.sqrt 1 (ProcessModelStub ℝ 1)).state
    (create_invariant Real.sqrt _ _ _ _ _ _ _ _ _ _ _ (fun h => by simp at h)).2.1
    1 1 0
    (fun dt x q u => by
      rw [stub_filter_outcome, (create_invariant Real.sqrt _ _ _ _ _ _ _ _ _ _ _
        (fun h => by simp at h)).2.2.1]
      simp [ProcessModelStub])
    example_prior_sqrt
    (by
      rw [stub_filter_outcome, (create_invariant Real.sqrt _ _ _ _ _ _ _ _ _ _ _
        (fun h => by simp at h)).2.2.2]
      norm_num [UnscentedTransform.default])

/-- Witness of `predict_identity_exact`: the identity process model in the
filter the constructor builds, on the prior with mean `3` and covariance `4`. -/
theorem predict_identity_exact_witness :
    (GaussianFilter.predict Real.sqrt (fun m => m) 0 0 (example_prior ℝ) (example_prior ℝ)
      (stub_filter_outcome ℝ Real.sqrt 1 (ProcessModelIdentity ℝ 1)).state).thrown = none ∧
    (GaussianFilter.predict Real.sqrt (fun m => m) 0 0 (example_prior ℝ) (example_prior ℝ)
      (stub_filter_outcome ℝ Real.sqrt 1 (ProcessModelIdentity ℝ 1)).state).state.2.Mean
      = (example_prior ℝ).Mean ∧
    (GaussianFilter.predict Real.sqrt (fun m => m) 0 0 (example_prior ℝ) (example_prior ℝ)
      (stub_filter_outcome ℝ Real.sqrt 1 (ProcessModelIdentity ℝ 1)).state).state.2.Covariance
      = (example_prior ℝ).Covariance :=
  predict_identity_exact (fun m => m) 0 0 (example_prior ℝ) (example_prior ℝ)
    (stub_filter_outcome ℝ Real.sqrt 1 (ProcessModelIdentity ℝ 1)).state
    (create_invariant Real.sqrt _ _ _ _ _ _ _ _ _ _ _ (fun h => by simp at h)).2.1
    (create_invariant Real.sqrt _ _ _ _ _ _ _ _ _ _ _ (fun h => by simp at h)).2.2.2
    (fun dt x q u => by
      rw [stub_filter_outcome, (create_invariant Real.sqrt _ _ _ _ _ _ _ _ _ _ _
        (fun h => by simp at h)).2.2.1]
      rfl)
    example_prior_sqrt

end FilterWitnesses

section UpdateLoop

variable {K : Type} [LinearOrderedField K] {ds dq du dr dy : Nat}

/-- The loop of `update` over the indices `[a, a + m)`, all inside the three
point sets: it returns normally, only `X_y` changes, and every index of the
range holds the predicted observation with the weight `X_y` had there. -/
theorem forEach_update_point :
    ∀ (m a : Nat) (f : GaussianFilter K ds dq du dr dy),
      a + m ≤ f.X_y.entries.length → f.X_y.entries.length ≤ f.X_r.entries.length →
      f.X_y.entries.length ≤ f.X_R.entries.length →
      ∃ E : List (WeightedPoint K dy),
        forEach GaussianFilter.update_point (List.range' a m) f
          = Outcome.ok { f with X_y := { f.X_y with entries := E } } ∧
        E.length = f.X_y.entries.length ∧
        ∀ j, E[j]? =
          if a ≤ j ∧ j < a + m then
            (f.X_y.entries[j]?).bind fun e => (f.X_r.entries[j]?).bind fun x =>
              (f.X_R.entries[j]?).map fun r =>
                ⟨f.obsrv_model_.predict_observation x.point r.point 0, e.weight⟩
          else f.X_y.entries[j]? := by
  intro m
  induction m with
  | zero =>
    intro a f _ _ _
    refine ⟨f.X_y.entries, rfl, rfl, fun j => ?_⟩
    rw [if_neg (by omega)]
  | succ m ih =>
    intro a f hlen hr hR
    have h0 : a < f.X_y.entries.length := by omega
    have h1 : a < f.X_r.entries.length := by omega
    have h2 : a < f.X_R.entries.length := by omega
    have e0 : f.X_y.entries[a]? = some (f.X_y.entries[a]) := List.getElem?_eq_getElem h0
    have e1 : f.X_r.entries[a]? = some (f.X_r.entries[a]) := List.getElem?_eq_getElem h1
    have e2 : f.X_R.entries[a]? = some (f.X_R.entries[a]) := List.getElem?_eq_getElem h2
    obtain ⟨E, hE, hElen, hEget⟩ := ih (a + 1)
      { f with X_y := { f.X_y with entries := (f.X_y.entries.set a
          ⟨f.obsrv_model_.predict_observation (f.X_r.entries[a]).point
            (f.X_R.entries[a]).point 0, (f.X_y.entries[a]).weight⟩) } }
      (by simp only [List.length_set]; omega) (by simp only [List.length_set]; omega)
      (by simp only [List.length_set]; omega)
    refine ⟨E, ?_, by simpa using hElen, fun j => ?_⟩
    · rw [List.range'_succ, forEach]
      have hstep : GaussianFilter.update_point a f
          = Outcome.ok { f with X_y := { f.X_y with entries := (f.X_y.entries.set a
              ⟨f.obsrv_model_.predict_observation (f.X_r.entries[a]).point
                (f.X_R.entries[a]).point 0, (f.X_y.entries[a]).weight⟩) } } := by
        simp only [GaussianFilter.update_point, PointSet.point_get, PointSet.point_vec,
          e0, e1, e2]
        rfl
      rw [hstep, andThen_ok]
      exact hE
    · rw [hEget j]
      simp only [List.getElem?_set]
      by_cases hj : a ≤ j ∧ j < a + (m + 1)
      · rw [if_pos hj]
        by_cases hja : j = a
        · subst hja
          rw [if_neg (by omega), if_pos rfl, if_pos h0, e0, e1, e2]
          rfl
        · rw [if_pos (by omega), if_neg (by omega)]
      · rw [if_neg hj, if_neg (by omega), if_neg (by omega)]

/-- The loop of `update` on point sets given index by index. -/
theorem forLoop_update_point (c : Nat)
    (X : Nat → WeightedPoint K ds) (R : Nat → WeightedPoint K dr)
    (Y : Nat → WeightedPoint K dy) (f : GaussianFilter K ds dq du dr dy)
    (hX : f.X_r.entries = (List.range c).map X) (hR : f.X_R.entries = (List.range c).map R)
    (hY : f.X_y.entries = (List.range c).map Y) :
    forLoop 0 c GaussianFilter.update_point f
      = Outcome.ok { f with X_y := { f.X_y with entries := ((List.range c).map fun i =>
          ⟨f.obsrv_model_.predict_observation (X i).point (R i).point 0,
            (Y i).weight⟩) } } := by
  obtain ⟨E, hE, hElen, hEget⟩ := forEach_update_point (c - 0) 0 f
    (by simp [hY]) (by simp [hX, hY]) (by simp [hR, hY])
  unfold forLoop
  rw [hE]
  have : E = (List.range c).map fun i =>
      ⟨f.obsrv_model_.predict_observation (X i).point (R i).point 0, (Y i).weight⟩ := by
    apply List.ext_getElem?
    intro j
    rw [hEget j, hX, hR, hY]
    simp only [List.getElem?_map]
    by_cases hj : j < c
    · rw [if_pos (by omega), List.getElem?_range hj]
      rfl
    · have hnone : (List.range c)[j]? = none :=
        List.getElem?_eq_none (by simp only [List.length_range]; omega)
      rw [if_neg (by omega), hnone]
      rfl
  rw [this]

end UpdateLoop

section UpdateResult

variable {K : Type} [LinearOrderedField K] {ds dq du dr dy : Nat}

/-- The result of `update` on a filter that satisfies the invariant: the call
returns normally; `X_r` holds the transform of the predicted belief, `X_y` the
predicted observations `z i` with the weights it held before, the scratch
members the centred points, the weights, the prediction and the innovation;
and the posterior belief is written from the guarded `cov_yy` and the gain. -/
theorem update_eq (sqrt : K → K)
    (factor : Matrix (Fin ds) (Fin ds) K → Matrix (Fin ds) (Fin ds) K)
    (y : Fin dy → K) (p q : Nat) (f : GaussianFilter K ds dq du dr dy)
    (b : Nat → Gaussian K ds) (hinv : f.invariant sqrt)
    (Y0 : Nat → WeightedPoint K dy)
    (hY0 : f.X_y.entries = (List.range (2 * (ds + dq + dr) + 1)).map Y0)
    (x : Nat → WeightedPoint K ds) (z : Nat → Fin dy → K)
    (hx : ∀ i, x i = layout sqrt f.point_set_transform_ (b p) (ds + dq + dr) 0 i)
    (hz : ∀ i, z i = f.obsrv_model_.predict_observation (x i).point
      (layout sqrt f.point_set_transform_ (Gaussian.standard K dr) (ds + dq + dr)
        (ds + dq) i).point 0)
    (mx : Fin ds → K) (my : Fin dy → K)
    (hmx : mx = ((List.range (2 * (ds + dq + dr) + 1)).map fun i =>
      (x i).weight.w_mean • (x i).point).sum)
    (hmy : my = ((List.range (2 * (ds + dq + dr) + 1)).map fun i =>
      (Y0 i).weight.w_mean • z i).sum)
    (F : GaussianFilter K ds dq du dr dy)
    (hF : F = { f with
      X_r := { f.X_r with entries :=
        ((List.range (2 * (ds + dq + dr) + 1)).map x) }
      X_y := { f.X_y with entries :=
        ((List.range (2 * (ds + dq + dr) + 1)).map fun i => ⟨z i, (Y0 i).weight⟩) }
      W := ((List.range (2 * (ds + dq + dr) + 1)).map fun i => (x i).weight.w_cov)
      X := ((List.range (2 * (ds + dq + dr) + 1)).map fun i => (x i).point - mx)
      Y := ((List.range (2 * (ds + dq + dr) + 1)).map fun i => z i - my)
      prediction := my
      innovation := y - my })
    (G : Matrix (Fin dy) (Fin dy) K) (gain : Matrix (Fin ds) (Fin dy) K)
    (hG : G = stability_guard F.threshold F.inv_sigma F.innovation
      (mul_diag_transpose F.Y F.W F.Y))
    (hgain : gain = mul_diag_transpose F.X F.W F.Y * inverse G) :
    GaussianFilter.update sqrt factor y p q (f, b)
      = Outcome.ok (F, Function.update b q
          ⟨mx + gain.mulVec (y - my),
            mul_diag_transpose F.X F.W F.X - gain * G * gain.transpose,
            factor (mul_diag_transpose F.X F.W F.X - gain * G * gain.transpose)⟩) := by
  rcases f with ⟨thr, isg, pm, om, ut, gd, Xr, Xy, XQ, XR, prd, inn, X, Y, W⟩
  simp only [GaussianFilter.invariant] at hinv
  simp only at hx hz hY0 hF
  obtain ⟨hD, _, hR, hr, _⟩ := hinv
  subst hD
  have hfw := forward_eq_layout sqrt ut (b p) (ds + dq + dr) 0 Xr hr (by omega)
  have hloop := forLoop_update_point (2 * (ds + dq + dr) + 1)
    (layout sqrt ut (b p) (ds + dq + dr) 0)
    (layout sqrt ut (Gaussian.standard K dr) (ds + dq + dr) (ds + dq)) Y0
    (⟨thr, isg, pm, om, ut, ds + dq + dr,
      { Xr with entries := ((List.range (2 * (ds + dq + dr) + 1)).map
        (layout sqrt ut (b p) (ds + dq + dr) 0)) }, Xy, XQ, XR, prd, inn, X, Y, W⟩ :
      GaussianFilter K ds dq du dr dy)
    rfl hR hY0
  have hxf : x = layout sqrt ut (b p) (ds + dq + dr) 0 := funext hx
  subst hxf
  have hzf : z = fun i => om.predict_observation
      (layout sqrt ut (b p) (ds + dq + dr) 0 i).point
      (layout sqrt ut (Gaussian.standard K dr) (ds + dq + dr) (ds + dq) i).point 0 :=
    funext hz
  subst hzf
  subst hgain hG hF hmx hmy
  unfold GaussianFilter.update
  simp only [hfw, Outcome.ok, PointSet.count_points, List.length_map, List.length_range]
  simp only [Outcome.ok] at hloop
  simp only [hloop, PointSet.centered_points, PointSet.mean,
    PointSet.covariance_weights_vector, List.map_map, Function.comp,
    Gaussian.set_mean, Gaussian.set_covariance, Function.update_same, Function.update_idem]
  rfl

end UpdateResult

section Atomicity

variable {K : Type} [Field K] {n : Nat}

/-- C11: atomicity of the size-mismatch failure.  Whenever `forward` throws
`WrongSizeException`, the point set (its count, every point and every weight)
is exactly as it was before the call. -/
theorem forward_wrong_size_atomic (sqrt : K → K) (ut : UnscentedTransform K)
    (g : Gaussian K n) (D o : Nat) (ps : PointSet K n)
    (hthrown : (ut.forward sqrt g D o ps).thrown = some Error.WrongSizeException) :
    (ut.forward sqrt g D o ps).state = ps := by
  by_cases hcheck : ps.IsFixed = true ∧ ps.NumberOfPoints ≠ 2 * (D : Int) + 1
  · unfold UnscentedTransform.forward
    simp only [number_of_points_natCast]
    rw [if_pos hcheck]
    rfl
  · exact absurd hthrown (forward_pass_not_wrong_size sqrt ut g D o ps hcheck)

/-- Witness of `forward_wrong_size_atomic`: a fixed set of three points is
untouched by a transform that needs five. -/
theorem forward_wrong_size_atomic_witness :
    ((UnscentedTransform.default ℚ).forward id (example_gaussian ℚ) 2 0
      (fixed_point_set ℚ 2 3)).state = fixed_point_set ℚ 2 3 :=
  forward_wrong_size_atomic id (UnscentedTransform.default ℚ) (example_gaussian ℚ) 2 0
    (fixed_point_set ℚ 2 3)
    (by
      unfold UnscentedTransform.forward
      simp only [number_of_points_natCast]
      rw [if_pos ⟨rfl, by simp [fixed_point_set, PointSet.create]⟩]
      rfl)

end Atomicity

section LayoutMore

variable {K : Type} [Field K] {n : Nat}

/-- The mirror index of the block holds the mean shifted back by a column of
the scaled square root. -/
theorem layout_point_mirror_active (sqrt : K → K) (ut : UnscentedTransform K)
    (g : Gaussian K n) (D o : Nat) (hod : o + n ≤ D) (k : Fin n) :
    (layout sqrt ut g D o (D + (o + 1 + k.val))).point
      = g.Mean - ut.gamma_factor sqrt (D : K) • fun r => g.SquareRoot r k := by
  have hk := k.isLt
  rw [layout_point_mirror sqrt ut g D o (o + 1 + k.val) hod (by omega) (by omega),
    layout_point_active, add_sub_cancel_left]

/-- An index outside the block and outside its mirror holds the mean. -/
theorem layout_point_inactive (sqrt : K → K) (ut : UnscentedTransform K) (g : Gaussian K n)
    (D o i : Nat) (h1 : ¬ (o + 1 ≤ i ∧ i < o + 1 + n))
    (h2 : ¬ (D + (o + 1) ≤ i ∧ i < D + (o + 1) + n)) :
    (layout sqrt ut g D o i).point = g.Mean := by
  unfold layout
  by_cases h0 : i = 0
  · rw [if_pos h0]
  · rw [if_neg h0, if_neg h1, if_neg h2]

/-- A column of the square root of the standard normal is a unit vector. -/
theorem standard_column (c : K) (k : Fin n) :
    (c • fun r => (Gaussian.standard K n).SquareRoot r k)
      = c • (Pi.single k (1 : K) : Fin n → K) := by
  funext r
  simp only [Gaussian.standard, Pi.smul_apply, smul_eq_mul, Matrix.one_apply, Pi.single_apply]

/-- Every list is its entries read index by index. -/
theorem list_eq_map_range {α : Type} (l : List α) (d : α) :
    l = (List.range l.length).map fun i => l.getD i d := by
  apply List.ext_getElem?
  intro j
  rw [List.getElem?_map]
  by_cases hj : j < l.length
  · rw [List.getElem?_range hj, Option.map_some', List.getElem?_eq_getElem hj,
      List.getD_eq_getElem _ _ hj]
  · have hnone : (List.range l.length)[j]? = none :=
      List.getElem?_eq_none (by simp only [List.length_range]; omega)
    rw [hnone, Option.map_none', List.getElem?_eq_none (by omega)]

end LayoutMore

section PredictClaim

variable {K : Type} [Field K] {ds dq du dr dy : Nat}

/-- C12: `predict` computes the weighted moments of the propagated sigma
points.  With `x i` the entries (point and weights) that
`forward(prior, global_dimension, 0)` produces, `q i` the entries of `X_Q` and
`z_i = predict_state(dt, x_i, q_i, input)` for `i` in `0..2D`, `predict`
returns normally with `predicted.mean = Σ_i wm_i · z_i` and
`predicted.covariance = Σ_i wc_i · (z_i − mean)(z_i − mean)ᵗ`. -/
theorem predict_weighted_moments (sqrt : K → K)
    (factor : Matrix (Fin ds) (Fin ds) K → Matrix (Fin ds) (Fin ds) K)
    (delta_time : K) (input : Fin du → K) (prior_dist predicted_dist : Gaussian K ds)
    (f : GaussianFilter K ds dq du dr dy) (hinv : f.invariant sqrt)
    (x : Nat → WeightedPoint K ds) (q : Nat → WeightedPoint K dq)
    (hx : ∀ i, i < 2 * (ds + dq + dr) + 1 →
      (f.point_set_transform_.forward sqrt prior_dist f.global_dimension_ 0 f.X_r).state.entry i
        = some (x i))
    (hq : ∀ i, i < 2 * (ds + dq + dr) + 1 → f.X_Q.entry i = some (q i)) :
    f.global_dimension_ = ds + dq + dr ∧
    (f.predict sqrt factor delta_time input prior_dist predicted_dist).thrown = none ∧
    (f.predict sqrt factor delta_time input prior_dist predicted_dist).state.2.Mean
      = ∑ i ∈ Finset.range (2 * (ds + dq + dr) + 1),
          (x i).weight.w_mean
            • f.process_model_.predict_state delta_time (x i).point (q i).point input ∧
    (f.predict sqrt factor delta_time input prior_dist predicted_dist).state.2.Covariance
      = Matrix.of fun a b => ∑ i ∈ Finset.range (2 * (ds + dq + dr) + 1),
          (x i).weight.w_cov
            * ((f.process_model_.predict_state delta_time (x i).point (q i).point input a
                - (f.predict sqrt factor delta_time input prior_dist
                    predicted_dist).state.2.Mean a)
              * (f.process_model_.predict_state delta_time (x i).point (q i).point input b
                - (f.predict sqrt factor delta_time input prior_dist
                    predicted_dist).state.2.Mean b)) := by
  have hD : f.global_dimension_ = ds + dq + dr := hinv.1
  have hxl : ∀ i, i < 2 * (ds + dq + dr) + 1 →
      x i = layout sqrt f.point_set_transform_ prior_dist (ds + dq + dr) 0 i := by
    intro i hi
    have h := hx i hi
    rw [hD, forward_entry sqrt _ prior_dist (ds + dq + dr) 0 f.X_r hinv.2.2.2.1 (by omega) i hi]
      at h
    exact (Option.some.inj h).symm
  have hql : ∀ i, i < 2 * (ds + dq + dr) + 1 →
      q i = layout sqrt f.point_set_transform_ (Gaussian.standard K dq) (ds + dq + dr) ds i := by
    intro i hi
    have h := hq i hi
    rw [PointSet.entry, hinv.2.1, List.getElem?_map, List.getElem?_range hi,
      Option.map_some'] at h
    exact (Option.some.inj h).symm
  obtain ⟨h1, hmean, hcov⟩ := predict_moments sqrt factor delta_time input prior_dist
    predicted_dist f hinv _ _ (fun _ => rfl) (fun _ => rfl)
  have hmean' : (f.predict sqrt factor delta_time input prior_dist predicted_dist).state.2.Mean
      = ∑ i ∈ Finset.range (2 * (ds + dq + dr) + 1),
          (x i).weight.w_mean
            • f.process_model_.predict_state delta_time (x i).point (q i).point input := by
    rw [hmean]
    apply Finset.sum_congr rfl
    intro i hi
    rw [hxl i (Finset.mem_range.mp hi), hql i (Finset.mem_range.mp hi)]
  refine ⟨hD, h1, hmean', ?_⟩
  rw [hcov, ← hmean]
  ext a b
  simp only [Matrix.of_apply]
  apply Finset.sum_congr rfl
  intro i hi
  rw [hxl i (Finset.mem_range.mp hi), hql i (Finset.mem_range.mp hi)]
  ring

end PredictClaim

section Construction

variable {K : Type} [Field K] {ds dq du dr dy : Nat}

/-- The points of a noise set that is the layout of a standard normal: the
unit vectors scaled by `gamma` at the indices of the block, their negatives at
the mirror indices, and zero at every other index. -/
theorem standard_layout_points (sqrt : K → K) (ut : UnscentedTransform K) (n D o : Nat)
    (hod : o + n ≤ D) (ps : PointSet K n)
    (hps : ps.entries
      = (List.range (2 * D + 1)).map (layout sqrt ut (Gaussian.standard K n) D o)) :
    ps.count_points = 2 * D + 1 ∧
    (∀ k : Fin n,
      (ps.entry (o + 1 + k.val)).map WeightedPoint.point
        = some (sqrt ((D : K) + ut.lambda_scalar (D : K)) • (Pi.single k (1 : K) : Fin n → K)) ∧
      (ps.entry (D + o + 1 + k.val)).map WeightedPoint.point
        = some (-(sqrt ((D : K) + ut.lambda_scalar (D : K))
            • (Pi.single k (1 : K) : Fin n → K)))) ∧
    (∀ i, i < 2 * D + 1 → ¬ (o + 1 ≤ i ∧ i ≤ o + n) → ¬ (D + o + 1 ≤ i ∧ i ≤ D + o + n) →
      (ps.entry i).map WeightedPoint.point = some 0) := by
  have hentry : ∀ i, i < 2 * D + 1 →
      ps.entry i = some (layout sqrt ut (Gaussian.standard K n) D o i) := by
    intro i hi
    rw [PointSet.entry, hps, List.getElem?_map, List.getElem?_range hi, Option.map_some']
  have hmean : (Gaussian.standard K n).Mean = 0 := rfl
  refine ⟨by rw [PointSet.count_points, hps, List.length_map, List.length_range],
    fun k => ⟨?_, ?_⟩, fun i hi h1 h2 => ?_⟩
  · have hk := k.isLt
    rw [hentry _ (by omega), Option.map_some', layout_point_active, hmean, zero_add,
      standard_column]
    rfl
  · have hk := k.isLt
    have e : D + o + 1 + k.val = D + (o + 1 + k.val) := by omega
    rw [hentry _ (by omega), Option.map_some', e,
      layout_point_mirror_active sqrt ut _ D o hod, hmean, zero_sub, standard_column]
    rfl
  · rw [hentry i hi, Option.map_some',
      layout_point_inactive sqrt ut _ D o i (by omega) (by omega), hmean]

/-- C19: after construction with state dimension `ds`, process-noise dimension
`dq` and observation-noise dimension `dr` the constructor returns normally,
`global_dimension = ds + dq + dr = D`, and `X_Q` (resp. `X_R`) is the transform
of the `dq`- (resp. `dr`-) dimensional standard normal at offset `ds` (resp.
`ds + dq`): it has `2D+1` points, `+gamma·e_k` at index `offset+1+k`,
`−gamma·e_k` at index `D+offset+1+k`, and zero at every other index. -/
theorem create_noise_point_sets (sqrt : K → K) (process_model : ProcessModel K ds dq du)
    (obsrv_model : ObservationModel K ds dr dy) (ut : UnscentedTransform K)
    (NumberOfPoints : Int) (IsFixed : Bool)
    (fresh_r : Nat → WeightedPoint K ds) (fresh_y : Nat → WeightedPoint K dy)
    (fresh_Q : Nat → WeightedPoint K dq) (fresh_R : Nat → WeightedPoint K dr)
    (threshold inv_sigma : K)
    (hN : IsFixed = true → NumberOfPoints = 2 * ((ds + dq + dr : Nat) : Int) + 1)
    (F : GaussianFilter K ds dq du dr dy)
    (hF : F = (GaussianFilter.create sqrt process_model obsrv_model ut NumberOfPoints IsFixed
      fresh_r fresh_y fresh_Q fresh_R threshold inv_sigma).state) :
    (GaussianFilter.create sqrt process_model obsrv_model ut NumberOfPoints IsFixed
      fresh_r fresh_y fresh_Q fresh_R threshold inv_sigma).thrown = none ∧
    F.global_dimension_ = ds + dq + dr ∧
    F.X_Q = (ut.forward sqrt (Gaussian.standard K dq) (ds + dq + dr) ds
      (PointSet.create NumberOfPoints IsFixed fresh_Q (2 * (ds + dq + dr) + 1))).state ∧
    F.X_R = (ut.forward sqrt (Gaussian.standard K dr) (ds + dq + dr) (ds + dq)
      (PointSet.create NumberOfPoints IsFixed fresh_R (2 * (ds + dq + dr) + 1))).state ∧
    F.X_Q.count_points = 2 * (ds + dq + dr) + 1 ∧
    (∀ k : Fin dq,
      (F.X_Q.entry (ds + 1 + k.val)).map WeightedPoint.point
        = some (sqrt (((ds + dq + dr : Nat) : K) + ut.lambda_scalar ((ds + dq + dr : Nat) : K))
            • (Pi.single k (1 : K) : Fin dq → K)) ∧
      (F.X_Q.entry (ds + dq + dr + ds + 1 + k.val)).map WeightedPoint.point
        = some (-(sqrt (((ds + dq + dr : Nat) : K)
              + ut.lambda_scalar ((ds + dq + dr : Nat) : K))
            • (Pi.single k (1 : K) : Fin dq → K)))) ∧
    (∀ i, i < 2 * (ds + dq + dr) + 1 → ¬ (ds + 1 ≤ i ∧ i ≤ ds + dq) →
      ¬ (ds + dq + dr + ds + 1 ≤ i ∧ i ≤ ds + dq + dr + ds + dq) →
      (F.X_Q.entry i).map WeightedPoint.point = some 0) ∧
    F.X_R.count_points = 2 * (ds + dq + dr) + 1 ∧
    (∀ k : Fin dr,
      (F.X_R.entry (ds + dq + 1 + k.val)).map WeightedPoint.point
        = some (sqrt (((ds + dq + dr : Nat) : K) + ut.lambda_scalar ((ds + dq + dr : Nat) : K))
            • (Pi.single k (1 : K) : Fin dr → K)) ∧
      (F.X_R.entry (ds + dq + dr + (ds + dq) + 1 + k.val)).map WeightedPoint.point
        = some (-(sqrt (((ds + dq + dr : Nat) : K)
              + ut.lambda_scalar ((ds + dq + dr : Nat) : K))
            • (Pi.single k (1 : K) : Fin dr → K)))) ∧
    (∀ i, i < 2 * (ds + dq + dr) + 1 → ¬ (ds + dq + 1 ≤ i ∧ i ≤ ds + dq + dr) →
      ¬ (ds + dq + dr + (ds + dq) + 1 ≤ i ∧ i ≤ ds + dq + dr + (ds + dq) + dr) →
      (F.X_R.entry i).map WeightedPoint.point = some 0) := by
  obtain ⟨hthrown, hinv, _, hut⟩ := create_invariant sqrt process_model obsrv_model ut
    NumberOfPoints IsFixed fresh_r fresh_y fresh_Q fresh_R threshold inv_sigma hN
  rw [← hF] at hinv hut
  obtain ⟨hD, hQ, hR, _, _⟩ := hinv
  rw [hut] at hQ hR
  have hQf := forward_eq_layout sqrt ut (Gaussian.standard K dq) (ds + dq + dr) ds
    (PointSet.create NumberOfPoints IsFixed fresh_Q (2 * (ds + dq + dr) + 1))
    (fun h => ⟨hN h, by simp [PointSet.create, PointSet.count_points]⟩) (by omega)
  have hRf := forward_eq_layout sqrt ut (Gaussian.standard K dr) (ds + dq + dr) (ds + dq)
    (PointSet.create NumberOfPoints IsFixed fresh_R (2 * (ds + dq + dr) + 1))
    (fun h => ⟨hN h, by simp [PointSet.create, PointSet.count_points]⟩) (by omega)
  obtain ⟨cQ, aQ, zQ⟩ := standard_layout_points sqrt ut dq (ds + dq + dr) ds (by omega)
    F.X_Q hQ
  obtain ⟨cR, aR, zR⟩ := standard_layout_points sqrt ut dr (ds + dq + dr) (ds + dq)
    (by omega) F.X_R hR
  refine ⟨hthrown, hD, ?_, ?_, cQ, aQ, zQ, cR, aR, zR⟩
  · rw [hQf, hF]
    have e : (2 * ((ds + dq + dr : Nat) : Int) + 1).toNat = 2 * (ds + dq + dr) + 1 := by omega
    simp only [GaussianFilter.create, ProcessModel.state_dimension,
      ProcessModel.noise_dimension, ObservationModel.noise_dimension,
      number_of_points_natCast, e, hQf, hRf, Outcome.ok, Outcome.andThen]
    split <;> rfl
  · rw [hRf, hF]
    have e : (2 * ((ds + dq + dr : Nat) : Int) + 1).toNat = 2 * (ds + dq + dr) + 1 := by omega
    simp only [GaussianFilter.create, ProcessModel.state_dimension,
      ProcessModel.noise_dimension, ObservationModel.noise_dimension,
      number_of_points_natCast, e, hQf, hRf, Outcome.ok, Outcome.andThen]
    split <;> rfl

end Construction

section SharedLayout

variable {K : Type} [Field K] {ds dq du dr dy : Nat}

/-- The point read at an index of a point set that is a layout. -/
theorem entry_point_of_layout {n : Nat} (sqrt : K → K) (ut : UnscentedTransform K)
    (g : Gaussian K n) (D o : Nat) (ps : PointSet K n)
    (hps : ps.entries = (List.range (2 * D + 1)).map (layout sqrt ut g D o))
    (i : Nat) (hi : i < 2 * D + 1) :
    (ps.entry i).map WeightedPoint.point = some (layout sqrt ut g D o i).point := by
  rw [PointSet.entry, hps, List.getElem?_map, List.getElem?_range hi, Option.map_some',
    Option.map_some']

/-- The points of a layout at the indices of another block: at an index
`a + 1 + k` inside `1..D` but outside the own block, and at its mirror, the
set holds its own mean. -/
theorem layout_foreign_block {n : Nat} (sqrt : K → K) (ut : UnscentedTransform K)
    (g : Gaussian K n) (D o : Nat) (hod : o + n ≤ D) (ps : PointSet K n)
    (hps : ps.entries = (List.range (2 * D + 1)).map (layout sqrt ut g D o))
    (i : Nat) (h1 : 1 ≤ i) (hD : i ≤ D) (hout : ¬ (o + 1 ≤ i ∧ i ≤ o + n)) :
    (ps.entry i).map WeightedPoint.point = some g.Mean ∧
    (ps.entry (D + i)).map WeightedPoint.point = some g.Mean := by
  constructor
  · rw [entry_point_of_layout sqrt ut g D o ps hps i (by omega),
      layout_point_inactive sqrt ut g D o i (by omega) (by omega)]
  · rw [entry_point_of_layout sqrt ut g D o ps hps (D + i) (by omega),
      layout_point_inactive sqrt ut g D o (D + i) (by omega) (by omega)]

/-- The points of a layout at the indices of its own block: the mean shifted
by `+gamma` times the column at `o + 1 + k`, by `−gamma` times the column at
the mirror index. -/
theorem layout_own_block {n : Nat} (sqrt : K → K) (ut : UnscentedTransform K)
    (g : Gaussian K n) (D o : Nat) (hod : o + n ≤ D) (ps : PointSet K n)
    (hps : ps.entries = (List.range (2 * D + 1)).map (layout sqrt ut g D o)) (k : Fin n) :
    (ps.entry (o + 1 + k.val)).map WeightedPoint.point
      = some (g.Mean + sqrt ((D : K) + ut.lambda_scalar (D : K)) • fun r => g.SquareRoot r k) ∧
    (ps.entry (D + (o + 1 + k.val))).map WeightedPoint.point
      = some (g.Mean - sqrt ((D : K) + ut.lambda_scalar (D : K)) • fun r => g.SquareRoot r k) := by
  have hk := k.isLt
  constructor
  · rw [entry_point_of_layout sqrt ut g D o ps hps _ (by omega), layout_point_active]
    rfl
  · rw [entry_point_of_layout sqrt ut g D o ps hps _ (by omega),
      layout_point_mirror_active sqrt ut g D o hod]
    rfl

/-- C20: the shared index layout of the augmented Gaussian.  In a filter with
`D = ds + dq + dr`, with `Xr` the transform of the state belief at offset `0`:
every index `i` in `1..D` lies in exactly one of the ranges `[1, ds]`,
`[ds+1, ds+dq]`, `[ds+dq+1, D]`; at an index of the first range (and at its
mirror `D + i`) `Xr` holds `mean ± gamma·S[:,k]` while `X_Q` and `X_R` hold
their own mean; at an index of the second range `X_Q` holds
`mean ± gamma·e_k` while `Xr` and `X_R` hold their own mean; at an index of the
third range `X_R` holds `mean ± gamma·e_k` while `Xr` and `X_Q` hold their own
mean. -/
theorem shared_index_layout (sqrt : K → K) (belief : Gaussian K ds)
    (f : GaussianFilter K ds dq du dr dy) (hinv : f.invariant sqrt)
    (Xr : PointSet K ds)
    (hXr : Xr = (f.point_set_transform_.forward sqrt belief f.global_dimension_ 0 f.X_r).state)
    (gamma : K)
    (hgamma : gamma = sqrt (((ds + dq + dr : Nat) : K)
      + f.point_set_transform_.lambda_scalar ((ds + dq + dr : Nat) : K))) :
    (∀ i, 1 ≤ i → i ≤ ds + dq + dr →
      ((1 ≤ i ∧ i ≤ ds) ∧ ¬ (ds + 1 ≤ i ∧ i ≤ ds + dq) ∧ ¬ (ds + dq + 1 ≤ i ∧ i ≤ ds + dq + dr))
      ∨ (¬ (1 ≤ i ∧ i ≤ ds) ∧ (ds + 1 ≤ i ∧ i ≤ ds + dq)
          ∧ ¬ (ds + dq + 1 ≤ i ∧ i ≤ ds + dq + dr))
      ∨ (¬ (1 ≤ i ∧ i ≤ ds) ∧ ¬ (ds + 1 ≤ i ∧ i ≤ ds + dq)
          ∧ (ds + dq + 1 ≤ i ∧ i ≤ ds + dq + dr))) ∧
    (∀ k : Fin ds,
      (Xr.entry (0 + 1 + k.val)).map WeightedPoint.point
        = some (belief.Mean + gamma • fun r => belief.SquareRoot r k) ∧
      (Xr.entry (ds + dq + dr + (0 + 1 + k.val))).map WeightedPoint.point
        = some (belief.Mean - gamma • fun r => belief.SquareRoot r k) ∧
      (f.X_Q.entry (0 + 1 + k.val)).map WeightedPoint.point
        = some (Gaussian.standard K dq).Mean ∧
      (f.X_Q.entry (ds + dq + dr + (0 + 1 + k.val))).map WeightedPoint.point
        = some (Gaussian.standard K dq).Mean ∧
      (f.X_R.entry (0 + 1 + k.val)).map WeightedPoint.point
        = some (Gaussian.standard K dr).Mean ∧
      (f.X_R.entry (ds + dq + dr + (0 + 1 + k.val))).map WeightedPoint.point
        = some (Gaussian.standard K dr).Mean) ∧
    (∀ k : Fin dq,
      (Xr.entry (ds + 1 + k.val)).map WeightedPoint.point = some belief.Mean ∧
      (Xr.entry (ds + dq + dr + (ds + 1 + k.val))).map WeightedPoint.point
        = some belief.Mean ∧
      (f.X_Q.entry (ds + 1 + k.val)).map WeightedPoint.point
        = some ((Gaussian.standard K dq).Mean
            + gamma • fun r => (Gaussian.standard K dq).SquareRoot r k) ∧
      (f.X_Q.entry (ds + dq + dr + (ds + 1 + k.val))).map WeightedPoint.point
        = some ((Gaussian.standard K dq).Mean
            - gamma • fun r => (Gaussian.standard K dq).SquareRoot r k) ∧
      (f.X_R.entry (ds + 1 + k.val)).map WeightedPoint.point
        = some (Gaussian.standard K dr).Mean ∧
      (f.X_R.entry (ds + dq + dr + (ds + 1 + k.val))).map WeightedPoint.point
        = some (Gaussian.standard K dr).Mean) ∧
    (∀ k : Fin dr,
      (Xr.entry (ds + dq + 1 + k.val)).map WeightedPoint.point = some belief.Mean ∧
      (Xr.entry (ds + dq + dr + (ds + dq + 1 + k.val))).map WeightedPoint.point
        = some belief.Mean ∧
      (f.X_Q.entry (ds + dq + 1 + k.val)).map WeightedPoint.point
        = some (Gaussian.standard K dq).Mean ∧
      (f.X_Q.entry (ds + dq + dr + (ds + dq + 1 + k.val))).map WeightedPoint.point
        = some (Gaussian.standard K dq).Mean ∧
      (f.X_R.entry (ds + dq + 1 + k.val)).map WeightedPoint.point
        = some ((Gaussian.standard K dr).Mean
            + gamma • fun r => (Gaussian.standard K dr).SquareRoot r k) ∧
      (f.X_R.entry (ds + dq + dr + (ds + dq + 1 + k.val))).map WeightedPoint.point
        = some ((Gaussian.standard K dr).Mean
            - gamma • fun r => (Gaussian.standard K dr).SquareRoot r k)) := by
  obtain ⟨hD, hQ, hR, hr, _⟩ := hinv
  have hX : Xr.entries = (List.range (2 * (ds + dq + dr) + 1)).map
      (layout sqrt f.point_set_transform_ belief (ds + dq + dr) 0) := by
    rw [hXr, hD, forward_eq_layout sqrt _ belief (ds + dq + dr) 0 f.X_r hr (by omega)]
    rfl
  subst hgamma
  refine ⟨fun i h1 hD => by omega, fun k => ?_, fun k => ?_, fun k => ?_⟩
  · have hk := k.isLt
    have hx := layout_own_block sqrt f.point_set_transform_ belief (ds + dq + dr) 0
      (by omega) Xr hX k
    have hq := layout_foreign_block sqrt f.point_set_transform_ (Gaussian.standard K dq)
      (ds + dq + dr) ds (by omega) f.X_Q hQ (0 + 1 + k.val) (by omega) (by omega) (by omega)
    have hr' := layout_foreign_block sqrt f.point_set_transform_ (Gaussian.standard K dr)
      (ds + dq + dr) (ds + dq) (by omega) f.X_R hR (0 + 1 + k.val) (by omega) (by omega) (by omega)
    exact ⟨hx.1, hx.2, hq.1, hq.2, hr'.1, hr'.2⟩
  · have hk := k.isLt
    have hx := layout_foreign_block sqrt f.point_set_transform_ belief (ds + dq + dr) 0
      (by omega) Xr hX (ds + 1 + k.val) (by omega) (by omega) (by omega)
    have hq := layout_own_block sqrt f.point_set_transform_ (Gaussian.standard K dq)
      (ds + dq + dr) ds (by omega) f.X_Q hQ k
    have hr' := layout_foreign_block sqrt f.point_set_transform_ (Gaussian.standard K dr)
      (ds + dq + dr) (ds + dq) (by omega) f.X_R hR (ds + 1 + k.val) (by omega) (by omega) (by omega)
    exact ⟨hx.1, hx.2, hq.1, hq.2, hr'.1, hr'.2⟩
  · have hk := k.isLt
    have hx := layout_foreign_block sqrt f.point_set_transform_ belief (ds + dq + dr) 0
      (by omega) Xr hX (ds + dq + 1 + k.val) (by omega) (by omega) (by omega)
    have hq := layout_foreign_block sqrt f.point_set_transform_ (Gaussian.standard K dq)
      (ds + dq + dr) ds (by omega) f.X_Q hQ (ds + dq + 1 + k.val) (by omega) (by omega) (by omega)
    have hr' := layout_own_block sqrt f.point_set_transform_ (Gaussian.standard K dr)
      (ds + dq + dr) (ds + dq) (by omega) f.X_R hR k
    exact ⟨hx.1, hx.2, hq.1, hq.2, hr'.1, hr'.2⟩

end SharedLayout

section Guard

variable {K : Type} [LinearOrderedField K] {dy : Nat}

/-- The guard loop over a list of distinct indices adds `inv_sigma` to the
diagonal entries of the listed indices whose innovation exceeds the threshold,
and changes nothing else. -/
theorem guard_foldl (threshold inv_sigma : K) (innovation : Fin dy → K) :
    ∀ (l : List (Fin dy)), l.Nodup → ∀ (c : Matrix (Fin dy) (Fin dy) K) (a b : Fin dy),
      (l.foldl (fun c i =>
          if |innovation i| > threshold then add_to_diagonal c i inv_sigma else c) c) a b
        = c a b + if a = b ∧ a ∈ l ∧ |innovation a| > threshold then inv_sigma else 0 := by
  intro l
  induction l with
  | nil =>
    intro _ c a b
    simp
  | cons i l ih =>
    intro hnd c a b
    have hi : i ∉ l := (List.nodup_cons.mp hnd).1
    rw [List.foldl_cons, ih (List.nodup_cons.mp hnd).2]
    by_cases hc : |innovation i| > threshold
    · rw [if_pos hc]
      unfold add_to_diagonal
      by_cases hai : a = i
      · subst hai
        by_cases hab : b = a
        · subst hab
          simp [hi, hc]
        · have hab' : ¬ a = b := fun h => hab h.symm
          simp [hab, hab']
      · have hia : ¬ i = a := fun h => hai h.symm
        simp [hai, hia]
    · rw [if_neg hc]
      by_cases hai : a = i
      · subst hai
        simp [hi, hc]
      · simp [hai]

/-- The stability guard in closed form: the diagonal entries whose innovation
exceeds the threshold grow by `inv_sigma`, every other entry is unchanged. -/
theorem stability_guard_apply (threshold inv_sigma : K) (innovation : Fin dy → K)
    (cov_yy : Matrix (Fin dy) (Fin dy) K) (a b : Fin dy) :
    stability_guard threshold inv_sigma innovation cov_yy a b
      = cov_yy a b + if a = b ∧ |innovation a| > threshold then inv_sigma else 0 := by
  unfold stability_guard
  rw [guard_foldl threshold inv_sigma innovation _ (List.nodup_finRange dy)]
  simp [List.mem_finRange]

/-- The stability guard adds a diagonal matrix. -/
theorem stability_guard_eq_add (threshold inv_sigma : K) (innovation : Fin dy → K)
    (cov_yy : Matrix (Fin dy) (Fin dy) K) :
    stability_guard threshold inv_sigma innovation cov_yy
      = cov_yy + Matrix.diagonal fun a =>
          if |innovation a| > threshold then inv_sigma else 0 := by
  ext a b
  rw [stability_guard_apply, Matrix.add_apply, Matrix.diagonal_apply]
  by_cases hab : a = b
  · subst hab
    simp
  · simp [hab]

end Guard

section Products

variable {K : Type} [Field K]

/-- The transpose of `X · diag(W) · Yᵗ` is `Y · diag(W) · Xᵗ`. -/
theorem mul_diag_transpose_transpose {a b : Nat} :
    ∀ (X : List (Fin a → K)) (W : List K) (Y : List (Fin b → K)),
      (mul_diag_transpose X W Y).transpose = mul_diag_transpose Y W X := by
  intro X
  induction X with
  | nil =>
    intro W Y
    cases W <;> cases Y <;> simp [mul_diag_transpose]
  | cons x X ih =>
    intro W Y
    cases W with
    | nil => cases Y <;> simp [mul_diag_transpose]
    | cons w W =>
      cases Y with
      | nil => simp [mul_diag_transpose]
      | cons y Y =>
        simp only [mul_diag_transpose, Matrix.transpose_add, ih]
        congr 1
        ext r c
        simp only [Matrix.transpose_apply, Matrix.of_apply]
        ring

/-- The product `X · diag(W) · Xᵗ` is a symmetric matrix. -/
theorem mul_diag_transpose_isSymm {a : Nat} (X : List (Fin a → K)) (W : List K) :
    (mul_diag_transpose X W X).IsSymm :=
  mul_diag_transpose_transpose X W X

end Products

section PredictResult

variable {K : Type} [Field K] {ds dq du dr dy : Nat}

/-- The result of `predict` on a filter that satisfies the invariant: the call
returns normally; `X_r` holds the propagated points `z i` with the weights of
the transform, `X` and `W` the centred points and the covariance weights, and
the predicted belief the weighted mean and covariance. -/
theorem predict_eq (sqrt : K → K)
    (factor : Matrix (Fin ds) (Fin ds) K → Matrix (Fin ds) (Fin ds) K)
    (delta_time : K) (input : Fin du → K) (prior_dist predicted_dist : Gaussian K ds)
    (f : GaussianFilter K ds dq du dr dy) (hinv : f.invariant sqrt)
    (z : Nat → Fin ds → K) (wt : Nat → Weight K)
    (hz : ∀ i, z i = f.process_model_.predict_state delta_time
      (layout sqrt f.point_set_transform_ prior_dist (ds + dq + dr) 0 i).point
      (layout sqrt f.point_set_transform_ (Gaussian.standard K dq) (ds + dq + dr) ds i).point
      input)
    (hwt : ∀ i, wt i = (layout sqrt f.point_set_transform_ prior_dist (ds + dq + dr) 0 i).weight)
    (m : Fin ds → K)
    (hm : m = ((List.range (2 * (ds + dq + dr) + 1)).map fun j => (wt j).w_mean • z j).sum)
    (F : GaussianFilter K ds dq du dr dy)
    (hF : F = { f with
      X_r := { f.X_r with entries :=
        ((List.range (2 * (ds + dq + dr) + 1)).map fun i => ⟨z i, wt i⟩) }
      X := ((List.range (2 * (ds + dq + dr) + 1)).map fun i => z i - m)
      W := ((List.range (2 * (ds + dq + dr) + 1)).map fun i => (wt i).w_cov) }) :
    f.predict sqrt factor delta_time input prior_dist predicted_dist
      = Outcome.ok (F, ⟨m, mul_diag_transpose F.X F.W F.X,
          factor (mul_diag_transpose F.X F.W F.X)⟩) := by
  rcases f with ⟨thr, isg, pm, om, ut, gd, Xr, Xy, XQ, XR, prd, inn, X, Y, W⟩
  simp only [GaussianFilter.invariant] at hinv
  simp only at hz hwt hF
  obtain ⟨hD, hQ, _, hr, _⟩ := hinv
  subst hD
  have hfw := forward_eq_layout sqrt ut prior_dist (ds + dq + dr) 0 Xr hr (by omega)
  have hloop := forLoop_predict_point delta_time input (2 * (ds + dq + dr) + 1)
    (layout sqrt ut prior_dist (ds + dq + dr) 0)
    (layout sqrt ut (Gaussian.standard K dq) (ds + dq + dr) ds)
    (⟨thr, isg, pm, om, ut, ds + dq + dr,
      { Xr with entries := ((List.range (2 * (ds + dq + dr) + 1)).map
        (layout sqrt ut prior_dist (ds + dq + dr) 0)) }, Xy, XQ, XR, prd, inn, X, Y, W⟩ :
      GaussianFilter K ds dq du dr dy)
    rfl hQ
  have hzf : z = fun i => pm.predict_state delta_time
      (layout sqrt ut prior_dist (ds + dq + dr) 0 i).point
      (layout sqrt ut (Gaussian.standard K dq) (ds + dq + dr) ds i).point input := funext hz
  have hwf : wt = fun i => (layout sqrt ut prior_dist (ds + dq + dr) 0 i).weight := funext hwt
  subst hzf hwf hF hm
  unfold GaussianFilter.predict
  simp only [hfw, Outcome.ok, PointSet.count_points, List.length_map, List.length_range]
  simp only [Outcome.ok] at hloop
  simp only [hloop, PointSet.centered_points, PointSet.mean,
    PointSet.covariance_weights_vector, List.map_map, Function.comp,
    Gaussian.set_mean, Gaussian.set_covariance]
  rfl

/-- The invariant does not depend on the members a call of `predict` or
`update` overwrites: the entries of `X_r` when their number stays `2D+1`, the
points of `X_y` when their number stays `2D+1`, and the scratch members. -/
theorem invariant_of_frame (sqrt : K → K) (f F : GaussianFilter K ds dq du dr dy)
    (hinv : f.invariant sqrt)
    (h1 : F.global_dimension_ = f.global_dimension_)
    (h2 : F.point_set_transform_ = f.point_set_transform_)
    (h3 : F.X_Q = f.X_Q) (h4 : F.X_R = f.X_R)
    (h5 : F.X_r.IsFixed = f.X_r.IsFixed) (h6 : F.X_r.NumberOfPoints = f.X_r.NumberOfPoints)
    (h7 : F.X_r.count_points = 2 * (ds + dq + dr) + 1)
    (h8 : F.X_y.count_points = 2 * (ds + dq + dr) + 1) :
    F.invariant sqrt := by
  obtain ⟨hD, hQ, hR, hr, _⟩ := hinv
  refine ⟨h1.trans hD, ?_, ?_, fun h => ?_, h8⟩
  · rw [h3, h2]
    exact hQ
  · rw [h4, h2]
    exact hR
  · rw [h6]
    exact ⟨(hr (h5 ▸ h)).1, h7⟩

/-- The constructor leaves `X_y` as its allocation fills it: `2D+1` entries
`fresh_y (2D+1)`. -/
theorem create_X_y (sqrt : K → K) (process_model : ProcessModel K ds dq du)
    (obsrv_model : ObservationModel K ds dr dy) (ut : UnscentedTransform K)
    (NumberOfPoints : Int) (IsFixed : Bool)
    (fresh_r : Nat → WeightedPoint K ds) (fresh_y : Nat → WeightedPoint K dy)
    (fresh_Q : Nat → WeightedPoint K dq) (fresh_R : Nat → WeightedPoint K dr)
    (threshold inv_sigma : K)
    (hN : IsFixed = true → NumberOfPoints = 2 * ((ds + dq + dr : Nat) : Int) + 1) :
    (GaussianFilter.create sqrt process_model obsrv_model ut NumberOfPoints IsFixed
      fresh_r fresh_y fresh_Q fresh_R threshold inv_sigma).state.X_y.entries
      = List.replicate (2 * (ds + dq + dr) + 1) (fresh_y (2 * (ds + dq + dr) + 1)) ∧
    (GaussianFilter.create sqrt process_model obsrv_model ut NumberOfPoints IsFixed
      fresh_r fresh_y fresh_Q fresh_R threshold inv_sigma).state.obsrv_model_ = obsrv_model ∧
    (GaussianFilter.create sqrt process_model obsrv_model ut NumberOfPoints IsFixed
      fresh_r fresh_y fresh_Q fresh_R threshold inv_sigma).state.threshold = threshold ∧
    (GaussianFilter.create sqrt process_model obsrv_model ut NumberOfPoints IsFixed
      fresh_r fresh_y fresh_Q fresh_R threshold inv_sigma).state.inv_sigma = inv_sigma := by
  have e : (2 * ((ds + dq + dr : Nat) : Int) + 1).toNat = 2 * (ds + dq + dr) + 1 := by omega
  have hQ := forward_eq_layout sqrt ut (Gaussian.standard K dq) (ds + dq + dr) ds
    (PointSet.create NumberOfPoints IsFixed fresh_Q (2 * (ds + dq + dr) + 1))
    (fun h => ⟨hN h, by simp [PointSet.create, PointSet.count_points]⟩) (by omega)
  have hR := forward_eq_layout sqrt ut (Gaussian.standard K dr) (ds + dq + dr) (ds + dq)
    (PointSet.create NumberOfPoints IsFixed fresh_R (2 * (ds + dq + dr) + 1))
    (fun h => ⟨hN h, by simp [PointSet.create, PointSet.count_points]⟩) (by omega)
  have hres : ∀ {m : Nat} (fresh : Nat → WeightedPoint K m),
      (PointSet.create_default NumberOfPoints IsFixed fresh).resize (2 * (ds + dq + dr) + 1)
        = Outcome.ok ⟨NumberOfPoints, IsFixed,
            List.replicate (2 * (ds + dq + dr) + 1) (fresh (2 * (ds + dq + dr) + 1)), fresh⟩ := by
    intro m fresh
    cases hf : IsFixed with
    | true =>
      have hN' := hN hf
      have e' : (2 * ((ds : Int) + (dq : Int) + (dr : Int)) + 1).toNat
          = 2 * (ds + dq + dr) + 1 := by omega
      simp [PointSet.resize, PointSet.create_default, PointSet.create, PointSet.count_points,
        hN', e', Outcome.ok]
    | false =>
      simp [PointSet.resize, PointSet.create_default, PointSet.create, PointSet.count_points,
        Outcome.ok]
  simp only [GaussianFilter.create, ProcessModel.state_dimension, ProcessModel.noise_dimension,
    ObservationModel.noise_dimension, number_of_points_natCast, e, hQ, hR, hres, Outcome.ok,
    Outcome.andThen]
  exact ⟨trivial, trivial, trivial, trivial⟩

end PredictResult

section UpdateFields

variable {K : Type} [LinearOrderedField K] {ds dq du dr dy : Nat}

/-- What `update` leaves, read off the filter after the call.  On a filter that
satisfies the invariant `update` returns normally; `X_r` is the transform of
the predicted belief; `X_y` holds at every index the predicted observation of
the points of `X_r` and `X_R`, with the weight `X_y` had before the call; the
members `W`, `X`, `Y`, `prediction`, `innovation` are as the source assigns
them; `threshold` and `inv_sigma` are unchanged; and the posterior belief is
written from the gain and the guarded `cov_yy`. -/
theorem update_fields (sqrt : K → K)
    (factor : Matrix (Fin ds) (Fin ds) K → Matrix (Fin ds) (Fin ds) K)
    (y : Fin dy → K) (p q : Nat) (f : GaussianFilter K ds dq du dr dy)
    (b : Nat → Gaussian K ds) (hinv : f.invariant sqrt)
    (R : Outcome (GaussianFilter K ds dq du dr dy × (Nat → Gaussian K ds)))
    (hR : R = GaussianFilter.update sqrt factor y p q (f, b))
    (G : Matrix (Fin dy) (Fin dy) K) (gain : Matrix (Fin ds) (Fin dy) K)
    (hG : G = stability_guard R.state.1.threshold R.state.1.inv_sigma R.state.1.innovation
      (mul_diag_transpose R.state.1.Y R.state.1.W R.state.1.Y))
    (hgain : gain = mul_diag_transpose R.state.1.X R.state.1.W R.state.1.Y * inverse G) :
    R.thrown = none ∧
    R.state.1.X_r = (f.point_set_transform_.forward sqrt (b p) f.global_dimension_ 0
      f.X_r).state ∧
    R.state.1.X_y.entries.length = 2 * (ds + dq + dr) + 1 ∧
    (∀ i, i < 2 * (ds + dq + dr) + 1 → ∃ xr xR e0,
      R.state.1.X_r.entry i = some xr ∧ f.X_R.entry i = some xR ∧ f.X_y.entry i = some e0 ∧
      R.state.1.X_y.entry i
        = some ⟨f.obsrv_model_.predict_observation xr.point xR.point 0, e0.weight⟩) ∧
    R.state.1.W = R.state.1.X_r.covariance_weights_vector ∧
    R.state.1.X = R.state.1.X_r.centered_points ∧
    R.state.1.Y = R.state.1.X_y.centered_points ∧
    R.state.1.prediction = R.state.1.X_y.mean ∧
    R.state.1.innovation = y - R.state.1.X_y.mean ∧
    R.state.1.threshold = f.threshold ∧
    R.state.1.inv_sigma = f.inv_sigma ∧
    R.state.2 = Function.update b q
      ⟨R.state.1.X_r.mean + gain.mulVec R.state.1.innovation,
        mul_diag_transpose R.state.1.X R.state.1.W R.state.1.X - gain * G * gain.transpose,
        factor (mul_diag_transpose R.state.1.X R.state.1.W R.state.1.X
          - gain * G * gain.transpose)⟩ := by
  have hlen : f.X_y.entries.length = 2 * (ds + dq + dr) + 1 := hinv.2.2.2.2
  have hY0 : f.X_y.entries = (List.range (2 * (ds + dq + dr) + 1)).map
      fun i => f.X_y.entries.getD i ⟨0, ⟨0, 0⟩⟩ := by
    have h := list_eq_map_range f.X_y.entries (⟨0, ⟨0, 0⟩⟩ : WeightedPoint K dy)
    rw [hlen] at h
    exact h
  have hfw := forward_eq_layout sqrt f.point_set_transform_ (b p) (ds + dq + dr) 0 f.X_r
    hinv.2.2.2.1 (by omega)
  have hRX := hinv.2.2.1
  have hD := hinv.1
  have hupd := update_eq sqrt factor y p q f b hinv _ hY0 _ _ (fun _ => rfl) (fun _ => rfl)
    _ _ rfl rfl _ rfl _ _ rfl rfl
  rw [hupd] at hR
  subst hR
  simp only [Outcome.ok] at hG hgain
  refine ⟨rfl, ?_, ?_, ?_, ?_, ?_, ?_, ?_, ?_, rfl, rfl, ?_⟩
  · rw [hD, hfw]
    rfl
  · simp only [Outcome.ok, List.length_map, List.length_range]
  · intro i hi
    refine ⟨layout sqrt f.point_set_transform_ (b p) (ds + dq + dr) 0 i,
      layout sqrt f.point_set_transform_ (Gaussian.standard K dr) (ds + dq + dr) (ds + dq) i,
      f.X_y.entries.getD i ⟨0, ⟨0, 0⟩⟩, ?_, ?_, ?_, ?_⟩
    · simp only [Outcome.ok, PointSet.entry, List.getElem?_map, List.getElem?_range hi,
        Option.map_some']
    · rw [PointSet.entry, hRX, List.getElem?_map, List.getElem?_range hi, Option.map_some']
    · rw [PointSet.entry, List.getElem?_eq_getElem (by omega),
        List.getD_eq_getElem _ _ (by omega)]
    · simp only [Outcome.ok, PointSet.entry, List.getElem?_map, List.getElem?_range hi,
        Option.map_some']
  · simp only [Outcome.ok, PointSet.covariance_weights_vector, List.map_map]
    rfl
  · simp only [Outcome.ok, PointSet.centered_points, PointSet.mean, List.map_map]
    rfl
  · simp only [Outcome.ok, PointSet.centered_points, PointSet.mean, List.map_map]
    rfl
  · simp only [Outcome.ok, PointSet.mean, List.map_map]
    rfl
  · simp only [Outcome.ok, PointSet.mean, List.map_map]
    rfl
  · subst hgain hG
    simp only [Outcome.ok, PointSet.mean, List.map_map]
    rfl

end UpdateFields

section UpdateClaims

variable {K : Type} [LinearOrderedField K] {ds dq du dr dy : Nat}

/-- The model of Eigen's `inverse()` is the inverse of Mathlib. -/
theorem inverse_eq_inv {n : Nat} (m : Matrix (Fin n) (Fin n) K) : inverse m = m⁻¹ := by
  rw [inverse, Matrix.inv_def, Ring.inverse_eq_inv']

/-- The guarded `cov_yy` of a symmetric matrix is symmetric. -/
theorem stability_guard_isSymm (threshold inv_sigma : K) (innovation : Fin dy → K)
    (cov_yy : Matrix (Fin dy) (Fin dy) K) (h : cov_yy.IsSymm) :
    (stability_guard threshold inv_sigma innovation cov_yy).IsSymm := by
  rw [stability_guard_eq_add]
  exact h.add (Matrix.isSymm_diagonal _)

/-- The product `K · G · Kᵗ` with a symmetric `G` is symmetric. -/
theorem isSymm_conj {a c : Nat} (g : Matrix (Fin a) (Fin c) K) (G : Matrix (Fin c) (Fin c) K)
    (hG : G.IsSymm) : (g * G * g.transpose).IsSymm := by
  rw [Matrix.IsSymm, Matrix.transpose_mul, Matrix.transpose_mul, Matrix.transpose_transpose,
    hG.eq, Matrix.mul_assoc]

/-- C13: `update` computes the Kalman correction from the guarded innovation
covariance.  On a filter that satisfies the invariant `update` returns
normally; `X_r` holds the sigma points that `forward` makes of
`predicted_dist`; the point `i` of `X_y` is
`predict_observation(X_r[i], X_R[i], 0)`, for each of the `2·D + 1` indices,
with the weight `X_y` held; `X`, `Y` are the centred points of `X_r`, `X_y`,
`W` the covariance weights of `X_r`, the innovation is `y − X_y.mean()` and the
guard constants are those of the filter.  With `cov_xx = X·diag(W)·Xᵗ`,
`cov_xy = X·diag(W)·Yᵗ`, `cov_yy` the matrix `Y·diag(W)·Yᵗ` after the stability
guard and `K = cov_xy · inverse(cov_yy)`, whenever the guarded `cov_yy` is
invertible: `inverse(cov_yy)` is its inverse, `K·cov_yy = cov_xy`, and the call
leaves every belief but `posterior_dist` as it was and writes
`posterior.mean = X_r.mean() + K·(y − X_y.mean())` and
`posterior.covariance = cov_xx − K·cov_yy·Kᵗ`, both with the same guarded
`cov_yy`. -/
theorem update_kalman_correction (sqrt : K → K)
    (factor : Matrix (Fin ds) (Fin ds) K → Matrix (Fin ds) (Fin ds) K)
    (y : Fin dy → K) (p q : Nat) (f : GaussianFilter K ds dq du dr dy)
    (b : Nat → Gaussian K ds) (hinv : f.invariant sqrt)
    (R : Outcome (GaussianFilter K ds dq du dr dy × (Nat → Gaussian K ds)))
    (hR : R = GaussianFilter.update sqrt factor y p q (f, b))
    (cov_xx : Matrix (Fin ds) (Fin ds) K) (cov_xy : Matrix (Fin ds) (Fin dy) K)
    (cov_yy : Matrix (Fin dy) (Fin dy) K) (gain : Matrix (Fin ds) (Fin dy) K)
    (hxx : cov_xx = mul_diag_transpose R.state.1.X R.state.1.W R.state.1.X)
    (hxy : cov_xy = mul_diag_transpose R.state.1.X R.state.1.W R.state.1.Y)
    (hyy : cov_yy = stability_guard R.state.1.threshold R.state.1.inv_sigma
      R.state.1.innovation (mul_diag_transpose R.state.1.Y R.state.1.W R.state.1.Y))
    (hgain : gain = cov_xy * inverse cov_yy) :
    R.thrown = none ∧
    R.state.1.X_r = (f.point_set_transform_.forward sqrt (b p) f.global_dimension_ 0
      f.X_r).state ∧
    R.state.1.X_y.entries.length = 2 * (ds + dq + dr) + 1 ∧
    (∀ i, i < 2 * (ds + dq + dr) + 1 → ∃ xr xR e0,
      R.state.1.X_r.entry i = some xr ∧ f.X_R.entry i = some xR ∧ f.X_y.entry i = some e0 ∧
      R.state.1.X_y.entry i
        = some ⟨f.obsrv_model_.predict_observation xr.point xR.point 0, e0.weight⟩) ∧
    R.state.1.X = R.state.1.X_r.centered_points ∧
    R.state.1.Y = R.state.1.X_y.centered_points ∧
    R.state.1.W = R.state.1.X_r.covariance_weights_vector ∧
    R.state.1.innovation = y - R.state.1.X_y.mean ∧
    R.state.1.threshold = f.threshold ∧
    R.state.1.inv_sigma = f.inv_sigma ∧
    (cov_yy.det ≠ 0 →
      cov_yy * inverse cov_yy = 1 ∧ inverse cov_yy * cov_yy = 1 ∧
      gain * cov_yy = cov_xy ∧
      (R.state.2 q).Mean = R.state.1.X_r.mean + gain.mulVec (y - R.state.1.X_y.mean) ∧
      (R.state.2 q).Covariance = cov_xx - gain * cov_yy * gain.transpose ∧
      ∀ k, k ≠ q → R.state.2 k = b k) := by
  subst hxx hxy
  obtain ⟨h1, hXr, hlen, hXy, hW, hX, hY, _, hinn, hthr, hisg, hpost⟩ :=
    update_fields sqrt factor y p q f b hinv R hR cov_yy gain hyy hgain
  refine ⟨h1, hXr, hlen, hXy, hX, hY, hW, hinn, hthr, hisg, fun hdet => ?_⟩
  have hu : IsUnit cov_yy.det := isUnit_iff_ne_zero.mpr hdet
  refine ⟨?_, ?_, ?_, ?_, ?_, fun k hk => ?_⟩
  · rw [inverse_eq_inv, Matrix.mul_nonsing_inv _ hu]
  · rw [inverse_eq_inv, Matrix.nonsing_inv_mul _ hu]
  · rw [hgain, inverse_eq_inv, Matrix.mul_assoc, Matrix.nonsing_inv_mul _ hu, Matrix.mul_one]
  · rw [hpost, Function.update_same, hinn]
  · rw [hpost, Function.update_same]
  · rw [hpost, Function.update_noteq hk]

/-- C15 (amended): the outlier guard.  On a filter that satisfies the invariant
and has `inv_sigma > 0`, for every observation component `k` with
`|innovation[k]| > threshold` the diagonal entry `cov_yy[k,k]` used for the
gain is the unguarded value `(Y·diag(W)·Yᵗ)[k,k]` plus `inv_sigma`, hence
strictly larger. -/
theorem outlier_guard_inflates (sqrt : K → K)
    (factor : Matrix (Fin ds) (Fin ds) K → Matrix (Fin ds) (Fin ds) K)
    (y : Fin dy → K) (p q : Nat) (f : GaussianFilter K ds dq du dr dy)
    (b : Nat → Gaussian K ds) (hinv : f.invariant sqrt)
    (R : Outcome (GaussianFilter K ds dq du dr dy × (Nat → Gaussian K ds)))
    (hR : R = GaussianFilter.update sqrt factor y p q (f, b))
    (hpos : 0 < f.inv_sigma) (k : Fin dy)
    (hk : |R.state.1.innovation k| > f.threshold) :
    R.thrown = none ∧
    stability_guard R.state.1.threshold R.state.1.inv_sigma R.state.1.innovation
        (mul_diag_transpose R.state.1.Y R.state.1.W R.state.1.Y) k k
      = mul_diag_transpose R.state.1.Y R.state.1.W R.state.1.Y k k + f.inv_sigma ∧
    mul_diag_transpose R.state.1.Y R.state.1.W R.state.1.Y k k
      < stability_guard R.state.1.threshold R.state.1.inv_sigma R.state.1.innovation
          (mul_diag_transpose R.state.1.Y R.state.1.W R.state.1.Y) k k := by
  obtain ⟨h1, _, _, _, _, _, _, _, _, hthr, hisg, _⟩ :=
    update_fields sqrt factor y p q f b hinv R hR _ _ rfl rfl
  have hval : stability_guard R.state.1.threshold R.state.1.inv_sigma R.state.1.innovation
        (mul_diag_transpose R.state.1.Y R.state.1.W R.state.1.Y) k k
      = mul_diag_transpose R.state.1.Y R.state.1.W R.state.1.Y k k + f.inv_sigma := by
    rw [stability_guard_apply, hthr, hisg, if_pos ⟨rfl, hk⟩]
  refine ⟨h1, hval, ?_⟩
  rw [hval]
  exact lt_add_of_pos_right _ hpos

/-- C16, amended: symmetry.  On a filter that satisfies the invariant,
`predict` returns normally and the covariance it writes is a symmetric matrix;
`update` returns normally, and whenever the guarded `cov_yy` it inverts is
invertible the posterior it writes is a belief of numbers whose covariance is
a symmetric matrix. -/
theorem covariance_symmetric (sqrt : K → K)
    (factor : Matrix (Fin ds) (Fin ds) K → Matrix (Fin ds) (Fin ds) K)
    (delta_time : K) (input : Fin du → K) (prior_dist predicted_dist : Gaussian K ds)
    (y : Fin dy → K) (p q : Nat) (f : GaussianFilter K ds dq du dr dy)
    (b : Nat → Gaussian K ds) (hinv : f.invariant sqrt) :
    (f.predict sqrt factor delta_time input prior_dist predicted_dist).thrown = none ∧
    (f.predict sqrt factor delta_time input prior_dist
      predicted_dist).state.2.Covariance.IsSymm ∧
    (GaussianFilter.update sqrt factor y p q (f, b)).thrown = none ∧
    ((GaussianFilter.update sqrt factor y p q (f, b)).state.1.guarded_cov_yy.det ≠ 0 →
      GaussianFilter.update_posterior sqrt factor y p q (f, b)
        = some ((GaussianFilter.update sqrt factor y p q (f, b)).state.2 q) ∧
      ((GaussianFilter.update sqrt factor y p q (f, b)).state.2 q).Covariance.IsSymm) := by
  have hp := predict_eq sqrt factor delta_time input prior_dist predicted_dist f hinv
    _ _ (fun _ => rfl) (fun _ => rfl) _ rfl _ rfl
  obtain ⟨h1, _, _, _, _, _, _, _, _, _, _, hpost⟩ :=
    update_fields sqrt factor y p q f b hinv _ rfl _ _ rfl rfl
  refine ⟨by rw [hp]; rfl, ?_, h1, fun hdet => ⟨?_, ?_⟩⟩
  · rw [hp]
    exact mul_diag_transpose_isSymm _ _
  · simp only [GaussianFilter.update_posterior]
    rw [if_neg (fun h => hdet h.2)]
  · rw [hpost, Function.update_same]
    have hG := stability_guard_isSymm
      (GaussianFilter.update sqrt factor y p q (f, b)).state.1.threshold
      (GaussianFilter.update sqrt factor y p q (f, b)).state.1.inv_sigma
      (GaussianFilter.update sqrt factor y p q (f, b)).state.1.innovation _
      (mul_diag_transpose_isSymm
        (GaussianFilter.update sqrt factor y p q (f, b)).state.1.Y
        (GaussianFilter.update sqrt factor y p q (f, b)).state.1.W)
    exact (mul_diag_transpose_isSymm _ _).sub (isSymm_conj _ _ hG)

end UpdateClaims

section Fused

variable {K : Type} [LinearOrderedField K] {ds dq du dr dy : Nat}

/-- The result of `update` depends on the store only through the belief named
`predicted_dist`: on two stores that hold the same predicted belief, and for
any two output names, the filter after the call is the same and the belief
written is the same. -/
theorem update_congr (sqrt : K → K)
    (factor : Matrix (Fin ds) (Fin ds) K → Matrix (Fin ds) (Fin ds) K)
    (y : Fin dy → K) (p q p' q' : Nat) (f : GaussianFilter K ds dq du dr dy)
    (b b' : Nat → Gaussian K ds) (hinv : f.invariant sqrt) (hb : b p = b' p') :
    (GaussianFilter.update sqrt factor y p q (f, b)).thrown = none ∧
    (GaussianFilter.update sqrt factor y p' q' (f, b')).thrown = none ∧
    (GaussianFilter.update sqrt factor y p q (f, b)).state.1
      = (GaussianFilter.update sqrt factor y p' q' (f, b')).state.1 ∧
    (GaussianFilter.update sqrt factor y p q (f, b)).state.2 q
      = (GaussianFilter.update sqrt factor y p' q' (f, b')).state.2 q' := by
  have hlen : f.X_y.entries.length = 2 * (ds + dq + dr) + 1 := hinv.2.2.2.2
  have hY0 : f.X_y.entries = (List.range (2 * (ds + dq + dr) + 1)).map
      fun i => f.X_y.entries.getD i ⟨0, ⟨0, 0⟩⟩ := by
    have h := list_eq_map_range f.X_y.entries (⟨0, ⟨0, 0⟩⟩ : WeightedPoint K dy)
    rw [hlen] at h
    exact h
  have h1 := update_eq sqrt factor y p q f b hinv _ hY0 _ _ (fun _ => rfl) (fun _ => rfl)
    _ _ rfl rfl _ rfl _ _ rfl rfl
  have h2 := update_eq sqrt factor y p' q' f b' hinv _ hY0 _ _
    (fun i => show layout sqrt f.point_set_transform_ (b p) (ds + dq + dr) 0 i = _ by rw [hb])
    (fun _ => rfl) _ _ rfl rfl _ rfl _ _ rfl rfl
  rw [h1, h2]
  simp only [Outcome.ok, Function.update_same]
  exact ⟨trivial, trivial, trivial, trivial⟩

/-- The call of `predict` on beliefs of the store: on a filter that satisfies
the invariant it returns normally, the filter it leaves satisfies the
invariant, and neither that filter nor the belief it writes depends on the
object the belief is written to. -/
theorem predict_in_eq (sqrt : K → K)
    (factor : Matrix (Fin ds) (Fin ds) K → Matrix (Fin ds) (Fin ds) K)
    (delta_time : K) (input : Fin du → K) (prior : Nat)
    (f : GaussianFilter K ds dq du dr dy) (b : Nat → Gaussian K ds)
    (hinv : f.invariant sqrt) :
    ∃ (F1 : GaussianFilter K ds dq du dr dy) (G1 : Gaussian K ds), F1.invariant sqrt ∧
      ∀ t : Nat, GaussianFilter.predict_in sqrt factor delta_time input prior t (f, b)
        = Outcome.ok (F1, Function.update b t G1) := by
  have hp : ∀ g : Gaussian K ds, _ := fun g =>
    predict_eq sqrt factor delta_time input (b prior) g f hinv
      _ _ (fun _ => rfl) (fun _ => rfl) _ rfl _ rfl
  refine ⟨(f.predict sqrt factor delta_time input (b prior) (b prior)).state.1,
    (f.predict sqrt factor delta_time input (b prior) (b prior)).state.2, ?_, fun t => ?_⟩
  · rw [hp (b prior)]
    refine invariant_of_frame sqrt f _ hinv rfl rfl rfl rfl rfl rfl ?_ hinv.2.2.2.2
    simp only [Outcome.ok, PointSet.count_points, List.length_map, List.length_range]
  · rw [GaussianFilter.predict_in, hp (b t), hp (b prior)]
    rfl

/-- C18: `predict_and_update(dt, input, y, prior, posterior)` leaves in
`posterior` exactly the belief obtained by `predict(dt, input, prior, tmp)`
followed by `update(y, tmp, posterior)` for any intermediate belief `tmp`:
both runs return normally, leave the same filter and the same posterior
belief; and `update` with one belief object as its input and its output
(`update(y, p, p)`) writes the belief that `update(y, p, q)` writes into any
other object `q`. -/
theorem predict_and_update_eq (sqrt : K → K)
    (factor : Matrix (Fin ds) (Fin ds) K → Matrix (Fin ds) (Fin ds) K)
    (delta_time : K) (input : Fin du → K) (y : Fin dy → K) (prior posterior tmp : Nat)
    (f : GaussianFilter K ds dq du dr dy) (b : Nat → Gaussian K ds)
    (hinv : f.invariant sqrt) :
    (GaussianFilter.predict_and_update sqrt factor delta_time input y prior posterior
      (f, b)).thrown = none ∧
    ((GaussianFilter.predict_in sqrt factor delta_time input prior tmp (f, b)).andThen
      (GaussianFilter.update sqrt factor y tmp posterior)).thrown = none ∧
    (GaussianFilter.predict_and_update sqrt factor delta_time input y prior posterior
      (f, b)).state.1
      = ((GaussianFilter.predict_in sqrt factor delta_time input prior tmp (f, b)).andThen
          (GaussianFilter.update sqrt factor y tmp posterior)).state.1 ∧
    (GaussianFilter.predict_and_update sqrt factor delta_time input y prior posterior
      (f, b)).state.2 posterior
      = ((GaussianFilter.predict_in sqrt factor delta_time input prior tmp (f, b)).andThen
          (GaussianFilter.update sqrt factor y tmp posterior)).state.2 posterior ∧
    (∀ p q : Nat,
      (GaussianFilter.update sqrt factor y p p (f, b)).thrown = none ∧
      (GaussianFilter.update sqrt factor y p q (f, b)).thrown = none ∧
      (GaussianFilter.update sqrt factor y p p (f, b)).state.1
        = (GaussianFilter.update sqrt factor y p q (f, b)).state.1 ∧
      (GaussianFilter.update sqrt factor y p p (f, b)).state.2 p
        = (GaussianFilter.update sqrt factor y p q (f, b)).state.2 q) := by
  obtain ⟨F1, G1, hF1, hpin⟩ := predict_in_eq sqrt factor delta_time input prior f b hinv
  have hA : GaussianFilter.predict_and_update sqrt factor delta_time input y prior posterior
      (f, b)
      = GaussianFilter.update sqrt factor y posterior posterior
          (F1, Function.update b posterior G1) := by
    rw [GaussianFilter.predict_and_update, hpin posterior, andThen_ok]
  have hB : (GaussianFilter.predict_in sqrt factor delta_time input prior tmp (f, b)).andThen
      (GaussianFilter.update sqrt factor y tmp posterior)
      = GaussianFilter.update sqrt factor y tmp posterior (F1, Function.update b tmp G1) := by
    rw [hpin tmp, andThen_ok]
  have h := update_congr sqrt factor y posterior posterior tmp posterior F1
    (Function.update b posterior G1) (Function.update b tmp G1) hF1
    (by rw [Function.update_same, Function.update_same])
  rw [hA, hB]
  exact ⟨h.1, h.2.1, h.2.2.1, h.2.2.2,
    fun p q => update_congr sqrt factor y p p p q f b b hinv rfl⟩

end Fused

section ObservationMean

/-- The layout of the one-dimensional standard normal for `D = 1` with the
default parameters over the reals: the points `0`, `1`, `−1` with the mean
weights `0`, `1/2`, `1/2`. -/
theorem layout_standard_one :
    (List.range 3).map (layout Real.sqrt (UnscentedTransform.default ℝ)
      (Gaussian.standard ℝ 1) 1 0)
      = [⟨![0], ⟨0, 2⟩⟩, ⟨![1], ⟨1 / 2, 1 / 2⟩⟩, ⟨![-1], ⟨1 / 2, 1 / 2⟩⟩] := by
  have hl : (UnscentedTransform.default ℝ).lambda_scalar ((1 : Nat) : ℝ) = 0 := by
    simp [UnscentedTransform.lambda_scalar, UnscentedTransform.default]
  have hg : (UnscentedTransform.default ℝ).gamma_factor Real.sqrt ((1 : Nat) : ℝ) = 1 := by
    rw [UnscentedTransform.gamma_factor, hl, add_zero, Nat.cast_one, Real.sqrt_one]
  have h0 : (UnscentedTransform.default ℝ).weight_mean_0 ((1 : Nat) : ℝ) = 0 := by
    rw [UnscentedTransform.weight_mean_0, hl, zero_div]
  have hc : (UnscentedTransform.default ℝ).weight_cov_0 ((1 : Nat) : ℝ) = 2 := by
    rw [UnscentedTransform.weight_cov_0, h0]
    simp [UnscentedTransform.default]
  have hi : (UnscentedTransform.default ℝ).weight_mean_i ((1 : Nat) : ℝ) = 1 / 2 := by
    rw [UnscentedTransform.weight_mean_i, hl, add_zero, Nat.cast_one, mul_one]
  have hci : (UnscentedTransform.default ℝ).weight_cov_i ((1 : Nat) : ℝ) = 1 / 2 := hi
  have hr : List.range 3 = [0, 1, 2] := by decide
  have hm : (Gaussian.standard ℝ 1).Mean = ![0] := by
    funext r
    fin_cases r
    rfl
  have hv1 : (Gaussian.standard ℝ 1).Mean
      + col (fun r c => (Gaussian.standard ℝ 1).SquareRoot r c * 1) 0 = ![1] := by
    funext r
    fin_cases r
    simp [Gaussian.standard, col, Matrix.one_apply]
  have hv2 : (Gaussian.standard ℝ 1).Mean
      - col (fun r c => (Gaussian.standard ℝ 1).SquareRoot r c * 1) 0 = ![-1] := by
    funext r
    fin_cases r
    simp [Gaussian.standard, col, Matrix.one_apply]
  rw [hr]
  simp only [List.map, layout, hg, h0, hc, hi, hci]
  norm_num
  simp only [mul_one] at hv1 hv2
  exact ⟨hm, hv1, hv2⟩

/-- Claim C14 at a failing input: the filter built over the reals from the
observation model `h(x) = x²` (one state dimension, no noise, default
transform, point sets allocated with the uniform weights `1/count`), updated
from the standard normal belief.  The call returns; `X_r` carries the
transform's mean weights `0, 1/2, 1/2`; `X_y` holds the observation points
`0, 1, 1`; the mean of those points under the transform's weights is `1`; and
the `prediction` the code computes is `2/3`, the mean under the weights `1/3`
that the allocation of `X_y` left and no statement overwrote. -/
theorem update_prediction_stale_weights :
    (GaussianFilter.update Real.sqrt id ![0] 0 0
      ((square_filter_outcome ℝ Real.sqrt).state, fun _ => Gaussian.standard ℝ 1)).thrown
      = none ∧
    ((GaussianFilter.update Real.sqrt id ![0] 0 0
      ((square_filter_outcome ℝ Real.sqrt).state,
        fun _ => Gaussian.standard ℝ 1)).state.1.X_r.entries.map fun e => e.weight.w_mean)
      = [0, 1 / 2, 1 / 2] ∧
    ((GaussianFilter.update Real.sqrt id ![0] 0 0
      ((square_filter_outcome ℝ Real.sqrt).state,
        fun _ => Gaussian.standard ℝ 1)).state.1.X_y.entries.map fun e => e.point)
      = [![0], ![1], ![1]] ∧
    (List.zipWith (fun (w : ℝ) (z : Fin 1 → ℝ) => w • z)
      ((GaussianFilter.update Real.sqrt id ![0] 0 0
        ((square_filter_outcome ℝ Real.sqrt).state,
          fun _ => Gaussian.standard ℝ 1)).state.1.X_r.entries.map fun e => e.weight.w_mean)
      ((GaussianFilter.update Real.sqrt id ![0] 0 0
        ((square_filter_outcome ℝ Real.sqrt).state,
          fun _ => Gaussian.standard ℝ 1)).state.1.X_y.entries.map fun e => e.point)).sum
      = ![1] ∧
    (GaussianFilter.update Real.sqrt id ![0] 0 0
      ((square_filter_outcome ℝ Real.sqrt).state,
        fun _ => Gaussian.standard ℝ 1)).state.1.prediction = ![2 / 3] := by
  have hc := create_invariant Real.sqrt (ProcessModelNoiseless ℝ 1) (ObservationModelSquare ℝ)
    (UnscentedTransform.default ℝ) Dynamic false (uniform_fresh ℝ 1) (uniform_fresh ℝ 1)
    (uniform_fresh ℝ 0) (uniform_fresh ℝ 0) 0 0 (fun h => by simp at h)
  have hy := create_X_y Real.sqrt (ProcessModelNoiseless ℝ 1) (ObservationModelSquare ℝ)
    (UnscentedTransform.default ℝ) Dynamic false (uniform_fresh ℝ 1) (uniform_fresh ℝ 1)
    (uniform_fresh ℝ 0) (uniform_fresh ℝ 0) 0 0 (fun h => by simp at h)
  have hu := update_eq Real.sqrt id ![0] 0 0 (square_filter_outcome ℝ Real.sqrt).state
    (fun _ => Gaussian.standard ℝ 1) hc.2.1 (fun _ => uniform_fresh ℝ 1 3)
    (by
      rw [square_filter_outcome, hy.1]
      simp [List.range_succ])
    _ _ (fun _ => rfl) (fun _ => rfl) _ _ rfl rfl _ rfl _ _ rfl rfl
  rw [hu]
  have ht : (square_filter_outcome ℝ Real.sqrt).state.point_set_transform_
      = UnscentedTransform.default ℝ := hc.2.2.2
  have ho : (square_filter_outcome ℝ Real.sqrt).state.obsrv_model_
      = ObservationModelSquare ℝ := hy.2.1
  have hl := layout_standard_one
  rw [show List.range 3 = [0, 1, 2] from by decide] at hl
  simp only [List.map_cons, List.map_nil, List.cons.injEq, and_true] at hl
  obtain ⟨h0, h1, h2⟩ := hl
  simp only [Outcome.ok, ht, ho, Nat.reduceAdd, Nat.reduceMul,
    show List.range 3 = [0, 1, 2] from by decide, List.map_cons, List.map_nil, h0, h1, h2,
    ObservationModelSquare, uniform_fresh, List.zipWith_cons_cons, List.zipWith_nil_right,
    List.sum_cons, List.sum_nil]
  refine ⟨trivial, trivial, ?_, ?_, ?_⟩
  · have e : ∀ a : ℝ, (fun _ : Fin 1 => a) = ![a] := fun a => by
      funext r
      fin_cases r
      rfl
    simp [e]
  · funext r
    fin_cases r
    simp
    norm_num
  · funext r
    fin_cases r
    simp
    norm_num

end ObservationMean

section Guard

variable {K : Type} [LinearOrderedField K] {ds dq du dr dy : Nat}

/-- When every mean weight `X_y` holds is zero, `update` computes the
prediction `0` and the innovation `y`. -/
theorem update_zero_weights (sqrt : K → K)
    (factor : Matrix (Fin ds) (Fin ds) K → Matrix (Fin ds) (Fin ds) K)
    (y : Fin dy → K) (p q : Nat) (f : GaussianFilter K ds dq du dr dy)
    (b : Nat → Gaussian K ds) (hinv : f.invariant sqrt)
    (hY : f.X_y.entries = List.replicate (2 * (ds + dq + dr) + 1) ⟨0, ⟨0, 0⟩⟩) :
    (GaussianFilter.update sqrt factor y p q (f, b)).state.1.prediction = 0 ∧
    (GaussianFilter.update sqrt factor y p q (f, b)).state.1.innovation = y := by
  have hu := update_eq sqrt factor y p q f b hinv (fun _ => ⟨0, ⟨0, 0⟩⟩)
    (by rw [hY, List.map_const', List.length_range])
    _ _ (fun _ => rfl) (fun _ => rfl) _ _ rfl rfl _ rfl _ _ rfl rfl
  rw [hu]
  have hz : ∀ (l : List Nat) (z : Nat → Fin dy → K),
      (l.map fun i => (0 : K) • z i).sum = 0 := by
    intro l z
    induction l with
    | nil => rfl
    | cons a l ih => rw [List.map_cons, List.sum_cons, ih, zero_smul, add_zero]
  simp only [Outcome.ok, hz, sub_zero, and_self]

/-- The filter of `guarded_filter_outcome` satisfies the invariant, its `X_y`
holds zero weights, and its guard constants are the ones the caller set. -/
theorem guarded_filter_facts (sqrt : K → K) (n : Nat) (threshold inv_sigma : K) :
    (guarded_filter_outcome K sqrt n threshold inv_sigma).state.invariant sqrt ∧
    (guarded_filter_outcome K sqrt n threshold inv_sigma).state.X_y.entries
      = List.replicate (2 * (n + n + 1) + 1) ⟨0, ⟨0, 0⟩⟩ ∧
    (guarded_filter_outcome K sqrt n threshold inv_sigma).state.threshold = threshold ∧
    (guarded_filter_outcome K sqrt n threshold inv_sigma).state.inv_sigma = inv_sigma := by
  have hc := create_invariant sqrt (ProcessModelStub K n) (ObservationModelStub K n)
    (UnscentedTransform.default K) Dynamic false (fun _ => ⟨0, ⟨0, 0⟩⟩)
    (fun _ => ⟨0, ⟨0, 0⟩⟩) (fun _ => ⟨0, ⟨0, 0⟩⟩) (fun _ => ⟨0, ⟨0, 0⟩⟩) threshold inv_sigma
    (fun h => by simp at h)
  have hy := create_X_y sqrt (ProcessModelStub K n) (ObservationModelStub K n)
    (UnscentedTransform.default K) Dynamic false (fun _ => ⟨0, ⟨0, 0⟩⟩)
    (fun _ => ⟨0, ⟨0, 0⟩⟩) (fun _ => ⟨0, ⟨0, 0⟩⟩) (fun _ => ⟨0, ⟨0, 0⟩⟩) threshold inv_sigma
    (fun h => by simp at h)
  exact ⟨hc.2.1, hy.1, hy.2.2.1, hy.2.2.2⟩

/-- C15 as stated fails: nothing keeps `inv_sigma` positive.  On the stub
filter with `threshold = 0` and `inv_sigma = 0`, the observation `y = [1]`
gives the innovation `1`, which exceeds the threshold, and the diagonal entry
of the guarded `cov_yy` is not larger than the unguarded one. -/
theorem outlier_guard_counterexample :
    |(guarded_update_outcome ℝ Real.sqrt 0 0).state.1.innovation 0|
      > (guarded_update_outcome ℝ Real.sqrt 0 0).state.1.threshold ∧
    ¬ (mul_diag_transpose (guarded_update_outcome ℝ Real.sqrt 0 0).state.1.Y
          (guarded_update_outcome ℝ Real.sqrt 0 0).state.1.W
          (guarded_update_outcome ℝ Real.sqrt 0 0).state.1.Y 0 0
        < stability_guard (guarded_update_outcome ℝ Real.sqrt 0 0).state.1.threshold
            (guarded_update_outcome ℝ Real.sqrt 0 0).state.1.inv_sigma
            (guarded_update_outcome ℝ Real.sqrt 0 0).state.1.innovation
            (mul_diag_transpose (guarded_update_outcome ℝ Real.sqrt 0 0).state.1.Y
              (guarded_update_outcome ℝ Real.sqrt 0 0).state.1.W
              (guarded_update_outcome ℝ Real.sqrt 0 0).state.1.Y) 0 0) := by
  obtain ⟨hinv, hXy, hthr, hisg⟩ := guarded_filter_facts Real.sqrt 1 (0 : ℝ) 0
  have hz := update_zero_weights Real.sqrt id ![1] 0 0 _ (fun _ => Gaussian.standard ℝ 1)
    hinv hXy
  obtain ⟨_, _, _, _, _, _, _, _, _, hthr2, hisg2, _⟩ :=
    update_fields Real.sqrt id ![1] 0 0 _ (fun _ => Gaussian.standard ℝ 1) hinv
      (guarded_update_outcome ℝ Real.sqrt 0 0) rfl _ _ rfl rfl
  rw [hthr] at hthr2
  rw [hisg] at hisg2
  constructor
  · rw [hthr2, guarded_update_outcome, hz.2]
    norm_num
  · rw [stability_guard_apply, hisg2]
    simp

/-- Witness of `outlier_guard_inflates`: the stub filter with `threshold = 0`
and `inv_sigma = 1`, updated with `y = [1]` from the standard normal belief;
the innovation `1` exceeds the threshold. -/
theorem outlier_guard_inflates_witness :
    mul_diag_transpose (guarded_update_outcome ℝ Real.sqrt 0 1).state.1.Y
        (guarded_update_outcome ℝ Real.sqrt 0 1).state.1.W
        (guarded_update_outcome ℝ Real.sqrt 0 1).state.1.Y 0 0
      < stability_guard (guarded_update_outcome ℝ Real.sqrt 0 1).state.1.threshold
          (guarded_update_outcome ℝ Real.sqrt 0 1).state.1.inv_sigma
          (guarded_update_outcome ℝ Real.sqrt 0 1).state.1.innovation
          (mul_diag_transpose (guarded_update_outcome ℝ Real.sqrt 0 1).state.1.Y
            (guarded_update_outcome ℝ Real.sqrt 0 1).state.1.W
            (guarded_update_outcome ℝ Real.sqrt 0 1).state.1.Y) 0 0 :=
  (outlier_guard_inflates Real.sqrt id ![1] 0 0
    (guarded_filter_outcome ℝ Real.sqrt 1 0 1).state (fun _ => Gaussian.standard ℝ 1)
    (guarded_filter_facts Real.sqrt 1 (0 : ℝ) 1).1
    (guarded_update_outcome ℝ Real.sqrt 0 1) rfl
    (by
      rw [(guarded_filter_facts Real.sqrt 1 (0 : ℝ) 1).2.2.2]
      exact one_pos)
    0
    (by
      rw [(guarded_filter_facts Real.sqrt 1 (0 : ℝ) 1).2.2.1, guarded_update_outcome,
        (update_zero_weights Real.sqrt id ![1] 0 0 _ (fun _ => Gaussian.standard ℝ 1)
          (guarded_filter_facts Real.sqrt 1 (0 : ℝ) 1).1
          (guarded_filter_facts Real.sqrt 1 (0 : ℝ) 1).2.1).2]
      norm_num)).2.2

end Guard

section UpdateWitnesses

/-- On a filter that satisfies the invariant the entries `forward` leaves in
`X_r` and the entries of `X_Q` are those of the layout. -/
theorem invariant_entries {K : Type} [Field K] {ds dq du dr dy : Nat} (sqrt : K → K)
    (g : Gaussian K ds) (f : GaussianFilter K ds dq du dr dy) (hinv : f.invariant sqrt)
    (i : Nat) (hi : i < 2 * (ds + dq + dr) + 1) :
    (f.point_set_transform_.forward sqrt g f.global_dimension_ 0 f.X_r).state.entry i
      = some (layout sqrt f.point_set_transform_ g (ds + dq + dr) 0 i) ∧
    f.X_Q.entry i
      = some (layout sqrt f.point_set_transform_ (Gaussian.standard K dq) (ds + dq + dr) ds
          i) := by
  constructor
  · rw [hinv.1]
    exact forward_entry sqrt _ g _ 0 f.X_r hinv.2.2.2.1 (by omega) i hi
  · rw [PointSet.entry, hinv.2.1, List.getElem?_map, List.getElem?_range hi, Option.map_some']

/-- Witness of `predict_weighted_moments`: the stub filter for a
one-dimensional state, predicting from the prior with mean `3` and covariance
`4`; the points and weights are those of the layout. -/
theorem predict_weighted_moments_witness :
    ((guarded_filter_outcome ℝ Real.sqrt 1 0 1).state.predict Real.sqrt id 0 0
      (example_prior ℝ) (example_prior ℝ)).state.2.Mean
      = ∑ i ∈ Finset.range (2 * (1 + 1 + 1) + 1),
          (layout Real.sqrt (guarded_filter_outcome ℝ Real.sqrt 1 0 1).state.point_set_transform_
              (example_prior ℝ) (1 + 1 + 1) 0 i).weight.w_mean
            • (guarded_filter_outcome ℝ Real.sqrt 1 0 1).state.process_model_.predict_state 0
                (layout Real.sqrt
                  (guarded_filter_outcome ℝ Real.sqrt 1 0 1).state.point_set_transform_
                  (example_prior ℝ) (1 + 1 + 1) 0 i).point
                (layout Real.sqrt
                  (guarded_filter_outcome ℝ Real.sqrt 1 0 1).state.point_set_transform_
                  (Gaussian.standard ℝ 1) (1 + 1 + 1) 1 i).point 0 :=
  (predict_weighted_moments Real.sqrt id 0 0 (example_prior ℝ) (example_prior ℝ)
    (guarded_filter_outcome ℝ Real.sqrt 1 0 1).state
    (guarded_filter_facts Real.sqrt 1 (0 : ℝ) 1).1 _ _
    (fun i hi => (invariant_entries Real.sqrt (example_prior ℝ) _
      (guarded_filter_facts Real.sqrt 1 (0 : ℝ) 1).1 i hi).1)
    (fun i hi => (invariant_entries Real.sqrt (example_prior ℝ) _
      (guarded_filter_facts Real.sqrt 1 (0 : ℝ) 1).1 i hi).2)).2.2.1

/-- Witness of `predict_and_update_eq`: the stub filter for a one-dimensional
state, with the prior in object `0`, the posterior in object `1` and the
intermediate belief in object `2`. -/
theorem predict_and_update_eq_witness :
    (GaussianFilter.predict_and_update Real.sqrt id 0 0 ![1] 0 1
      ((guarded_filter_outcome ℝ Real.sqrt 1 0 1).state, fun _ => example_prior ℝ)).state.2 1
      = ((GaussianFilter.predict_in Real.sqrt id 0 0 0 2
            ((guarded_filter_outcome ℝ Real.sqrt 1 0 1).state, fun _ => example_prior ℝ)).andThen
          (GaussianFilter.update Real.sqrt id ![1] 2 1)).state.2 1 :=
  (predict_and_update_eq Real.sqrt id 0 0 ![1] 0 1 2
    (guarded_filter_outcome ℝ Real.sqrt 1 0 1).state (fun _ => example_prior ℝ)
    (guarded_filter_facts Real.sqrt 1 (0 : ℝ) 1).1).2.2.2.1

/-- Witness of `create_noise_point_sets`: the constructor call of the stub
filter for a one-dimensional state gives `D = 3` and seven points in `X_Q` and
in `X_R`. -/
theorem create_noise_point_sets_witness :
    (guarded_filter_outcome ℝ Real.sqrt 1 0 1).thrown = none ∧
    (guarded_filter_outcome ℝ Real.sqrt 1 0 1).state.global_dimension_ = 1 + 1 + 1 ∧
    (guarded_filter_outcome ℝ Real.sqrt 1 0 1).state.X_Q.count_points = 2 * (1 + 1 + 1) + 1 ∧
    (guarded_filter_outcome ℝ Real.sqrt 1 0 1).state.X_R.count_points = 2 * (1 + 1 + 1) + 1 :=
  ⟨(create_noise_point_sets Real.sqrt (ProcessModelStub ℝ 1) (ObservationModelStub ℝ 1)
      (UnscentedTransform.default ℝ) Dynamic false (fun _ => ⟨0, ⟨0, 0⟩⟩)
      (fun _ => ⟨0, ⟨0, 0⟩⟩) (fun _ => ⟨0, ⟨0, 0⟩⟩) (fun _ => ⟨0, ⟨0, 0⟩⟩) 0 1
      (fun h => by simp at h) (guarded_filter_outcome ℝ Real.sqrt 1 0 1).state rfl).1,
    (create_noise_point_sets Real.sqrt (ProcessModelStub ℝ 1) (ObservationModelStub ℝ 1)
      (UnscentedTransform.default ℝ) Dynamic false (fun _ => ⟨0, ⟨0, 0⟩⟩)
      (fun _ => ⟨0, ⟨0, 0⟩⟩) (fun _ => ⟨0, ⟨0, 0⟩⟩) (fun _ => ⟨0, ⟨0, 0⟩⟩) 0 1
      (fun h => by simp at h) (guarded_filter_outcome ℝ Real.sqrt 1 0 1).state rfl).2.1,
    (create_noise_point_sets Real.sqrt (ProcessModelStub ℝ 1) (ObservationModelStub ℝ 1)
      (UnscentedTransform.default ℝ) Dynamic false (fun _ => ⟨0, ⟨0, 0⟩⟩)
      (fun _ => ⟨0, ⟨0, 0⟩⟩) (fun _ => ⟨0, ⟨0, 0⟩⟩) (fun _ => ⟨0, ⟨0, 0⟩⟩) 0 1
      (fun h => by simp at h) (guarded_filter_outcome ℝ Real.sqrt 1 0 1).state rfl).2.2.2.2.1,
    (create_noise_point_sets Real.sqrt (ProcessModelStub ℝ 1) (ObservationModelStub ℝ 1)
      (UnscentedTransform.default ℝ) Dynamic false (fun _ => ⟨0, ⟨0, 0⟩⟩)
      (fun _ => ⟨0, ⟨0, 0⟩⟩) (fun _ => ⟨0, ⟨0, 0⟩⟩) (fun _ => ⟨0, ⟨0, 0⟩⟩) 0 1
      (fun h => by simp at h)
      (guarded_filter_outcome ℝ Real.sqrt 1 0 1).state rfl).2.2.2.2.2.2.2.1⟩

/-- Witness of `shared_index_layout`: in the stub filter for a one-dimensional
state (`D = 3`), at index `1` the state set holds `mean + gamma·S[:,0]` while
`X_Q` and `X_R` hold their mean. -/
theorem shared_index_layout_witness :
    (((guarded_filter_outcome ℝ Real.sqrt 1 0 1).state.point_set_transform_.forward Real.sqrt
        (example_prior ℝ) (guarded_filter_outcome ℝ Real.sqrt 1 0 1).state.global_dimension_ 0
        (guarded_filter_outcome ℝ Real.sqrt 1 0 1).state.X_r).state.entry (0 + 1 + 0)).map
        WeightedPoint.point
      = some ((example_prior ℝ).Mean
          + Real.sqrt (((1 + 1 + 1 : Nat) : ℝ)
              + (guarded_filter_outcome ℝ Real.sqrt 1 0 1).state.point_set_transform_.lambda_scalar
                  ((1 + 1 + 1 : Nat) : ℝ))
            • fun r => (example_prior ℝ).SquareRoot r 0) ∧
    ((guarded_filter_outcome ℝ Real.sqrt 1 0 1).state.X_Q.entry (0 + 1 + 0)).map
        WeightedPoint.point
      = some (Gaussian.standard ℝ 1).Mean ∧
    ((guarded_filter_outcome ℝ Real.sqrt 1 0 1).state.X_R.entry (0 + 1 + 0)).map
        WeightedPoint.point
      = some (Gaussian.standard ℝ 1).Mean :=
  ⟨((shared_index_layout Real.sqrt (example_prior ℝ)
      (guarded_filter_outcome ℝ Real.sqrt 1 0 1).state
      (guarded_filter_facts Real.sqrt 1 (0 : ℝ) 1).1 _ rfl _ rfl).2.1 0).1,
    ((shared_index_layout Real.sqrt (example_prior ℝ)
      (guarded_filter_outcome ℝ Real.sqrt 1 0 1).state
      (guarded_filter_facts Real.sqrt 1 (0 : ℝ) 1).1 _ rfl _ rfl).2.1 0).2.2.1,
    ((shared_index_layout Real.sqrt (example_prior ℝ)
      (guarded_filter_outcome ℝ Real.sqrt 1 0 1).state
      (guarded_filter_facts Real.sqrt 1 (0 : ℝ) 1).1 _ rfl _ rfl).2.1 0).2.2.2.2.1⟩

end UpdateWitnesses

section Posterior

variable {K : Type} [LinearOrderedField K]

/-- The bilinear form of `X·diag(W)·Yᵗ`: `vᵗ·(X·diag(W)·Yᵗ)·u` is the sum of
`W[i]·(X[:,i]·v)·(Y[:,i]·u)`. -/
theorem mul_diag_transpose_form {α : Type} {a b : Nat} (l : List α)
    (fx : α → Fin a → K) (fw : α → K) (fy : α → Fin b → K) (v : Fin a → K) (u : Fin b → K) :
    Matrix.dotProduct v ((mul_diag_transpose (l.map fx) (l.map fw) (l.map fy)).mulVec u)
      = (l.map fun e => fw e * Matrix.dotProduct (fx e) v * Matrix.dotProduct (fy e) u).sum := by
  induction l with
  | nil => simp [mul_diag_transpose]
  | cons e l ih =>
    simp only [List.map_cons, mul_diag_transpose, List.sum_cons, Matrix.add_mulVec,
      Matrix.dotProduct_add, ih]
    congr 1
    simp only [Matrix.dotProduct, Matrix.mulVec, Matrix.of_apply]
    rw [mul_assoc, Finset.sum_mul_sum, Finset.mul_sum]
    refine Finset.sum_congr rfl fun r _ => ?_
    rw [Finset.mul_sum, Finset.mul_sum]
    refine Finset.sum_congr rfl fun c _ => ?_
    ring

/-- With non-negative weights the form `Σ w·a² − 2·Σ w·a·b + Σ w·b²` is
non-negative. -/
theorem weighted_square_nonneg {α : Type} (l : List α) (fw a b : α → K)
    (hw : ∀ e ∈ l, 0 ≤ fw e) :
    0 ≤ (l.map fun e => fw e * a e * a e).sum - 2 * (l.map fun e => fw e * a e * b e).sum
      + (l.map fun e => fw e * b e * b e).sum := by
  induction l with
  | nil => simp
  | cons e l ih =>
    have h1 := ih fun x hx => hw x (List.mem_cons_of_mem _ hx)
    have h2 := mul_nonneg (hw e (List.mem_cons_self _ _)) (mul_self_nonneg (a e - b e))
    simp only [List.map_cons, List.sum_cons]
    nlinarith [h1, h2]

/-- The Schur complement of the weighted moments is non-negative: with
non-negative weights, a non-negative diagonal `d` added to `Y·diag(W)·Yᵗ`, an
invertible sum `G` and `gain = X·diag(W)·Yᵗ · inverse(G)`, the quadratic form
of `X·diag(W)·Xᵗ − gain·G·gainᵗ` is non-negative. -/
theorem schur_form_nonneg {α : Type} {a b : Nat} (l : List α)
    (fx : α → Fin a → K) (fw : α → K) (fy : α → Fin b → K)
    (hw : ∀ e ∈ l, 0 ≤ fw e) (d : Fin b → K) (hd : ∀ i, 0 ≤ d i)
    (G : Matrix (Fin b) (Fin b) K)
    (hG : G = mul_diag_transpose (l.map fy) (l.map fw) (l.map fy) + Matrix.diagonal d)
    (hdet : G.det ≠ 0) (gain : Matrix (Fin a) (Fin b) K)
    (hgain : gain = mul_diag_transpose (l.map fx) (l.map fw) (l.map fy) * inverse G)
    (v : Fin a → K) :
    0 ≤ Matrix.dotProduct v
      ((mul_diag_transpose (l.map fx) (l.map fw) (l.map fx)
        - gain * G * gain.transpose).mulVec v) := by
  have hC : gain * G = mul_diag_transpose (l.map fx) (l.map fw) (l.map fy) := by
    rw [hgain, inverse_eq_inv, Matrix.mul_assoc,
      Matrix.nonsing_inv_mul _ (isUnit_iff_ne_zero.mpr hdet), Matrix.mul_one]
  have h1 : Matrix.dotProduct v ((gain * G * gain.transpose).mulVec v)
      = Matrix.dotProduct (gain.transpose.mulVec v) (G.mulVec (gain.transpose.mulVec v)) := by
    rw [← Matrix.mulVec_mulVec, ← Matrix.mulVec_mulVec, Matrix.dotProduct_mulVec,
      ← Matrix.mulVec_transpose]
  have h2 : Matrix.dotProduct v
        ((mul_diag_transpose (l.map fx) (l.map fw) (l.map fy)).mulVec
          (gain.transpose.mulVec v))
      = Matrix.dotProduct (gain.transpose.mulVec v) (G.mulVec (gain.transpose.mulVec v)) := by
    rw [← hC, ← Matrix.mulVec_mulVec, Matrix.dotProduct_mulVec, ← Matrix.mulVec_transpose]
  have h3 : Matrix.dotProduct (gain.transpose.mulVec v) (G.mulVec (gain.transpose.mulVec v))
      = Matrix.dotProduct (gain.transpose.mulVec v)
          ((mul_diag_transpose (l.map fy) (l.map fw) (l.map fy)).mulVec
            (gain.transpose.mulVec v))
        + ∑ i, d i * (gain.transpose.mulVec v i * gain.transpose.mulVec v i) := by
    rw [hG, Matrix.add_mulVec, Matrix.dotProduct_add]
    congr 1
    simp only [Matrix.dotProduct, Matrix.mulVec_diagonal]
    exact Finset.sum_congr rfl fun i _ => by ring
  have h4 : 0 ≤ ∑ i, d i * (gain.transpose.mulVec v i * gain.transpose.mulVec v i) :=
    Finset.sum_nonneg fun i _ => mul_nonneg (hd i) (mul_self_nonneg _)
  have h5 := weighted_square_nonneg l fw (fun e => Matrix.dotProduct (fx e) v)
    (fun e => Matrix.dotProduct (fy e) (gain.transpose.mulVec v)) hw
  rw [Matrix.sub_mulVec, Matrix.dotProduct_sub, h1]
  rw [mul_diag_transpose_form] at h2 h3 ⊢
  beta_reduce at h5
  linarith

/-- With the default parameters every covariance weight of the layout is
non-negative: `2` at index `0` and `1/(2D)` elsewhere. -/
theorem default_weight_cov_nonneg {n : Nat} (sqrt : K → K) (g : Gaussian K n) (D o i : Nat) :
    0 ≤ (layout sqrt (UnscentedTransform.default K) g D o i).weight.w_cov := by
  have hl : (UnscentedTransform.default K).lambda_scalar (D : K) = 0 := by
    simp [UnscentedTransform.lambda_scalar, UnscentedTransform.default]
  rw [layout_weight]
  split_ifs
  · simp only [UnscentedTransform.weight_cov_0, UnscentedTransform.weight_mean_0, hl, zero_div]
    norm_num [UnscentedTransform.default]
  · simp only [UnscentedTransform.weight_cov_i, UnscentedTransform.weight_mean_i, hl, add_zero]
    positivity

/-- The quadratic form of `Y·diag(W)·Yᵗ` is non-negative when the weights
are. -/
theorem mul_diag_transpose_self_form_nonneg {a : Nat} (Y : List (Fin a → K)) (W : List K)
    (hW : ∀ w ∈ W, 0 ≤ w) (v : Fin a → K) :
    0 ≤ Matrix.dotProduct v ((mul_diag_transpose Y W Y).mulVec v) := by
  induction Y generalizing W with
  | nil => simp [mul_diag_transpose]
  | cons y Y ih =>
    cases W with
    | nil => simp [mul_diag_transpose]
    | cons w W =>
      have h1 := mul_diag_transpose_form [()] (fun _ => y) (fun _ => w) (fun _ => y) v v
      simp only [List.map_cons, List.map_nil, mul_diag_transpose, add_zero, List.sum_cons,
        List.sum_nil] at h1
      simp only [mul_diag_transpose, Matrix.add_mulVec, Matrix.dotProduct_add, h1]
      have h2 := mul_nonneg (hW w (List.mem_cons_self _ _))
        (mul_self_nonneg (Matrix.dotProduct y v))
      have h3 := ih W fun x hx => hW x (List.mem_cons_of_mem _ hx)
      nlinarith [h2, h3]

/-- On a filter with the default transform parameters every covariance weight
that `update` leaves in `W` is non-negative. -/
theorem update_default_weights_nonneg {ds dq du dr dy : Nat} (sqrt : K → K)
    (factor : Matrix (Fin ds) (Fin ds) K → Matrix (Fin ds) (Fin ds) K)
    (y : Fin dy → K) (p q : Nat) (f : GaussianFilter K ds dq du dr dy)
    (b : Nat → Gaussian K ds) (hinv : f.invariant sqrt)
    (hut : f.point_set_transform_ = UnscentedTransform.default K) :
    ∀ w ∈ (GaussianFilter.update sqrt factor y p q (f, b)).state.1.W, 0 ≤ w := by
  have hlen : f.X_y.entries.length = 2 * (ds + dq + dr) + 1 := hinv.2.2.2.2
  have hY0 : f.X_y.entries = (List.range (2 * (ds + dq + dr) + 1)).map
      fun i => f.X_y.entries.getD i ⟨0, ⟨0, 0⟩⟩ := by
    have h := list_eq_map_range f.X_y.entries (⟨0, ⟨0, 0⟩⟩ : WeightedPoint K dy)
    rw [hlen] at h
    exact h
  have hu := update_eq sqrt factor y p q f b hinv _ hY0 _ _ (fun _ => rfl) (fun _ => rfl)
    _ _ rfl rfl _ rfl _ _ rfl rfl
  rw [hu]
  intro w hmem
  obtain ⟨i, _, rfl⟩ := List.mem_map.mp hmem
  rw [hut]
  exact default_weight_cov_nonneg sqrt (b p) (ds + dq + dr) 0 i

end Posterior

section PosteriorClaim

variable {ds dq du dr dy : Nat}

/-- C17: positive semidefiniteness of the posterior.  On a filter over the
reals that satisfies the invariant, has the default transform parameters and
`inv_sigma ≥ 0`, `update` returns normally, every covariance weight in `W` is
non-negative, and whenever the guarded `cov_yy` is positive definite the
posterior covariance `cov_xx − K·cov_yy·Kᵗ` it writes is positive
semidefinite; no assumption is made on whether the guard fired. -/
theorem posterior_positive_semidefinite (sqrt : ℝ → ℝ)
    (factor : Matrix (Fin ds) (Fin ds) ℝ → Matrix (Fin ds) (Fin ds) ℝ)
    (y : Fin dy → ℝ) (p q : Nat) (f : GaussianFilter ℝ ds dq du dr dy)
    (b : Nat → Gaussian ℝ ds) (hinv : f.invariant sqrt)
    (hut : f.point_set_transform_ = UnscentedTransform.default ℝ)
    (hsig : 0 ≤ f.inv_sigma)
    (R : Outcome (GaussianFilter ℝ ds dq du dr dy × (Nat → Gaussian ℝ ds)))
    (hR : R = GaussianFilter.update sqrt factor y p q (f, b))
    (hpd : (stability_guard R.state.1.threshold R.state.1.inv_sigma R.state.1.innovation
      (mul_diag_transpose R.state.1.Y R.state.1.W R.state.1.Y)).PosDef) :
    R.thrown = none ∧
    (∀ w ∈ R.state.1.W, 0 ≤ w) ∧
    (R.state.2 q).Covariance.PosSemidef := by
  have hlen : f.X_y.entries.length = 2 * (ds + dq + dr) + 1 := hinv.2.2.2.2
  have hY0 : f.X_y.entries = (List.range (2 * (ds + dq + dr) + 1)).map
      fun i => f.X_y.entries.getD i ⟨0, ⟨0, 0⟩⟩ := by
    have h := list_eq_map_range f.X_y.entries (⟨0, ⟨0, 0⟩⟩ : WeightedPoint ℝ dy)
    rw [hlen] at h
    exact h
  have hu := update_eq sqrt factor y p q f b hinv _ hY0 _ _ (fun _ => rfl) (fun _ => rfl)
    _ _ rfl rfl _ rfl _ _ rfl rfl
  rw [hu] at hR
  subst hR
  simp only [Outcome.ok, Function.update_same] at hpd ⊢
  have hw : ∀ i ∈ List.range (2 * (ds + dq + dr) + 1),
      0 ≤ (layout sqrt f.point_set_transform_ (b p) (ds + dq + dr) 0 i).weight.w_cov := by
    intro i _
    rw [hut]
    exact default_weight_cov_nonneg sqrt (b p) (ds + dq + dr) 0 i
  refine ⟨trivial, ?_, ?_, ?_⟩
  · intro w hmem
    obtain ⟨i, hi, rfl⟩ := List.mem_map.mp hmem
    exact hw i hi
  · rw [Matrix.IsHermitian, Matrix.conjTranspose_eq_transpose_of_trivial]
    exact (mul_diag_transpose_isSymm _ _).sub (isSymm_conj _ _
      (stability_guard_isSymm _ _ _ _ (mul_diag_transpose_isSymm _ _)))
  · intro v
    rw [star_trivial]
    exact schur_form_nonneg (List.range (2 * (ds + dq + dr) + 1)) _ _ _ hw _
      (fun i => by
        split_ifs
        · exact hsig
        · exact le_rfl)
      _ (stability_guard_eq_add _ _ _ _) (ne_of_gt hpd.det_pos) _ rfl v

/-- Over the reals `Y·diag(W)·Yᵗ` is positive semidefinite when the weights are
non-negative. -/
theorem mul_diag_transpose_posSemidef {a : Nat} (Y : List (Fin a → ℝ)) (W : List ℝ)
    (hW : ∀ w ∈ W, 0 ≤ w) : (mul_diag_transpose Y W Y).PosSemidef := by
  refine ⟨?_, fun v => ?_⟩
  · rw [Matrix.IsHermitian, Matrix.conjTranspose_eq_transpose_of_trivial]
    exact mul_diag_transpose_isSymm Y W
  · rw [star_trivial]
    exact mul_diag_transpose_self_form_nonneg Y W hW v

/-- Witness of `posterior_positive_semidefinite`: the stub filter with
`threshold = 0` and `inv_sigma = 1`, updated with `y = [1]` from the standard
normal belief; the guard fires and the guarded `cov_yy` is positive
definite. -/
theorem posterior_positive_semidefinite_witness :
    ((guarded_update_outcome ℝ Real.sqrt 0 1).state.2 0).Covariance.PosSemidef :=
  (posterior_positive_semidefinite Real.sqrt id ![1] 0 0
    (guarded_filter_outcome ℝ Real.sqrt 1 0 1).state (fun _ => Gaussian.standard ℝ 1)
    (guarded_filter_facts Real.sqrt 1 (0 : ℝ) 1).1
    (create_invariant Real.sqrt _ _ _ _ _ _ _ _ _ _ _ (fun h => by simp at h)).2.2.2
    (by
      rw [(guarded_filter_facts Real.sqrt 1 (0 : ℝ) 1).2.2.2]
      exact zero_le_one)
    (guarded_update_outcome ℝ Real.sqrt 0 1) rfl
    (by
      obtain ⟨hinv, hXy, hthr, hisg⟩ := guarded_filter_facts Real.sqrt 1 (0 : ℝ) 1
      have hz := update_zero_weights Real.sqrt id ![1] 0 0 _
        (fun _ => Gaussian.standard ℝ 1) hinv hXy
      obtain ⟨_, _, _, _, _, _, _, _, _, hthr2, hisg2, _⟩ :=
        update_fields Real.sqrt id ![1] 0 0 _ (fun _ => Gaussian.standard ℝ 1) hinv
          (guarded_update_outcome ℝ Real.sqrt 0 1) rfl _ _ rfl rfl
      rw [hthr] at hthr2
      rw [hisg] at hisg2
      rw [stability_guard_eq_add, hthr2, hisg2]
      refine Matrix.PosDef.posSemidef_add (mul_diag_transpose_posSemidef _ _
        (update_default_weights_nonneg Real.sqrt id ![1] 0 0 _
          (fun _ => Gaussian.standard ℝ 1) hinv
          (create_invariant Real.sqrt _ _ _ _ _ _ _ _ _ _ _ (fun h => by simp at h)).2.2.2))
        (Matrix.PosDef.diagonal fun i => ?_)
      rw [guarded_update_outcome, hz.2]
      fin_cases i
      norm_num)).2.2

end PosteriorClaim

section WeightIdentity

variable {K : Type} [Field K]

/-- C25: the covariance weight identity.  For all parameter values `alpha`,
`beta`, `kappa` and every dimension `D`:
`weight_cov_0(D) = weight_mean_0(D) + (1 − alpha² + beta)` and
`weight_cov_i(D) = weight_mean_i(D)`. -/
theorem covariance_weight_identity (ut : UnscentedTransform K) (D : K) :
    ut.weight_cov_0 D = ut.weight_mean_0 D + (1 - ut.alpha_ ^ 2 + ut.beta_) ∧
    ut.weight_cov_i D = ut.weight_mean_i D := by
  constructor
  · unfold UnscentedTransform.weight_cov_0
    rw [pow_two]
  · rfl

end WeightIdentity

section PointBounds

variable {K : Type} {n : Nat}

/-- C23: the write `point(i, vector, weight)`.  For every point set with
`count` points: at every index `i ≥ count` the call ends with the out-of-bounds
error for `i` and `count` (so with no other error) and leaves the set as it
was; at every index `i < count` it returns normally, entry `i` is the vector
with the weight, the count is unchanged and every other entry is as before. -/
theorem point_bounds (ps : PointSet K n) (i : Nat) (p : Fin n → K) (w : Weight K) :
    (ps.count_points ≤ i →
      (ps.point i p w).thrown = some (Error.OutOfBoundsException i ps.count_points) ∧
      (ps.point i p w).state = ps) ∧
    (i < ps.count_points →
      (ps.point i p w).thrown = none ∧
      (ps.point i p w).state.entry i = some ⟨p, w⟩ ∧
      (ps.point i p w).state.count_points = ps.count_points ∧
      ∀ j, j ≠ i → (ps.point i p w).state.entry j = ps.entry j) := by
  constructor
  · intro h
    rw [point_of_ge ps i p w h]
    exact ⟨rfl, rfl⟩
  · intro h
    rw [point_of_lt ps i p w h]
    refine ⟨rfl, ?_, ?_, fun j hj => ?_⟩
    · simp only [Outcome.ok, PointSet.entry, List.getElem?_set, if_true]
      exact if_pos h
    · simp only [Outcome.ok, PointSet.count_points, List.length_set]
    · simp only [Outcome.ok, PointSet.entry, List.getElem?_set, if_neg (Ne.symm hj)]

/-- Witness of `point_bounds`: on a dynamic set of one point the write at
index `0` returns normally and the write at index `1` ends with the
out-of-bounds error. -/
theorem point_bounds_witness :
    ((PointSet.create Dynamic false (fun _ => ⟨0, ⟨0, 0⟩⟩) 1 : PointSet ℚ 1).point 0 ![5]
      ⟨123 / 100, 124 / 100⟩).thrown = none ∧
    ((PointSet.create Dynamic false (fun _ => ⟨0, ⟨0, 0⟩⟩) 1 : PointSet ℚ 1).point 1 ![5]
      ⟨123 / 100, 124 / 100⟩).thrown = some (Error.OutOfBoundsException 1 1) :=
  ⟨((point_bounds (PointSet.create Dynamic false (fun _ => ⟨0, ⟨0, 0⟩⟩) 1 : PointSet ℚ 1) 0
      ![5] ⟨123 / 100, 124 / 100⟩).2
      (by simp [PointSet.create, PointSet.count_points])).1,
    ((point_bounds (PointSet.create Dynamic false (fun _ => ⟨0, ⟨0, 0⟩⟩) 1 : PointSet ℚ 1) 1
      ![5] ⟨123 / 100, 124 / 100⟩).1
      (by simp [PointSet.create, PointSet.count_points])).1⟩

end PointBounds

section FramePoint

variable {K : Type} {ds dq du dr dy : Nat}

/-- The body of the loop of `predict` leaves `X_Q`, `X_R` and the global
dimension as they are, also when it throws. -/
theorem predict_point_frame (delta_time : K) (input : Fin du → K) (i : Nat)
    (f : GaussianFilter K ds dq du dr dy) :
    (GaussianFilter.predict_point delta_time input i f).state.X_Q = f.X_Q ∧
    (GaussianFilter.predict_point delta_time input i f).state.X_R = f.X_R ∧
    (GaussianFilter.predict_point delta_time input i f).state.global_dimension_
      = f.global_dimension_ := by
  unfold GaussianFilter.predict_point
  split <;> exact ⟨rfl, rfl, rfl⟩

end FramePoint

section Frame

variable {K : Type} [LinearOrderedField K] {ds dq du dr dy : Nat}

/-- The body of the loop of `update` leaves `X_Q`, `X_R` and the global
dimension as they are, also when it throws. -/
theorem update_point_frame (i : Nat) (f : GaussianFilter K ds dq du dr dy) :
    (GaussianFilter.update_point i f).state.X_Q = f.X_Q ∧
    (GaussianFilter.update_point i f).state.X_R = f.X_R ∧
    (GaussianFilter.update_point i f).state.global_dimension_ = f.global_dimension_ := by
  unfold GaussianFilter.update_point
  split <;> exact ⟨rfl, rfl, rfl⟩

/-- The call `predict` leaves `X_Q`, `X_R` and the global dimension as they
are, whether it returns or throws. -/
theorem predict_frame (sqrt : K → K)
    (factor : Matrix (Fin ds) (Fin ds) K → Matrix (Fin ds) (Fin ds) K)
    (delta_time : K) (input : Fin du → K) (prior_dist predicted_dist : Gaussian K ds)
    (f : GaussianFilter K ds dq du dr dy) :
    (f.predict sqrt factor delta_time input prior_dist predicted_dist).state.1.X_Q = f.X_Q ∧
    (f.predict sqrt factor delta_time input prior_dist predicted_dist).state.1.X_R = f.X_R ∧
    (f.predict sqrt factor delta_time input prior_dist predicted_dist).state.1.global_dimension_
      = f.global_dimension_ := by
  have hl := forLoop_state
    (fun g : GaussianFilter K ds dq du dr dy =>
      g.X_Q = f.X_Q ∧ g.X_R = f.X_R ∧ g.global_dimension_ = f.global_dimension_)
    (GaussianFilter.predict_point delta_time input)
    (fun i s hs => by
      obtain ⟨h1, h2, h3⟩ := predict_point_frame delta_time input i s
      exact ⟨h1.trans hs.1, h2.trans hs.2.1, h3.trans hs.2.2⟩)
    0 (f.point_set_transform_.forward sqrt prior_dist f.global_dimension_ 0
      f.X_r).state.count_points
    { f with X_r := (f.point_set_transform_.forward sqrt prior_dist f.global_dimension_ 0
      f.X_r).state }
    ⟨rfl, rfl, rfl⟩
  unfold GaussianFilter.predict
  simp only []
  split
  · exact ⟨rfl, rfl, rfl⟩
  · split
    · exact hl
    · exact hl

/-- The call `update` leaves `X_Q`, `X_R` and the global dimension as they are,
whether it returns or throws. -/
theorem update_frame (sqrt : K → K)
    (factor : Matrix (Fin ds) (Fin ds) K → Matrix (Fin ds) (Fin ds) K)
    (y : Fin dy → K) (p q : Nat)
    (s : GaussianFilter K ds dq du dr dy × (Nat → Gaussian K ds)) :
    (GaussianFilter.update sqrt factor y p q s).state.1.X_Q = s.1.X_Q ∧
    (GaussianFilter.update sqrt factor y p q s).state.1.X_R = s.1.X_R ∧
    (GaussianFilter.update sqrt factor y p q s).state.1.global_dimension_
      = s.1.global_dimension_ := by
  have hl := forLoop_state
    (fun g : GaussianFilter K ds dq du dr dy =>
      g.X_Q = s.1.X_Q ∧ g.X_R = s.1.X_R ∧ g.global_dimension_ = s.1.global_dimension_)
    GaussianFilter.update_point
    (fun i t ht => by
      obtain ⟨h1, h2, h3⟩ := update_point_frame i t
      exact ⟨h1.trans ht.1, h2.trans ht.2.1, h3.trans ht.2.2⟩)
    0 (s.1.point_set_transform_.forward sqrt (s.2 p) s.1.global_dimension_ 0
      s.1.X_r).state.count_points
    { s.1 with X_r := (s.1.point_set_transform_.forward sqrt (s.2 p) s.1.global_dimension_ 0
      s.1.X_r).state }
    ⟨rfl, rfl, rfl⟩
  unfold GaussianFilter.update
  simp only []
  split
  · exact ⟨rfl, rfl, rfl⟩
  · split
    · exact hl
    · exact hl

/-- C21: the noise point sets are read-only after construction.  For every
filter state and every call of `predict`, `update` or `predict_and_update`,
with any arguments and whether the call returns or throws, the point sets
`X_Q` and `X_R` (every point and every weight) and `global_dimension` are the
same after the call as before it. -/
theorem noise_point_sets_read_only (sqrt : K → K)
    (factor : Matrix (Fin ds) (Fin ds) K → Matrix (Fin ds) (Fin ds) K)
    (delta_time : K) (input : Fin du → K) (y : Fin dy → K)
    (prior_dist predicted_dist : Gaussian K ds) (p q : Nat)
    (f : GaussianFilter K ds dq du dr dy) (b : Nat → Gaussian K ds) :
    ((f.predict sqrt factor delta_time input prior_dist predicted_dist).state.1.X_Q = f.X_Q ∧
      (f.predict sqrt factor delta_time input prior_dist predicted_dist).state.1.X_R = f.X_R ∧
      (f.predict sqrt factor delta_time input prior_dist
        predicted_dist).state.1.global_dimension_ = f.global_dimension_) ∧
    ((GaussianFilter.update sqrt factor y p q (f, b)).state.1.X_Q = f.X_Q ∧
      (GaussianFilter.update sqrt factor y p q (f, b)).state.1.X_R = f.X_R ∧
      (GaussianFilter.update sqrt factor y p q (f, b)).state.1.global_dimension_
        = f.global_dimension_) ∧
    ((GaussianFilter.predict_and_update sqrt factor delta_time input y p q
        (f, b)).state.1.X_Q = f.X_Q ∧
      (GaussianFilter.predict_and_update sqrt factor delta_time input y p q
        (f, b)).state.1.X_R = f.X_R ∧
      (GaussianFilter.predict_and_update sqrt factor delta_time input y p q
        (f, b)).state.1.global_dimension_ = f.global_dimension_) := by
  refine ⟨predict_frame sqrt factor delta_time input prior_dist predicted_dist f,
    update_frame sqrt factor y p q (f, b), ?_⟩
  unfold GaussianFilter.predict_and_update
  exact andThen_state
    (fun s : GaussianFilter K ds dq du dr dy × (Nat → Gaussian K ds) =>
      s.1.X_Q = f.X_Q ∧ s.1.X_R = f.X_R ∧ s.1.global_dimension_ = f.global_dimension_)
    _ _ (predict_frame sqrt factor delta_time input (b p) (b q) f)
    (fun s hs => by
      obtain ⟨h1, h2, h3⟩ := update_frame sqrt factor y q q s
      exact ⟨h1.trans hs.1, h2.trans hs.2.1, h3.trans hs.2.2⟩)

end Frame

section NormalizeLength

variable {T : Type}

/-- Assignments to elements do not change the size of a vector. -/
theorem foldl_set_length (g : Nat → T) (l : List Nat) (init : List T) :
    (l.foldl (fun output i => output.set i (g i)) init).length = init.length := by
  induction l generalizing init with
  | nil => rfl
  | cons i l ih => rw [List.foldl_cons, ih, List.length_set]

/-- The result of `normalize` has the size of the input, for every element
type. -/
theorem normalize_length [Zero T] [Add T] [Mul T] [Div T] (input : List T) (sum : T) :
    (normalize input sum).length = input.length := by
  unfold normalize
  simp only [foldl_set_length, List.length_replicate]

end NormalizeLength

section Normalize

variable {K : Type} [Field K]

/-- The first loop of `normalize` computes the sum of the elements. -/
theorem foldl_add_getD (l : List K) (a : K) :
    (List.range l.length).foldl (fun old_sum i => old_sum + l.getD i 0) a = a + l.sum := by
  have h := list_eq_map_range l (0 : K)
  have h2 : ((List.range l.length).map fun i => l.getD i 0).foldl (fun x y => x + y) a
      = a + l.sum := by
    rw [← h]
    induction l generalizing a with
    | nil => simp
    | cons x l ih =>
      rw [List.foldl_cons, ih _ (list_eq_map_range l 0), List.sum_cons, add_assoc]
  rw [List.foldl_map] at h2
  exact h2

/-- The second loop of `normalize` after `k` rounds: the first `k` elements
are scaled, the others are still zero. -/
theorem foldl_set_scaled (l : List K) (c : K) :
    ∀ k, k ≤ l.length →
      (List.range k).foldl (fun output i => output.set i (c * l.getD i 0))
          (List.replicate l.length 0)
        = (l.take k).map (fun x => c * x) ++ List.replicate (l.length - k) 0 := by
  intro k
  induction k with
  | zero => intro _; simp
  | succ k ih =>
    intro hk
    rw [List.range_succ, List.foldl_append, ih (by omega)]
    simp only [List.foldl_cons, List.foldl_nil]
    apply List.ext_getElem?
    intro j
    simp only [List.getElem?_set, List.getElem?_append, List.length_map, List.length_take,
      List.length_append, List.length_replicate, List.getElem?_map, List.getElem?_take,
      List.getElem?_replicate]
    have hmin : min k l.length = k := by omega
    have hmin2 : min (k + 1) l.length = k + 1 := by omega
    rw [hmin, hmin2]
    by_cases hj : k = j
    · subst hj
      rw [if_pos rfl, if_pos (by omega), if_pos (by omega), if_pos (by omega),
        List.getD_eq_getElem?_getD, List.getElem?_eq_getElem (by omega)]
      rfl
    · rw [if_neg hj]
      by_cases hj2 : j < k
      · rw [if_pos hj2, if_pos hj2, if_pos (by omega), if_pos (by omega)]
      · have h1 : ¬ j < k + 1 := by omega
        rw [if_neg hj2, if_neg h1]
        by_cases hj3 : j < l.length
        · rw [if_pos (show j - k < l.length - k by omega),
            if_pos (show j - (k + 1) < l.length - (k + 1) by omega)]
        · rw [if_neg (show ¬ j - k < l.length - k by omega),
            if_neg (show ¬ j - (k + 1) < l.length - (k + 1) by omega)]

/-- The function `normalize` in closed form: every element is multiplied by
`sum / (Σ input)`. -/
theorem normalize_eq_map (input : List K) (sum : K) :
    normalize input sum = input.map fun x => sum / input.sum * x := by
  unfold normalize
  simp only [foldl_add_getD, zero_add]
  rw [foldl_set_scaled input _ input.length le_rfl]
  simp

/-- C29 as stated fails.  Scaling cannot give the target sum when the elements
add up to zero: for the empty vector and for `[1, -1]`, with the target sum
`1`, the elements of the result do not add up to `1`.  For an integral element
type the factor is a quotient of integers: `normalize<int>` of `[1, 2]` with
the target sum `1` has the factor `1 / 3 = 0` and returns `[0, 0]`. -/
theorem normalize_counterexample :
    (normalize ([] : List ℚ) 1).sum ≠ 1 ∧ (normalize [(1 : ℚ), -1] 1).sum ≠ 1 ∧
      normalize [(1 : Int), 2] 1 = [0, 0] ∧ (normalize [(1 : Int), 2] 1).sum ≠ 1 := by
  refine ⟨?_, ?_, by decide, by decide⟩
  · rw [normalize_eq_map]
    norm_num
  · rw [normalize_eq_map]
    norm_num

/-- C29 (amended): for every element type, every input vector and every
target sum the result of `normalize(input, sum)` has the length of the input;
and when the element type is a field, where the quotient `sum / old_sum` is
exact, and the elements of the input do not add up to zero, the elements of
the result add up to `sum`. -/
theorem normalize_sum {T : Type} [Zero T] [Add T] [Mul T] [Div T] (values : List T)
    (target : T) (input : List K) (sum : K) (h : input.sum ≠ 0) :
    (normalize values target).length = values.length ∧
      (normalize input sum).length = input.length ∧ (normalize input sum).sum = sum := by
  refine ⟨normalize_length values target, ?_, ?_⟩
  · exact normalize_length input sum
  · rw [normalize_eq_map, List.sum_map_mul_left, List.map_id', div_mul_cancel₀ _ h]

/-- Witness of `normalize_sum`: the integers `[1, 2]` keep their number, and
the weights `[1, 2, 5]` normalised to the sum `1` add up to `1`. -/
theorem normalize_sum_witness :
    (normalize [(1 : Int), 2] 1).length = 2 ∧
      (normalize [(1 : ℚ), 2, 5] 1).length = 3 ∧ (normalize [(1 : ℚ), 2, 5] 1).sum = 1 :=
  normalize_sum [(1 : Int), 2] 1 [(1 : ℚ), 2, 5] 1 (by norm_num)

end Normalize

section JointLoop

variable {K : Type}

/-- A loop that assigns the block `blk i` at the rows `[i·d, i·d + d)` for
`i < c` leaves `blk i` in block `i`, for every block inside the vector. -/
theorem foldl_set_middleRows {n d : Nat} (blk : Nat → Fin d → K) (x0 : Fin n → K) :
    ∀ (c i : Nat), i < c → ∀ (r : Fin d) (h : i * d + r.val < n),
      (List.range c).foldl (fun x i => set_middleRows x (i * d) (blk i)) x0 ⟨i * d + r.val, h⟩
        = blk i r := by
  intro c
  induction c with
  | zero => intro i hi; omega
  | succ c ih =>
    intro i hi r h
    have hr := r.isLt
    rw [List.range_succ, List.foldl_append]
    simp only [List.foldl_cons, List.foldl_nil, set_middleRows]
    by_cases hic : i = c
    · subst hic
      rw [dif_pos ⟨by omega, by omega⟩]
      congr 1
      apply Fin.ext
      simp
    · have hlt : i < c := by omega
      have hmul : (i + 1) * d ≤ c * d := Nat.mul_le_mul_right d hlt
      rw [Nat.add_mul, Nat.one_mul] at hmul
      rw [dif_neg (by omega)]
      exact ih i hlt r h

end JointLoop

section Joint

variable {K : Type} [Field K] {ds dq du : Nat}

/-- A row of a block that lies inside the vector is the row of the vector. -/
theorem middleRows_apply {n : Nat} (v : Fin n → K) (start len : Nat) (r : Fin len)
    (h : start + r.val < n) : middleRows v start len r = v ⟨start + r.val, h⟩ := by
  unfold middleRows
  rw [dif_pos h]

/-- The rows of block `i < count` lie inside a vector of `d · count` rows. -/
theorem block_in_range (d count i : Nat) (hi : i < count) : i * d + d ≤ d * count := by
  have h := Nat.mul_le_mul_right d (show i + 1 ≤ count from hi)
  rw [Nat.add_mul, Nat.one_mul] at h
  rw [Nat.mul_comm d count]
  exact h

/-- C27: `JointProcessModel` replicates the local model block-wise.  For a
joint model built by the constructor (so `count > 0`), every joint state, noise
and input and every `i < count`: the rows `[i·state_dim, (i+1)·state_dim)` lie
inside the result, block `i` of `predict_state(dt, state, noise, input)` is
`local.predict_state` of block `i` of the state, the noise and the input, and
arguments that agree on block `i` give results that agree on block `i`. -/
theorem joint_predict_state_blocks (local_process_model : ProcessModel K ds dq du)
    (count : Int) (J : JointProcessModel K ds dq du)
    (hJ : JointProcessModel.create local_process_model count = some J)
    (delta_time : K) (state : Fin J.state_dimension → K) (noise : Fin J.noise_dimension → K)
    (input : Fin J.input_dimension → K) (i : Nat) (hi : (i : Int) < count) :
    0 < count ∧
    i * ds + ds ≤ J.state_dimension ∧
    middleRows (J.predict_state delta_time state noise input) (i * ds) ds
      = local_process_model.predict_state delta_time (middleRows state (i * ds) ds)
          (middleRows noise (i * dq) dq) (middleRows input (i * du) du) ∧
    ∀ (state2 : Fin J.state_dimension → K) (noise2 : Fin J.noise_dimension → K)
      (input2 : Fin J.input_dimension → K),
      middleRows state2 (i * ds) ds = middleRows state (i * ds) ds →
      middleRows noise2 (i * dq) dq = middleRows noise (i * dq) dq →
      middleRows input2 (i * du) du = middleRows input (i * du) du →
      middleRows (J.predict_state delta_time state2 noise2 input2) (i * ds) ds
        = middleRows (J.predict_state delta_time state noise input) (i * ds) ds := by
  unfold JointProcessModel.create at hJ
  by_cases hc : 0 < count
  · rw [if_pos hc] at hJ
    injection hJ with hJ
    subst hJ
    have hic : i < count.toNat := by omega
    have hin : i * ds + ds ≤ ds * count.toNat := block_in_range ds count.toNat i hic
    have key : ∀ (st : Fin (ds * count.toNat) → K) (no : Fin (dq * count.toNat) → K)
        (inp : Fin (du * count.toNat) → K),
        middleRows (JointProcessModel.predict_state
            (⟨local_process_model, count.toNat⟩ : JointProcessModel K ds dq du)
            delta_time st no inp) (i * ds) ds
          = local_process_model.predict_state delta_time (middleRows st (i * ds) ds)
              (middleRows no (i * dq) dq) (middleRows inp (i * du) du) := by
      intro st no inp
      funext r
      have hr := r.isLt
      have hb : i * ds + r.val < ds * count.toNat := by omega
      rw [middleRows_apply _ _ _ r hb]
      exact foldl_set_middleRows
        (fun i => local_process_model.predict_state delta_time
          (middleRows st (i * ds) ds) (middleRows no (i * dq) dq) (middleRows inp (i * du) du))
        0 count.toNat i hic r hb
    refine ⟨hc, hin, key state noise input, fun state2 noise2 input2 h1 h2 h3 => ?_⟩
    rw [key state2 noise2 input2, key state noise input, h1, h2, h3]
  · rw [if_neg hc] at hJ
    exact absurd hJ (by simp)

/-- Witness of `joint_predict_state_blocks`: two copies of the additive stub
model; block `1` of the joint prediction is the local prediction from block `1`
of the state `[1, 2]` and of the noise `[10, 20]`. -/
theorem joint_predict_state_blocks_witness :
    middleRows (JointProcessModel.predict_state
        (⟨ProcessModelStub ℚ 1, 2⟩ : JointProcessModel ℚ 1 1 0) 0 ![1, 2] ![10, 20] 0)
        (1 * 1) 1
      = (ProcessModelStub ℚ 1).predict_state 0 (middleRows (![1, 2] : Fin 2 → ℚ) (1 * 1) 1)
          (middleRows (![10, 20] : Fin 2 → ℚ) (1 * 1) 1)
          (middleRows (0 : Fin 0 → ℚ) (1 * 0) 0) :=
  (joint_predict_state_blocks (ProcessModelStub ℚ 1) 2
    (⟨ProcessModelStub ℚ 1, 2⟩ : JointProcessModel ℚ 1 1 0) rfl 0 ![1, 2] ![10, 20] 0 1
    (by decide)).2.2.1

/-- A `State` type of a fixed size other than `state_dimension()`: the
assertion of `State::Zero(state_dimension(), 1)` fails, and `predict_state`
returns no vector. -/
theorem predict_state_sized_mismatch (J : JointProcessModel K ds dq du) (StateDim : Int)
    (delta_time : K) (state noise input : List K) (h1 : StateDim ≠ Dynamic)
    (h2 : StateDim ≠ (J.state_dimension : Int)) :
    J.predict_state_sized StateDim delta_time state noise input = none := by
  unfold JointProcessModel.predict_state_sized zero_vector
  rw [if_neg (by rintro (h | h); exact h1 h; exact h2 h)]
  rfl

end Joint

section Messages

/-- C24: the out-of-bounds error records its diagnostics in its message.  For
every index `i` and size `n`, whatever the base class writes around the text:
the message of `OutOfBoundsException(i, n)` contains
`"Index[i] out of bounds [0, n)"`, that of `OutOfBoundsException(i)` contains
`"Index[i] out of bounds"`, that of the default-constructed exception contains
`"Index out of bounds"`; `i` and `n` are printed with their decimal digits, and
for `i = 10`, `n = 8` the texts are the ones the tests look for. -/
theorem out_of_bounds_message (before after : String) (i n : Nat) :
    found ("Index[" ++ toString i ++ "] out of bounds [0, " ++ toString n ++ ")")
      ((OutOfBoundsException.index_size i n).what before after) ∧
    found ("Index[" ++ toString i ++ "] out of bounds")
      ((OutOfBoundsException.index i).what before after) ∧
    found "Index out of bounds" (OutOfBoundsException.default.what before after) ∧
    toString i = String.mk (Nat.toDigits 10 i) ∧
    (OutOfBoundsException.index_size 10 8).message = "Index[10] out of bounds [0, 8)" ∧
    (OutOfBoundsException.index 10).message = "Index[10] out of bounds" := by
  refine ⟨⟨before.data, after.data, ?_⟩, ⟨before.data, after.data, ?_⟩,
    ⟨before.data, after.data, ?_⟩, rfl, by decide, by decide⟩ <;>
  simp [OutOfBoundsException.what, OutOfBoundsException.message, String.data_append]

end Messages

section Accessors

/-- Claim C26 at a failing input: on the filter the constructor builds from
the stub models and the default transform, `process_model()` and
`observation_model()` return the injected models, the member
`point_set_transform_` is the injected transform, and the accessor
`point_set_transform()`, declared to return a pointer to a process model,
yields no value. -/
theorem accessors_of_stub_filter :
    (guarded_filter_outcome ℚ id 1 0 1).thrown = none ∧
    (guarded_filter_outcome ℚ id 1 0 1).state.process_model = some (ProcessModelStub ℚ 1) ∧
    (guarded_filter_outcome ℚ id 1 0 1).state.observation_model
      = some (ObservationModelStub ℚ 1) ∧
    (guarded_filter_outcome ℚ id 1 0 1).state.point_set_transform_
      = UnscentedTransform.default ℚ ∧
    (guarded_filter_outcome ℚ id 1 0 1).state.point_set_transform = none := by
  have hc := create_invariant id (ProcessModelStub ℚ 1) (ObservationModelStub ℚ 1)
    (UnscentedTransform.default ℚ) Dynamic false (fun _ => ⟨0, ⟨0, 0⟩⟩)
    (fun _ => ⟨0, ⟨0, 0⟩⟩) (fun _ => ⟨0, ⟨0, 0⟩⟩) (fun _ => ⟨0, ⟨0, 0⟩⟩) 0 1
    (fun h => by simp at h)
  have hy := create_X_y id (ProcessModelStub ℚ 1) (ObservationModelStub ℚ 1)
    (UnscentedTransform.default ℚ) Dynamic false (fun _ => ⟨0, ⟨0, 0⟩⟩)
    (fun _ => ⟨0, ⟨0, 0⟩⟩) (fun _ => ⟨0, ⟨0, 0⟩⟩) (fun _ => ⟨0, ⟨0, 0⟩⟩) 0 1
    (fun h => by simp at h)
  refine ⟨hc.1, ?_, ?_, hc.2.2.2, rfl⟩
  · rw [GaussianFilter.process_model, guarded_filter_outcome, hc.2.2.1]
    rfl
  · rw [GaussianFilter.observation_model, guarded_filter_outcome, hy.2.1]
    rfl

end Accessors

section TraceLoop

variable {K : Type} {n : Nat}

/-- Sequencing is associative. -/
theorem andThen_assoc {σ : Type} (r : Outcome σ) (f g : σ → Outcome σ) :
    (r.andThen f).andThen g = r.andThen fun s => (f s).andThen g := by
  unfold Outcome.andThen
  cases h : r.thrown with
  | none => rfl
  | some e => simp only [h]

/-- The calls of two lists in a row. -/
theorem run_writes_append (a b : List (PointWrite K n)) (ps : PointSet K n) :
    run_writes (a ++ b) ps = (run_writes a ps).andThen (run_writes b) := by
  induction a generalizing ps with
  | nil => rfl
  | cons w ws ih =>
    rw [List.cons_append, run_writes, run_writes, andThen_assoc]
    congr 1
    funext s
    exact ih s

/-- A loop whose body writes at `i` and at the mirror index `G + i` makes the
calls of the flattened list. -/
theorem forEach_eq_run_writes (G : Nat) (c : Nat → Option Nat) (f g : Nat → Fin n → K)
    (w : Weight K) (l : List Nat) (ps : PointSet K n) :
    forEach (fun i ps => (PointSet.point i (f i) w ps).andThen
        (PointSet.point (G + i) (g i) w)) l ps
      = run_writes (l.flatMap fun i => [⟨i, c i, f i, w⟩, ⟨G + i, c i, g i, w⟩]) ps := by
  induction l generalizing ps with
  | nil => rfl
  | cons i is ih =>
    rw [forEach, List.flatMap_cons, andThen_assoc]
    simp only [List.cons_append, List.nil_append, run_writes]
    congr 1
    funext s
    congr 1
    funext t
    exact ih t

end TraceLoop

section Trace

variable {K : Type} [Field K] {n : Nat}

/-- The linking theorem: after the size check and the resize, `forward` makes
exactly the calls of `forward_writes`, in that order. -/
theorem forward_eq_run_writes (sqrt : K → K) (ut : UnscentedTransform K) (g : Gaussian K n)
    (D o : Nat) (ps : PointSet K n) :
    ut.forward sqrt g D o ps
      = if ps.IsFixed = true ∧ ps.NumberOfPoints ≠ number_of_points (D : Int) then
          Outcome.throw ps Error.WrongSizeException
        else
          (ps.resize (number_of_points (D : Int)).toNat).andThen
            (run_writes (forward_writes sqrt ut g D o)) := by
  unfold UnscentedTransform.forward
  simp only []
  split
  · rfl
  · congr 1
    funext s
    unfold forward_writes forLoop
    simp only [List.append_assoc, List.singleton_append, List.cons_append, List.nil_append]
    rw [run_writes]
    congr 1
    funext s1
    rw [run_writes_append]
    congr 1
    · exact forEach_eq_run_writes D (fun _ => none) _ _ _ _ _
    · funext s2
      rw [run_writes_append]
      congr 1
      · exact forEach_eq_run_writes D (fun i => some (i - o - 1)) _ _ _ _ _
      · funext s3
        exact forEach_eq_run_writes D (fun _ => none) _ _ _ _ _

/-- The indices of a loop that writes at `i` and at `G + i` are, up to order,
the indices `i` followed by the indices `G + i`. -/
theorem flatMap_pair_perm (G : Nat) (l : List Nat) :
    (l.flatMap fun i => [i, G + i]).Perm (l ++ l.map fun i => G + i) := by
  induction l with
  | nil => exact List.Perm.refl _
  | cons i l ih =>
    rw [List.flatMap_cons, List.map_cons, List.cons_append, List.cons_append,
      List.nil_append, List.cons_append]
    exact List.Perm.cons i ((List.Perm.cons (G + i) ih).trans List.perm_middle.symm)

/-- The indices that `forward` writes, in the order of the source: `0`, then
`i` and `D + i` for `i` running through `1..D`. -/
theorem forward_writes_index (sqrt : K → K) (ut : UnscentedTransform K) (g : Gaussian K n)
    (D o : Nat) (hod : o + n ≤ D) :
    (forward_writes sqrt ut g D o).map PointWrite.index
      = 0 :: (List.range' 1 D).flatMap fun i => [i, D + i] := by
  have h1 : 1 + o - 1 = o := by omega
  have h2 : 1 + o + n - (1 + o) = n := by omega
  have h3 : List.range' 1 D
      = List.range' 1 o ++ (List.range' (1 + o) n
          ++ List.range' (1 + o + n) (D + 1 - (1 + o + n))) := by
    rw [List.range'_append_1, List.range'_append_1]
    congr 1
    omega
  unfold forward_writes
  simp only [Gaussian.Dimension, h1, h2, h3, List.map_append, List.map_flatMap,
    List.flatMap_append, List.map_cons, List.map_nil, List.append_assoc,
    List.singleton_append, List.cons_append, List.nil_append]

/-- The columns of the square root that `forward` reads are columns of the
local Gaussian. -/
theorem forward_writes_column (sqrt : K → K) (ut : UnscentedTransform K) (g : Gaussian K n)
    (D o : Nat) (w : PointWrite K n) (hw : w ∈ forward_writes sqrt ut g D o) (k : Nat)
    (hk : w.column = some k) : k < n := by
  unfold forward_writes at hw
  simp only [Gaussian.Dimension, List.mem_append, List.mem_flatMap, List.mem_cons,
    List.mem_singleton, List.mem_range'_1, List.not_mem_nil, or_false] at hw
  rcases hw with ((rfl | ⟨i, _, rfl | rfl⟩) | ⟨i, hi, rfl | rfl⟩) | ⟨i, _, rfl | rfl⟩
  · simp at hk
  · simp at hk
  · simp at hk
  · simp only [Option.some.injEq] at hk
    omega
  · simp only [Option.some.injEq] at hk
    omega
  · simp at hk
  · simp at hk

/-- The indices that `forward` writes are, up to order, `0, 1, …, 2D`. -/
theorem forward_writes_perm (sqrt : K → K) (ut : UnscentedTransform K) (g : Gaussian K n)
    (D o : Nat) (hod : o + n ≤ D) :
    ((forward_writes sqrt ut g D o).map PointWrite.index).Perm (List.range (2 * D + 1)) := by
  rw [forward_writes_index sqrt ut g D o hod, List.range_eq_range', List.range'_succ]
  refine List.Perm.cons 0 ((flatMap_pair_perm D _).trans ?_)
  rw [List.map_add_range', zero_add, Nat.add_comm D 1, List.range'_append_1,
    show D + D = 2 * D by omega]

/-- C30: bounds safety of the transform.  For every `D`, offset `o` and local
dimension `n` with `o + n ≤ D`: after the size check and the resize `forward`
makes exactly the calls of `forward_writes`; their indices are, up to order,
`0, 1, …, 2D`, so each index of `0..2D` is written exactly once and none is
greater than `2D`; every column of the square root that is read is a column
`k < n`; hence on a point set of `2D+1` points `forward` returns without an
error and every entry is the one of the layout, fixed by the arguments alone. -/
theorem forward_bounds_safety (sqrt : K → K) (ut : UnscentedTransform K) (g : Gaussian K n)
    (D o : Nat) (hod : o + n ≤ D) :
    (∀ ps : PointSet K n,
      ut.forward sqrt g D o ps
        = if ps.IsFixed = true ∧ ps.NumberOfPoints ≠ number_of_points (D : Int) then
            Outcome.throw ps Error.WrongSizeException
          else
            (ps.resize (number_of_points (D : Int)).toNat).andThen
              (run_writes (forward_writes sqrt ut g D o))) ∧
    ((forward_writes sqrt ut g D o).map PointWrite.index).Perm (List.range (2 * D + 1)) ∧
    (∀ w ∈ forward_writes sqrt ut g D o, w.index ≤ 2 * D) ∧
    (∀ w ∈ forward_writes sqrt ut g D o, ∀ k, w.column = some k → k < n) ∧
    (∀ ps : PointSet K n, ps.count_points = 2 * D + 1 →
      (ps.IsFixed = true → ps.NumberOfPoints = 2 * (D : Int) + 1) →
      (ut.forward sqrt g D o ps).thrown = none ∧
      (ut.forward sqrt g D o ps).state.entries
        = (List.range (2 * D + 1)).map (layout sqrt ut g D o)) := by
  refine ⟨forward_eq_run_writes sqrt ut g D o, forward_writes_perm sqrt ut g D o hod,
    fun w hw => ?_, fun w hw k hk => forward_writes_column sqrt ut g D o w hw k hk,
    fun ps hc hN => ?_⟩
  · have hmem : w.index ∈ (forward_writes sqrt ut g D o).map PointWrite.index :=
      List.mem_map_of_mem _ hw
    rw [(forward_writes_perm sqrt ut g D o hod).mem_iff, List.mem_range] at hmem
    omega
  · rw [forward_eq_layout sqrt ut g D o ps (fun h => ⟨hN h, hc⟩) hod]
    exact ⟨rfl, rfl⟩

/-- Witness of `forward_bounds_safety`: the worked example, `D = 2`, offset `0`
and local dimension `2`; the indices written are `0, 1, …, 4` up to order. -/
theorem forward_bounds_safety_witness :
    ((forward_writes id (UnscentedTransform.default ℚ) (example_gaussian ℚ) 2 0).map
      PointWrite.index).Perm (List.range (2 * 2 + 1)) :=
  (forward_bounds_safety id (UnscentedTransform.default ℚ) (example_gaussian ℚ) 2 0
    (by decide)).2.1

end Trace

section Stateless

variable {K : Type} [LinearOrderedField K] {ds dq du dr dy : Nat}

/-- Two states of one filter give the same belief from `predict` with equal
arguments, whatever the belief objects written to held before. -/
theorem predict_of_same_filter (sqrt : K → K)
    (factor : Matrix (Fin ds) (Fin ds) K → Matrix (Fin ds) (Fin ds) K)
    (delta_time : K) (input : Fin du → K) (prior_dist g1 g2 : Gaussian K ds)
    (f F : GaussianFilter K ds dq du dr dy) (h : GaussianFilter.same_filter sqrt f F) :
    (f.predict sqrt factor delta_time input prior_dist g1).thrown = none ∧
    (F.predict sqrt factor delta_time input prior_dist g2).thrown = none ∧
    (f.predict sqrt factor delta_time input prior_dist g1).state.2
      = (F.predict sqrt factor delta_time input prior_dist g2).state.2 := by
  obtain ⟨hf, hF, h1, _, h3, _, _, _⟩ := h
  have a := predict_eq sqrt factor delta_time input prior_dist g1 f hf
    _ _ (fun _ => rfl) (fun _ => rfl) _ rfl _ rfl
  have b := predict_eq sqrt factor delta_time input prior_dist g2 F hF
    (fun i => f.process_model_.predict_state delta_time
      (layout sqrt f.point_set_transform_ prior_dist (ds + dq + dr) 0 i).point
      (layout sqrt f.point_set_transform_ (Gaussian.standard K dq) (ds + dq + dr) ds i).point
      input)
    (fun i => (layout sqrt f.point_set_transform_ prior_dist (ds + dq + dr) 0 i).weight)
    (fun i => by rw [h1, h3]) (fun i => by rw [h3]) _ rfl _ rfl
  rw [a, b]
  exact ⟨rfl, rfl, rfl⟩

/-- Two states of one filter give the same belief from `update` with equal
arguments: the observation and the predicted belief. -/
theorem update_of_same_filter (sqrt : K → K)
    (factor : Matrix (Fin ds) (Fin ds) K → Matrix (Fin ds) (Fin ds) K)
    (y : Fin dy → K) (p q p2 q2 : Nat) (f F : GaussianFilter K ds dq du dr dy)
    (b b2 : Nat → Gaussian K ds) (h : GaussianFilter.same_filter sqrt f F)
    (hb : b p = b2 p2) :
    (GaussianFilter.update sqrt factor y p q (f, b)).thrown = none ∧
    (GaussianFilter.update sqrt factor y p2 q2 (F, b2)).thrown = none ∧
    (GaussianFilter.update sqrt factor y p q (f, b)).state.2 q
      = (GaussianFilter.update sqrt factor y p2 q2 (F, b2)).state.2 q2 := by
  obtain ⟨hf, hF, _, h2, h3, h4, h5, h6⟩ := h
  have hY : ∀ (g : GaussianFilter K ds dq du dr dy), g.invariant sqrt →
      g.X_y.entries = (List.range (2 * (ds + dq + dr) + 1)).map
        fun i => g.X_y.entries.getD i ⟨0, ⟨0, 0⟩⟩ := by
    intro g hg
    have hlen : g.X_y.entries.length = 2 * (ds + dq + dr) + 1 := hg.2.2.2.2
    have hl := list_eq_map_range g.X_y.entries (⟨0, ⟨0, 0⟩⟩ : WeightedPoint K dy)
    rw [hlen] at hl
    exact hl
  have hwt : ∀ i, (F.X_y.entries.getD i ⟨0, ⟨0, 0⟩⟩).weight
      = (f.X_y.entries.getD i ⟨0, ⟨0, 0⟩⟩).weight := by
    intro i
    have e1 := List.getD_map F.X_y.entries (⟨0, ⟨0, 0⟩⟩ : WeightedPoint K dy)
      (fun e : WeightedPoint K dy => e.weight) (n := i)
    have e2 := List.getD_map f.X_y.entries (⟨0, ⟨0, 0⟩⟩ : WeightedPoint K dy)
      (fun e : WeightedPoint K dy => e.weight) (n := i)
    rw [← e1, ← e2, h6]
  have a := update_eq sqrt factor y p q f b hf _ (hY f hf) _ _ (fun _ => rfl) (fun _ => rfl)
    _ _ rfl rfl _ rfl _ _ rfl rfl
  have c := update_eq sqrt factor y p2 q2 F b2 hF _ (hY F hF)
    (fun i => layout sqrt f.point_set_transform_ (b p) (ds + dq + dr) 0 i)
    (fun i => f.obsrv_model_.predict_observation
      (layout sqrt f.point_set_transform_ (b p) (ds + dq + dr) 0 i).point
      (layout sqrt f.point_set_transform_ (Gaussian.standard K dr) (ds + dq + dr)
        (ds + dq) i).point 0)
    (fun _ => by rw [h3, hb]) (fun _ => by rw [h2, h3])
    _ (((List.range (2 * (ds + dq + dr) + 1)).map fun i =>
      (f.X_y.entries.getD i ⟨0, ⟨0, 0⟩⟩).weight.w_mean
        • f.obsrv_model_.predict_observation
          (layout sqrt f.point_set_transform_ (b p) (ds + dq + dr) 0 i).point
          (layout sqrt f.point_set_transform_ (Gaussian.standard K dr) (ds + dq + dr)
            (ds + dq) i).point 0).sum)
    rfl (by simp only [hwt]) _ rfl
    (stability_guard f.threshold f.inv_sigma
      (y - ((List.range (2 * (ds + dq + dr) + 1)).map fun i =>
        (f.X_y.entries.getD i ⟨0, ⟨0, 0⟩⟩).weight.w_mean
          • f.obsrv_model_.predict_observation
            (layout sqrt f.point_set_transform_ (b p) (ds + dq + dr) 0 i).point
            (layout sqrt f.point_set_transform_ (Gaussian.standard K dr) (ds + dq + dr)
              (ds + dq) i).point 0).sum)
      (mul_diag_transpose _ _ _))
    _ (by rw [← h4, ← h5]) rfl
  rw [a, c]
  simp only [Outcome.ok, Function.update_same]
  exact ⟨trivial, trivial, trivial⟩

/-- The weights of a list read through `getD` over its indices. -/
theorem map_getD_range {α β : Type} (l : List α) (d : α) (g : α → β) :
    ((List.range l.length).map fun i => g (l.getD i d)) = l.map g := by
  have h := congrArg (List.map g) (list_eq_map_range l d)
  rw [List.map_map] at h
  exact h.symm

/-- A statement that returned normally is followed by the next one. -/
theorem andThen_of_not_thrown {σ : Type} (r : Outcome σ) (f : σ → Outcome σ)
    (h : r.thrown = none) : r.andThen f = f r.state := by
  unfold Outcome.andThen
  rw [h]

/-- The call `predict` returns normally and keeps the filter what it is: the
invariant, the models, the parameters and the weights of `X_y`. -/
theorem predict_keeps (sqrt : K → K)
    (factor : Matrix (Fin ds) (Fin ds) K → Matrix (Fin ds) (Fin ds) K)
    (delta_time : K) (input : Fin du → K) (prior_dist predicted_dist : Gaussian K ds)
    (f0 f : GaussianFilter K ds dq du dr dy) (h : GaussianFilter.same_filter sqrt f0 f) :
    (f.predict sqrt factor delta_time input prior_dist predicted_dist).thrown = none ∧
    GaussianFilter.same_filter sqrt f0
      (f.predict sqrt factor delta_time input prior_dist predicted_dist).state.1 := by
  obtain ⟨h0, hf, h1, h2, h3, h4, h5, h6⟩ := h
  have a := predict_eq sqrt factor delta_time input prior_dist predicted_dist f hf
    _ _ (fun _ => rfl) (fun _ => rfl) _ rfl _ rfl
  rw [a]
  refine ⟨rfl, h0, ?_, h1, h2, h3, h4, h5, h6⟩
  refine invariant_of_frame sqrt f _ hf rfl rfl rfl rfl rfl rfl ?_ hf.2.2.2.2
  simp only [Outcome.ok, PointSet.count_points, List.length_map, List.length_range]

/-- The call `update` returns normally and keeps the filter what it is: the
invariant, the models, the parameters and the weights of `X_y`. -/
theorem update_keeps (sqrt : K → K)
    (factor : Matrix (Fin ds) (Fin ds) K → Matrix (Fin ds) (Fin ds) K)
    (y : Fin dy → K) (p q : Nat) (f0 f : GaussianFilter K ds dq du dr dy)
    (b : Nat → Gaussian K ds) (h : GaussianFilter.same_filter sqrt f0 f) :
    (GaussianFilter.update sqrt factor y p q (f, b)).thrown = none ∧
    GaussianFilter.same_filter sqrt f0
      (GaussianFilter.update sqrt factor y p q (f, b)).state.1 := by
  obtain ⟨h0, hf, h1, h2, h3, h4, h5, h6⟩ := h
  have hlen : f.X_y.entries.length = 2 * (ds + dq + dr) + 1 := hf.2.2.2.2
  have hY0 : f.X_y.entries = (List.range (2 * (ds + dq + dr) + 1)).map
      fun i => f.X_y.entries.getD i ⟨0, ⟨0, 0⟩⟩ := by
    have hl := list_eq_map_range f.X_y.entries (⟨0, ⟨0, 0⟩⟩ : WeightedPoint K dy)
    rw [hlen] at hl
    exact hl
  have hw := map_getD_range f.X_y.entries (⟨0, ⟨0, 0⟩⟩ : WeightedPoint K dy)
    (fun e : WeightedPoint K dy => e.weight)
  rw [hlen] at hw
  have a := update_eq sqrt factor y p q f b hf _ hY0 _ _ (fun _ => rfl) (fun _ => rfl)
    _ _ rfl rfl _ rfl _ _ rfl rfl
  rw [a]
  refine ⟨rfl, h0, ?_, h1, h2, h3, h4, h5, ?_⟩
  · refine invariant_of_frame sqrt f _ hf rfl rfl rfl rfl rfl rfl ?_ ?_
    · simp only [Outcome.ok, PointSet.count_points, List.length_map, List.length_range]
    · simp only [Outcome.ok, PointSet.count_points, List.length_map, List.length_range]
  · simp only [Outcome.ok, List.map_map, Function.comp]
    exact hw.trans h6

/-- Every call returns normally and keeps the filter what it is. -/
theorem call_keeps (sqrt : K → K)
    (factor : Matrix (Fin ds) (Fin ds) K → Matrix (Fin ds) (Fin ds) K)
    (f0 : GaussianFilter K ds dq du dr dy) (c : Call K du dy)
    (s : GaussianFilter K ds dq du dr dy × (Nat → Gaussian K ds))
    (h : GaussianFilter.same_filter sqrt f0 s.1) :
    (GaussianFilter.call sqrt factor c s).thrown = none ∧
    GaussianFilter.same_filter sqrt f0 (GaussianFilter.call sqrt factor c s).state.1 := by
  cases c with
  | predict delta_time input prior_dist predicted_dist =>
    exact predict_keeps sqrt factor delta_time input (s.2 prior_dist) (s.2 predicted_dist)
      f0 s.1 h
  | update y predicted_dist posterior_dist =>
    exact update_keeps sqrt factor y predicted_dist posterior_dist f0 s.1 s.2 h
  | predict_and_update delta_time input observation prior_dist posterior_dist =>
    have hp := predict_keeps sqrt factor delta_time input (s.2 prior_dist)
      (s.2 posterior_dist) f0 s.1 h
    have hpin : (GaussianFilter.predict_in sqrt factor delta_time input prior_dist
        posterior_dist s).thrown = none := hp.1
    show (GaussianFilter.predict_and_update sqrt factor delta_time input observation prior_dist
        posterior_dist s).thrown = none ∧
      GaussianFilter.same_filter sqrt f0
        (GaussianFilter.predict_and_update sqrt factor delta_time input observation
          prior_dist posterior_dist s).state.1
    rw [GaussianFilter.predict_and_update, andThen_of_not_thrown _ _ hpin]
    exact update_keeps sqrt factor observation posterior_dist posterior_dist f0 _ _ hp.2

/-- Every history returns normally and keeps the filter what it is. -/
theorem calls_keeps (sqrt : K → K)
    (factor : Matrix (Fin ds) (Fin ds) K → Matrix (Fin ds) (Fin ds) K)
    (f0 : GaussianFilter K ds dq du dr dy) :
    ∀ (l : List (Call K du dy)) (s : GaussianFilter K ds dq du dr dy × (Nat → Gaussian K ds)),
      GaussianFilter.same_filter sqrt f0 s.1 →
      (GaussianFilter.calls sqrt factor l s).thrown = none ∧
      GaussianFilter.same_filter sqrt f0 (GaussianFilter.calls sqrt factor l s).state.1 := by
  intro l
  induction l with
  | nil => intro s h; exact ⟨rfl, h⟩
  | cons c cs ih =>
    intro s h
    have hc := call_keeps sqrt factor f0 c s h
    rw [GaussianFilter.calls, andThen_of_not_thrown _ _ hc.1]
    exact ih _ hc.2

/-- Two states that are each the same filter as `f0` are the same filter as
one another. -/
theorem same_filter_of_common (sqrt : K → K) (f0 f F : GaussianFilter K ds dq du dr dy)
    (h1 : GaussianFilter.same_filter sqrt f0 f) (h2 : GaussianFilter.same_filter sqrt f0 F) :
    GaussianFilter.same_filter sqrt f F := by
  obtain ⟨_, hf, a1, a2, a3, a4, a5, a6⟩ := h1
  obtain ⟨_, hF, b1, b2, b3, b4, b5, b6⟩ := h2
  exact ⟨hf, hF, b1.trans a1.symm, b2.trans a2.symm, b3.trans a3.symm, b4.trans a4.symm,
    b5.trans a5.symm, b6.trans a6.symm⟩

/-- C22: stateless per tick.  Start from a filter state `f0` that satisfies the
invariant of the constructor and run any two call histories `h1`, `h2` on it,
from any two stores of beliefs.  Both histories return normally and leave the
models, the transform parameters, `threshold` and `inv_sigma` as they were; and
afterwards `predict` with equal `(dt, input, prior)` writes equal beliefs and
`update` with equal `(y, predicted)` writes equal beliefs on the two filter
states, whatever the histories left in `X_r`, `X_y`, `X`, `Y`, `W`,
`prediction`, `innovation` and whatever the belief objects written to held
before. -/
theorem stateless_per_tick (sqrt : K → K)
    (factor : Matrix (Fin ds) (Fin ds) K → Matrix (Fin ds) (Fin ds) K)
    (f0 : GaussianFilter K ds dq du dr dy) (hinv : f0.invariant sqrt)
    (h1 h2 : List (Call K du dy)) (b1 b2 : Nat → Gaussian K ds) :
    (GaussianFilter.calls sqrt factor h1 (f0, b1)).thrown = none ∧
    (GaussianFilter.calls sqrt factor h2 (f0, b2)).thrown = none ∧
    GaussianFilter.same_filter sqrt f0 (GaussianFilter.calls sqrt factor h1 (f0, b1)).state.1 ∧
    GaussianFilter.same_filter sqrt f0 (GaussianFilter.calls sqrt factor h2 (f0, b2)).state.1 ∧
    (∀ (delta_time : K) (input : Fin du → K) (prior_dist g1 g2 : Gaussian K ds),
      ((GaussianFilter.calls sqrt factor h1 (f0, b1)).state.1.predict sqrt factor delta_time
        input prior_dist g1).thrown = none ∧
      ((GaussianFilter.calls sqrt factor h2 (f0, b2)).state.1.predict sqrt factor delta_time
        input prior_dist g2).thrown = none ∧
      ((GaussianFilter.calls sqrt factor h1 (f0, b1)).state.1.predict sqrt factor delta_time
        input prior_dist g1).state.2
        = ((GaussianFilter.calls sqrt factor h2 (f0, b2)).state.1.predict sqrt factor
            delta_time input prior_dist g2).state.2) ∧
    (∀ (y : Fin dy → K) (p q p2 q2 : Nat) (c1 c2 : Nat → Gaussian K ds), c1 p = c2 p2 →
      (GaussianFilter.update sqrt factor y p q
        ((GaussianFilter.calls sqrt factor h1 (f0, b1)).state.1, c1)).thrown = none ∧
      (GaussianFilter.update sqrt factor y p2 q2
        ((GaussianFilter.calls sqrt factor h2 (f0, b2)).state.1, c2)).thrown = none ∧
      (GaussianFilter.update sqrt factor y p q
        ((GaussianFilter.calls sqrt factor h1 (f0, b1)).state.1, c1)).state.2 q
        = (GaussianFilter.update sqrt factor y p2 q2
            ((GaussianFilter.calls sqrt factor h2 (f0, b2)).state.1, c2)).state.2 q2) := by
  have h0 : GaussianFilter.same_filter sqrt f0 f0 :=
    ⟨hinv, hinv, rfl, rfl, rfl, rfl, rfl, rfl⟩
  have k1 := calls_keeps sqrt factor f0 h1 (f0, b1) h0
  have k2 := calls_keeps sqrt factor f0 h2 (f0, b2) h0
  have hs := same_filter_of_common sqrt f0 _ _ k1.2 k2.2
  exact ⟨k1.1, k2.1, k1.2, k2.2,
    fun delta_time input prior_dist g1 g2 =>
      predict_of_same_filter sqrt factor delta_time input prior_dist g1 g2 _ _ hs,
    fun y p q p2 q2 c1 c2 hc =>
      update_of_same_filter sqrt factor y p q p2 q2 _ _ c1 c2 hs hc⟩

/-- Witness of `stateless_per_tick`: the stub filter, once fresh and once after
a `predict` and an `update`; `update` with `y = [1]` from the belief with mean
`3` and covariance `4` writes the same posterior on both. -/
theorem stateless_per_tick_witness :
    (GaussianFilter.update Real.sqrt id ![1] 0 0
      ((GaussianFilter.calls Real.sqrt id []
        ((guarded_filter_outcome ℝ Real.sqrt 1 0 1).state, fun _ => example_prior ℝ)).state.1,
        fun _ => example_prior ℝ)).state.2 0
      = (GaussianFilter.update Real.sqrt id ![1] 0 0
          ((GaussianFilter.calls Real.sqrt id [Call.predict 0 0 0 1, Call.update ![2] 1 1]
            ((guarded_filter_outcome ℝ Real.sqrt 1 0 1).state,
              fun _ => example_prior ℝ)).state.1,
            fun _ => example_prior ℝ)).state.2 0 :=
  ((stateless_per_tick Real.sqrt id (guarded_filter_outcome ℝ Real.sqrt 1 0 1).state
    (guarded_filter_facts Real.sqrt 1 (0 : ℝ) 1).1 []
    [Call.predict 0 0 0 1, Call.update ![2] 1 1] (fun _ => example_prior ℝ)
    (fun _ => example_prior ℝ)).2.2.2.2.2 ![1] 0 0 0 0 (fun _ => example_prior ℝ)
    (fun _ => example_prior ℝ) rfl).2.2

end Stateless

section GuardFrame

variable {K : Type} [LinearOrderedField K] {ds dq du dr dy : Nat}

/-- C31: the stability guard touches only flagged diagonal entries.  On a
filter that satisfies the invariant `update` returns normally, and with
`cov_yy` the guarded and `Y·diag(W)·Yᵗ` the unguarded matrix: every
off-diagonal entry is unchanged; every diagonal entry with
`|innovation[k]| ≤ threshold` (equality included) is unchanged; every diagonal
entry with `|innovation[k]| > threshold` is the unguarded one plus exactly
`inv_sigma`; an entry that differs is such a flagged diagonal entry; and the
posterior is written from `cov_xx = X·diag(W)·Xᵗ` and `cov_xy = X·diag(W)·Yᵗ` as
they were computed, the guard altering neither. -/
theorem guard_touches_flagged_diagonal (sqrt : K → K)
    (factor : Matrix (Fin ds) (Fin ds) K → Matrix (Fin ds) (Fin ds) K)
    (y : Fin dy → K) (p q : Nat) (f : GaussianFilter K ds dq du dr dy)
    (b : Nat → Gaussian K ds) (hinv : f.invariant sqrt)
    (R : Outcome (GaussianFilter K ds dq du dr dy × (Nat → Gaussian K ds)))
    (hR : R = GaussianFilter.update sqrt factor y p q (f, b))
    (unguarded cov_yy : Matrix (Fin dy) (Fin dy) K)
    (hun : unguarded = mul_diag_transpose R.state.1.Y R.state.1.W R.state.1.Y)
    (hyy : cov_yy = stability_guard f.threshold f.inv_sigma R.state.1.innovation unguarded) :
    R.thrown = none ∧
    (∀ a c, a ≠ c → cov_yy a c = unguarded a c) ∧
    (∀ k, |R.state.1.innovation k| ≤ f.threshold → cov_yy k k = unguarded k k) ∧
    (∀ k, |R.state.1.innovation k| > f.threshold →
      cov_yy k k = unguarded k k + f.inv_sigma) ∧
    (∀ a c, cov_yy a c ≠ unguarded a c → a = c ∧ |R.state.1.innovation a| > f.threshold) ∧
    (R.state.2 q).Covariance
      = mul_diag_transpose R.state.1.X R.state.1.W R.state.1.X
        - mul_diag_transpose R.state.1.X R.state.1.W R.state.1.Y * inverse cov_yy * cov_yy
          * (mul_diag_transpose R.state.1.X R.state.1.W R.state.1.Y
            * inverse cov_yy).transpose ∧
    (R.state.2 q).Mean
      = R.state.1.X_r.mean
        + (mul_diag_transpose R.state.1.X R.state.1.W R.state.1.Y * inverse cov_yy).mulVec
            R.state.1.innovation := by
  obtain ⟨h1, _, _, _, _, _, _, _, _, hthr, hisg, hpost⟩ :=
    update_fields sqrt factor y p q f b hinv R hR _ _ rfl rfl
  rw [hthr, hisg, ← hun, ← hyy] at hpost
  have hval : ∀ a c, cov_yy a c
      = unguarded a c + if a = c ∧ |R.state.1.innovation a| > f.threshold then f.inv_sigma
          else 0 := fun a c => by rw [hyy, stability_guard_apply]
  refine ⟨h1, fun a c hac => ?_, fun k hk => ?_, fun k hk => ?_, fun a c hne => ?_, ?_, ?_⟩
  · rw [hval, if_neg (fun h => hac h.1), add_zero]
  · rw [hval, if_neg (fun h => not_lt_of_le hk h.2), add_zero]
  · rw [hval, if_pos ⟨rfl, hk⟩]
  · by_contra hcon
    apply hne
    rw [hval, if_neg hcon, add_zero]
  · rw [hpost, Function.update_same]
  · rw [hpost, Function.update_same]

/-- Witness of `guard_touches_flagged_diagonal`: the stub filter with
`threshold = 0` and `inv_sigma = 1`, updated with `y = [1]` from the standard
normal belief; the innovation `1` is flagged and the diagonal entry grows by
`inv_sigma`. -/
theorem guard_touches_flagged_diagonal_witness :
    stability_guard (guarded_filter_outcome ℝ Real.sqrt 1 0 1).state.threshold
        (guarded_filter_outcome ℝ Real.sqrt 1 0 1).state.inv_sigma
        (guarded_update_outcome ℝ Real.sqrt 0 1).state.1.innovation
        (mul_diag_transpose (guarded_update_outcome ℝ Real.sqrt 0 1).state.1.Y
          (guarded_update_outcome ℝ Real.sqrt 0 1).state.1.W
          (guarded_update_outcome ℝ Real.sqrt 0 1).state.1.Y) 0 0
      = mul_diag_transpose (guarded_update_outcome ℝ Real.sqrt 0 1).state.1.Y
          (guarded_update_outcome ℝ Real.sqrt 0 1).state.1.W
          (guarded_update_outcome ℝ Real.sqrt 0 1).state.1.Y 0 0
        + (guarded_filter_outcome ℝ Real.sqrt 1 0 1).state.inv_sigma :=
  (guard_touches_flagged_diagonal Real.sqrt id ![1] 0 0
    (guarded_filter_outcome ℝ Real.sqrt 1 0 1).state (fun _ => Gaussian.standard ℝ 1)
    (guarded_filter_facts Real.sqrt 1 (0 : ℝ) 1).1
    (guarded_update_outcome ℝ Real.sqrt 0 1) rfl _ _ rfl rfl).2.2.2.1 0
    (by
      rw [(guarded_filter_facts Real.sqrt 1 (0 : ℝ) 1).2.2.1, guarded_update_outcome,
        (update_zero_weights Real.sqrt id ![1] 0 0 _ (fun _ => Gaussian.standard ℝ 1)
          (guarded_filter_facts Real.sqrt 1 (0 : ℝ) 1).1
          (guarded_filter_facts Real.sqrt 1 (0 : ℝ) 1).2.1).2]
      norm_num)

/-- C33: whenever the guarded `cov_yy` is invertible, the posterior covariance
that `update` writes, `cov_xx − K·cov_yy·Kᵗ` with `K = cov_xy · inverse(cov_yy)`,
equals the Schur-complement form `cov_xx − cov_xy · inverse(cov_yy) · cov_xyᵗ`
and equals `cov_xx − K·cov_xyᵗ`. -/
theorem posterior_schur_complement (sqrt : K → K)
    (factor : Matrix (Fin ds) (Fin ds) K → Matrix (Fin ds) (Fin ds) K)
    (y : Fin dy → K) (p q : Nat) (f : GaussianFilter K ds dq du dr dy)
    (b : Nat → Gaussian K ds) (hinv : f.invariant sqrt)
    (R : Outcome (GaussianFilter K ds dq du dr dy × (Nat → Gaussian K ds)))
    (hR : R = GaussianFilter.update sqrt factor y p q (f, b))
    (cov_xx : Matrix (Fin ds) (Fin ds) K) (cov_xy : Matrix (Fin ds) (Fin dy) K)
    (cov_yy : Matrix (Fin dy) (Fin dy) K) (gain : Matrix (Fin ds) (Fin dy) K)
    (hxx : cov_xx = mul_diag_transpose R.state.1.X R.state.1.W R.state.1.X)
    (hxy : cov_xy = mul_diag_transpose R.state.1.X R.state.1.W R.state.1.Y)
    (hyy : cov_yy = stability_guard R.state.1.threshold R.state.1.inv_sigma
      R.state.1.innovation (mul_diag_transpose R.state.1.Y R.state.1.W R.state.1.Y))
    (hgain : gain = cov_xy * inverse cov_yy)
    (hdet : cov_yy.det ≠ 0) :
    R.thrown = none ∧
    (R.state.2 q).Covariance = cov_xx - gain * cov_yy * gain.transpose ∧
    (R.state.2 q).Covariance = cov_xx - cov_xy * inverse cov_yy * cov_xy.transpose ∧
    (R.state.2 q).Covariance = cov_xx - gain * cov_xy.transpose := by
  subst hxx hxy
  obtain ⟨h1, _, _, _, _, _, _, _, _, _, _, hpost⟩ :=
    update_fields sqrt factor y p q f b hinv R hR cov_yy gain hyy hgain
  have hsym : cov_yy.IsSymm := by
    rw [hyy]
    exact stability_guard_isSymm _ _ _ _ (mul_diag_transpose_isSymm _ _)
  have hKG : gain * cov_yy = mul_diag_transpose R.state.1.X R.state.1.W R.state.1.Y := by
    rw [hgain, inverse_eq_inv, Matrix.mul_assoc,
      Matrix.nonsing_inv_mul _ (isUnit_iff_ne_zero.mpr hdet), Matrix.mul_one]
  have hKt : gain.transpose
      = inverse cov_yy * (mul_diag_transpose R.state.1.X R.state.1.W R.state.1.Y).transpose := by
    rw [hgain, Matrix.transpose_mul, inverse_eq_inv, Matrix.transpose_nonsing_inv, hsym.eq]
  have hcov : (R.state.2 q).Covariance
      = mul_diag_transpose R.state.1.X R.state.1.W R.state.1.X
        - gain * cov_yy * gain.transpose := by
    rw [hpost, Function.update_same]
  refine ⟨h1, hcov, ?_, ?_⟩
  · rw [hcov, hKG, hKt, ← Matrix.mul_assoc]
  · rw [hcov, hKG, hKt, ← Matrix.mul_assoc, hgain]

end GuardFrame

section SchurWitness

/-- On the stub filter with `threshold = 0` and `inv_sigma = 1`, updated with
`y = [1]` from the standard normal belief, the guarded `cov_yy` is positive
definite. -/
theorem guarded_update_posDef :
    (stability_guard (guarded_update_outcome ℝ Real.sqrt 0 1).state.1.threshold
      (guarded_update_outcome ℝ Real.sqrt 0 1).state.1.inv_sigma
      (guarded_update_outcome ℝ Real.sqrt 0 1).state.1.innovation
      (mul_diag_transpose (guarded_update_outcome ℝ Real.sqrt 0 1).state.1.Y
        (guarded_update_outcome ℝ Real.sqrt 0 1).state.1.W
        (guarded_update_outcome ℝ Real.sqrt 0 1).state.1.Y)).PosDef := by
  obtain ⟨hinv, hXy, hthr, hisg⟩ := guarded_filter_facts Real.sqrt 1 (0 : ℝ) 1
  have hz := update_zero_weights Real.sqrt id ![1] 0 0 _
    (fun _ => Gaussian.standard ℝ 1) hinv hXy
  obtain ⟨_, _, _, _, _, _, _, _, _, hthr2, hisg2, _⟩ :=
    update_fields Real.sqrt id ![1] 0 0 _ (fun _ => Gaussian.standard ℝ 1) hinv
      (guarded_update_outcome ℝ Real.sqrt 0 1) rfl _ _ rfl rfl
  rw [hthr] at hthr2
  rw [hisg] at hisg2
  rw [stability_guard_eq_add, hthr2, hisg2]
  refine Matrix.PosDef.posSemidef_add (mul_diag_transpose_posSemidef _ _
    (update_default_weights_nonneg Real.sqrt id ![1] 0 0 _
      (fun _ => Gaussian.standard ℝ 1) hinv
      (create_invariant Real.sqrt _ _ _ _ _ _ _ _ _ _ _ (fun h => by simp at h)).2.2.2))
    (Matrix.PosDef.diagonal fun i => ?_)
  rw [guarded_update_outcome, hz.2]
  fin_cases i
  norm_num

/-- Witness of `posterior_schur_complement`: the stub filter with
`threshold = 0` and `inv_sigma = 1`, updated with `y = [1]` from the standard
normal belief; the guarded `cov_yy` is positive definite, hence invertible. -/
theorem posterior_schur_complement_witness :
    ((guarded_update_outcome ℝ Real.sqrt 0 1).state.2 0).Covariance
      = mul_diag_transpose (guarded_update_outcome ℝ Real.sqrt 0 1).state.1.X
          (guarded_update_outcome ℝ Real.sqrt 0 1).state.1.W
          (guarded_update_outcome ℝ Real.sqrt 0 1).state.1.X
        - mul_diag_transpose (guarded_update_outcome ℝ Real.sqrt 0 1).state.1.X
            (guarded_update_outcome ℝ Real.sqrt 0 1).state.1.W
            (guarded_update_outcome ℝ Real.sqrt 0 1).state.1.Y
          * inverse (stability_guard (guarded_update_outcome ℝ Real.sqrt 0 1).state.1.threshold
              (guarded_update_outcome ℝ Real.sqrt 0 1).state.1.inv_sigma
              (guarded_update_outcome ℝ Real.sqrt 0 1).state.1.innovation
              (mul_diag_transpose (guarded_update_outcome ℝ Real.sqrt 0 1).state.1.Y
                (guarded_update_outcome ℝ Real.sqrt 0 1).state.1.W
                (guarded_update_outcome ℝ Real.sqrt 0 1).state.1.Y))
          * (mul_diag_transpose (guarded_update_outcome ℝ Real.sqrt 0 1).state.1.X
              (guarded_update_outcome ℝ Real.sqrt 0 1).state.1.W
              (guarded_update_outcome ℝ Real.sqrt 0 1).state.1.Y).transpose :=
  (posterior_schur_complement Real.sqrt id ![1] 0 0
    (guarded_filter_outcome ℝ Real.sqrt 1 0 1).state (fun _ => Gaussian.standard ℝ 1)
    (guarded_filter_facts Real.sqrt 1 (0 : ℝ) 1).1
    (guarded_update_outcome ℝ Real.sqrt 0 1) rfl _ _ _ _ rfl rfl rfl rfl
    (ne_of_gt guarded_update_posDef.det_pos)).2.2.1

end SchurWitness

section Reproduce

variable {K : Type} [Field K] {ds dq du dr dy : Nat}

end Reproduce

section ReproduceClaim

variable {ds dq du dr dy : Nat}

end ReproduceClaim

section Erfinv

variable {K : Type} [LinearOrderedField K]

/-- C35: the `erfinv` approximation is an odd function.  In the float and in
the double specialisation, for every `x` (in particular for every `x` in
`(−1, 1)`) and whatever `std::log` and `std::sqrt` return,
`erfinv(−x) = −erfinv(x)`: the polynomial factor is computed from
`(1 − x)·(1 + x)` alone; and `erfinv(0) = 0`. -/
theorem erfinv_odd (log sqrt : K → K) (x : K) :
    erfinv_float log sqrt (-x) = -erfinv_float log sqrt x ∧
    erfinv_double log sqrt (-x) = -erfinv_double log sqrt x ∧
    erfinv_float log sqrt 0 = 0 ∧
    erfinv_double log sqrt 0 = 0 := by
  have h : ((1.0 : K) - -x) * (1.0 + -x) = (1.0 - x) * (1.0 + x) := by ring
  refine ⟨?_, ?_, ?_, ?_⟩
  · simp only [erfinv_float, h, mul_neg]
  · simp only [erfinv_double, h, mul_neg]
  · simp only [erfinv_float, mul_zero]
  · simp only [erfinv_double, mul_zero]

end Erfinv

section SingularGuard

variable {K : Type} [LinearOrderedField K] {ds dq du dr dy : Nat}

/-- Columns that are all the zero vector give the zero matrix. -/
theorem mul_diag_transpose_zero_columns {a : Nat} (l : List Nat) (W : List K) :
    mul_diag_transpose (l.map fun _ => (0 : Fin a → K)) W (l.map fun _ => (0 : Fin a → K))
      = 0 := by
  induction l generalizing W with
  | nil => rfl
  | cons i l ih =>
    cases W with
    | nil => rfl
    | cons w W =>
      simp only [List.map_cons, mul_diag_transpose, ih]
      ext r c
      simp

/-- When the observation model returns the zero vector for every state and
noise, `update` returns with the innovation `y` and the unguarded `cov_yy` is
the zero matrix. -/
theorem update_zero_observation (sqrt : K → K)
    (factor : Matrix (Fin ds) (Fin ds) K → Matrix (Fin ds) (Fin ds) K)
    (y : Fin dy → K) (p q : Nat) (f : GaussianFilter K ds dq du dr dy)
    (b : Nat → Gaussian K ds) (hinv : f.invariant sqrt)
    (hobs : ∀ x r dt, f.obsrv_model_.predict_observation x r dt = 0) :
    (GaussianFilter.update sqrt factor y p q (f, b)).state.1.innovation = y ∧
    mul_diag_transpose (GaussianFilter.update sqrt factor y p q (f, b)).state.1.Y
      (GaussianFilter.update sqrt factor y p q (f, b)).state.1.W
      (GaussianFilter.update sqrt factor y p q (f, b)).state.1.Y = 0 := by
  have hlen : f.X_y.entries.length = 2 * (ds + dq + dr) + 1 := hinv.2.2.2.2
  have hY0 : f.X_y.entries = (List.range (2 * (ds + dq + dr) + 1)).map
      fun i => f.X_y.entries.getD i ⟨0, ⟨0, 0⟩⟩ := by
    have h := list_eq_map_range f.X_y.entries (⟨0, ⟨0, 0⟩⟩ : WeightedPoint K dy)
    rw [hlen] at h
    exact h
  have hu := update_eq sqrt factor y p q f b hinv _ hY0 _ _ (fun _ => rfl) (fun _ => rfl)
    _ _ rfl rfl _ rfl _ _ rfl rfl
  rw [hu]
  have hz : ∀ (l : List Nat) (w : Nat → K),
      (l.map fun i => w i • (0 : Fin dy → K)).sum = 0 := by
    intro l w
    induction l with
    | nil => rfl
    | cons a l ih => rw [List.map_cons, List.sum_cons, ih, smul_zero, add_zero]
  simp only [Outcome.ok, hobs, hz, sub_zero]
  exact ⟨trivial, mul_diag_transpose_zero_columns _ _⟩

end SingularGuard

section SingularWitness

/-- C16 as stated fails: nothing keeps the guarded `cov_yy` invertible.  On
the filter of `zero_filter_outcome` (`threshold = 0`, `inv_sigma = 1`), whose
observation model reports the zero vector, the call `update` with `y = [0]`
from the standard normal belief returns normally; the innovation `0` does not
exceed the threshold, the guarded `cov_yy` is the zero matrix, and the
posterior that the call writes is not a belief of numbers, so its covariance
is no symmetric matrix. -/
theorem covariance_symmetric_counterexample :
    (zero_update_outcome ℝ Real.sqrt).thrown = none ∧
    (zero_update_outcome ℝ Real.sqrt).state.1.guarded_cov_yy = 0 ∧
    (zero_update_outcome ℝ Real.sqrt).state.1.guarded_cov_yy.det = 0 ∧
    ¬ ∃ posterior, GaussianFilter.update_posterior Real.sqrt id ![0] 0 0
          ((zero_filter_outcome ℝ Real.sqrt).state, fun _ => Gaussian.standard ℝ 1)
        = some posterior ∧ posterior.Covariance.IsSymm := by
  have hc := create_invariant Real.sqrt (ProcessModelStub ℝ 1) (ObservationModelZero ℝ 1)
    (UnscentedTransform.default ℝ) Dynamic false (fun _ => ⟨0, ⟨0, 0⟩⟩)
    (fun _ => ⟨0, ⟨0, 0⟩⟩) (fun _ => ⟨0, ⟨0, 0⟩⟩) (fun _ => ⟨0, ⟨0, 0⟩⟩) 0 1
    (fun h => by simp at h)
  have hy := create_X_y Real.sqrt (ProcessModelStub ℝ 1) (ObservationModelZero ℝ 1)
    (UnscentedTransform.default ℝ) Dynamic false (fun _ => ⟨0, ⟨0, 0⟩⟩)
    (fun _ => ⟨0, ⟨0, 0⟩⟩) (fun _ => ⟨0, ⟨0, 0⟩⟩) (fun _ => ⟨0, ⟨0, 0⟩⟩) 0 1
    (fun h => by simp at h)
  have hinv : (zero_filter_outcome ℝ Real.sqrt).state.invariant Real.sqrt := hc.2.1
  have hobs : ∀ x r dt,
      (zero_filter_outcome ℝ Real.sqrt).state.obsrv_model_.predict_observation x r dt = 0 := by
    intro x r dt
    rw [zero_filter_outcome, hy.2.1]
    rfl
  have hthr : (zero_filter_outcome ℝ Real.sqrt).state.threshold = 0 := hy.2.2.1
  obtain ⟨hinn, hcov⟩ := update_zero_observation Real.sqrt id ![0] 0 0 _
    (fun _ => Gaussian.standard ℝ 1) hinv hobs
  obtain ⟨h1, _, _, _, _, _, _, _, _, hthr2, _, _⟩ :=
    update_fields Real.sqrt id ![0] 0 0 _ (fun _ => Gaussian.standard ℝ 1) hinv
      (zero_update_outcome ℝ Real.sqrt) rfl _ _ rfl rfl
  rw [hthr] at hthr2
  have hG : (zero_update_outcome ℝ Real.sqrt).state.1.guarded_cov_yy = 0 := by
    rw [GaussianFilter.guarded_cov_yy, stability_guard_eq_add, hthr2, zero_update_outcome,
      hinn, hcov, zero_add]
    ext a c
    fin_cases a
    fin_cases c
    simp
  have hdet : (zero_update_outcome ℝ Real.sqrt).state.1.guarded_cov_yy.det = 0 := by
    rw [hG, Matrix.det_zero ⟨0⟩]
  refine ⟨h1, hG, hdet, ?_⟩
  rintro ⟨posterior, hp, _⟩
  simp only [GaussianFilter.update_posterior] at hp
  rw [if_pos ⟨h1, hdet⟩] at hp
  exact Option.noConfusion hp

/-- Witness of `update_kalman_correction`: the stub filter with
`threshold = 0` and `inv_sigma = 1`, updated with `y = [1]` from the standard
normal belief.  The guarded `cov_yy` is positive definite, hence invertible,
and the covariance written is `cov_xx − K·cov_yy·Kᵗ`. -/
theorem update_kalman_correction_witness :
    (guarded_update_outcome ℝ Real.sqrt 0 1).state.1.guarded_cov_yy.det ≠ 0 ∧
    ((guarded_update_outcome ℝ Real.sqrt 0 1).state.2 0).Covariance
      = mul_diag_transpose (guarded_update_outcome ℝ Real.sqrt 0 1).state.1.X
          (guarded_update_outcome ℝ Real.sqrt 0 1).state.1.W
          (guarded_update_outcome ℝ Real.sqrt 0 1).state.1.X
        - mul_diag_transpose (guarded_update_outcome ℝ Real.sqrt 0 1).state.1.X
              (guarded_update_outcome ℝ Real.sqrt 0 1).state.1.W
              (guarded_update_outcome ℝ Real.sqrt 0 1).state.1.Y
            * inverse (guarded_update_outcome ℝ Real.sqrt 0 1).state.1.guarded_cov_yy
            * (guarded_update_outcome ℝ Real.sqrt 0 1).state.1.guarded_cov_yy
            * (mul_diag_transpose (guarded_update_outcome ℝ Real.sqrt 0 1).state.1.X
                (guarded_update_outcome ℝ Real.sqrt 0 1).state.1.W
                (guarded_update_outcome ℝ Real.sqrt 0 1).state.1.Y
              * inverse
                (guarded_update_outcome ℝ Real.sqrt 0 1).state.1.guarded_cov_yy).transpose :=
  ⟨ne_of_gt guarded_update_posDef.det_pos,
    ((update_kalman_correction Real.sqrt id ![1] 0 0
      (guarded_filter_outcome ℝ Real.sqrt 1 0 1).state (fun _ => Gaussian.standard ℝ 1)
      (guarded_filter_facts Real.sqrt 1 (0 : ℝ) 1).1
      (guarded_update_outcome ℝ Real.sqrt 0 1) rfl _ _ _ _ rfl rfl rfl rfl).2.2.2.2.2.2.2.2.2.2
      (ne_of_gt guarded_update_posDef.det_pos)).2.2.2.2.1⟩

/-- Witness of `covariance_symmetric`: the stub filter for a one-dimensional
state, predicting from the prior with mean `3` and covariance `4` and updating
with `y = [1]` from the standard normal belief, where the guarded `cov_yy` is
positive definite. -/
theorem covariance_symmetric_witness :
    ((guarded_filter_outcome ℝ Real.sqrt 1 0 1).state.predict Real.sqrt id 0 0
      (example_prior ℝ) (example_prior ℝ)).state.2.Covariance.IsSymm ∧
    (guarded_update_outcome ℝ Real.sqrt 0 1).state.1.guarded_cov_yy.det ≠ 0 ∧
    GaussianFilter.update_posterior Real.sqrt id ![1] 0 0
        ((guarded_filter_outcome ℝ Real.sqrt 1 0 1).state, fun _ => Gaussian.standard ℝ 1)
      = some ((guarded_update_outcome ℝ Real.sqrt 0 1).state.2 0) ∧
    ((guarded_update_outcome ℝ Real.sqrt 0 1).state.2 0).Covariance.IsSymm :=
  ⟨(covariance_symmetric Real.sqrt id 0 0 (example_prior ℝ) (example_prior ℝ) ![1] 0 0
      (guarded_filter_outcome ℝ Real.sqrt 1 0 1).state (fun _ => Gaussian.standard ℝ 1)
      (guarded_filter_facts Real.sqrt 1 (0 : ℝ) 1).1).2.1,
    ne_of_gt guarded_update_posDef.det_pos,
    (covariance_symmetric Real.sqrt id 0 0 (example_prior ℝ) (example_prior ℝ) ![1] 0 0
      (guarded_filter_outcome ℝ Real.sqrt 1 0 1).state (fun _ => Gaussian.standard ℝ 1)
      (guarded_filter_facts Real.sqrt 1 (0 : ℝ) 1).1).2.2.2
      (ne_of_gt guarded_update_posDef.det_pos)⟩

end SingularWitness

section SpecialFunctions

end SpecialFunctions

end fl
